import Mathlib

/-!
Verification of the `zerocrush` streaming codec (src/src/lib.rs).

The Rust source is shallowly embedded: machine integers (`u8`, `u32`,
`usize`) become `Nat` with explicit `% 2 ^ w` masking at the points where
the Rust type would truncate; byte slices become `List Nat` of values
`< 256` (ingested values are masked with `% 256`, matching the `u8` type
of the source slices); the `loop` in each `step` function is driven by an
explicit fuel argument (the Rust loop has no bound in the text, so a
result is only reported when the loop exits within the given fuel, and
every theorem about `step` is conditioned on such a result).  Output
buffers become a capacity `cap : Nat` plus the list `out` of bytes
written so far: `produced.get_mut(produced_len)` succeeds exactly when
`out.length < cap`.
-/

set_option maxRecDepth 100000

/-- Number of binary digits of `n`, by structural recursion on a gas
argument (`bitLen g n` is exact whenever `n < 2 ^ g`). -/
def bitLen : Nat → Nat → Nat
  | 0, _ => 0
  | g + 1, n => if n = 0 then 0 else bitLen g (n / 2) + 1

/-- `u32::leading_zeros` of the Rust source, for values `n < 2 ^ 32`. -/
def u32_leading_zeros (n : Nat) : Nat := 32 - bitLen 32 n

/-- `u8::leading_zeros` of the Rust source, for values `n < 2 ^ 8`. -/
def u8_leading_zeros (n : Nat) : Nat := 8 - bitLen 8 n

/-- `u8::leading_ones` of the Rust source: leading zeros of the complement. -/
def u8_leading_ones (n : Nat) : Nat := u8_leading_zeros ((n % 256) ^^^ 255)

/-- `DecoderState` of the source (src/src/lib.rs, lines 8-21). -/
inductive DecoderState where
  | canConsume : DecoderState
  | canProduce : DecoderState
  | terminated (corrupted : Bool) (unaligned : Bool) : DecoderState
deriving DecidableEq, Repr

/-- `Decoder` of the source (src/src/lib.rs, lines 24-36), fields in source
order.  `symbol_data` models a `u32`, `output_data` a `u8`. -/
structure Decoder where
  symbol_bits : Nat
  queued_bits : Nat
  output_bits : Nat
  symbol_data : Nat
  output_data : Nat
  queued_mode : Bool
  symbol_mode : Bool
  symbol_term : Bool
deriving DecidableEq, Repr

/-- `Decoder::new` (src/src/lib.rs, lines 40-53): the all-zero state. -/
def Decoder.new : Decoder := ⟨0, 0, 0, 0, 0, false, false, false⟩

/-- The `while self.symbol_bits < 24` filling loop at the head of
`Decoder::consume` (src/src/lib.rs, lines 103-111), with an explicit
iteration counter.  Each pass adds exactly 8 bits, so from any state three
passes reach `symbol_bits ≥ 24`; the `0` case is only ever taken when the
guard is already false and returns exactly what the loop exit returns. -/
def Decoder.fillGo : Nat → Decoder → List Nat → Nat → Decoder × Nat × Bool
  | 0, s, _, cl => (s, cl, false)
  | g + 1, s, input, cl =>
    if s.symbol_bits < 24 then
      match input.get? cl with
      | none => (s, cl, true)
      | some b =>
        Decoder.fillGo g
          { s with
            symbol_data := s.symbol_data ||| (b % 256) <<< (24 - s.symbol_bits)
            symbol_bits := s.symbol_bits + 8 }
          input (cl + 1)
    else (s, cl, false)

/-- The filling loop of `Decoder::consume`: three passes always suffice. -/
def Decoder.fill (s : Decoder) (input : List Nat) (cl : Nat) :
    Decoder × Nat × Bool :=
  Decoder.fillGo 3 s input cl

/-- The symbol-parsing tail of `Decoder::consume` (src/src/lib.rs, lines
113-161): computes `(shift_out, count, cont)` from the 32-bit window, sets
`symbol_term` on payload `0xFFF`, advances the window, queues the decoded
run and toggles `symbol_mode` unless the symbol was a continuation. -/
def Decoder.parse (s : Decoder) : Decoder :=
  let prefix_len := u32_leading_zeros s.symbol_data
  let r : Nat × Nat × Bool × Bool :=
    if prefix_len < 12 then
      if s.symbol_mode then (prefix_len + 1, prefix_len + 1, false, false)
      else
        let shift_out := 2 * (prefix_len + 1)
        let mask := (1 <<< (prefix_len + 1)) - 1
        let payload := (s.symbol_data >>> (32 - shift_out)) % 2 ^ 16
        (shift_out, (payload &&& mask) + mask, false, false)
    else
      let payload := ((s.symbol_data >>> 8) % 2 ^ 16) &&& 0xFFF
      if payload = 0xFFF then (24, 0, false, true)
      else if payload = 0xFFE then (24, 0, false, false)
      else (24, if s.symbol_mode then payload + 13 else payload + 8191,
        payload == 0xFFD, false)
  match r with
  | (shift_out, count, cont, term) =>
    { s with
      symbol_bits := s.symbol_bits - shift_out
      symbol_data := (s.symbol_data <<< shift_out) % 2 ^ 32
      queued_bits := if 0 < count then count else s.queued_bits
      queued_mode := if 0 < count then s.symbol_mode else s.queued_mode
      symbol_mode := if cont then s.symbol_mode else !s.symbol_mode
      symbol_term := s.symbol_term || term }

/-- `Decoder::consume` (src/src/lib.rs, lines 101-165): returns the updated
state, the updated `consumed_len`, and the `bool` result (`true` means the
enclosing `step` loop must return `CanConsume`). -/
def Decoder.consume (s : Decoder) (input : List Nat) (cl : Nat) :
    Decoder × Nat × Bool :=
  if s.queued_bits = 0 ∧ s.symbol_term = false then
    match Decoder.fill s input cl with
    | (s1, cl1, true) => (s1, cl1, true)
    | (s1, cl1, false) => (Decoder.parse s1, cl1, false)
  else (s, cl, false)

/-- `Decoder::produce` (src/src/lib.rs, lines 167-210): the output buffer is
`cap` (its length) plus `out` (the bytes written so far, so `produced_len`
is `out.length`).  Returns the updated state, the updated output, and the
`bool` result (`true` means `CanProduce`). -/
def Decoder.produce (s : Decoder) (cap : Nat) (out : List Nat) :
    Decoder × List Nat × Bool :=
  if s.output_bits = 0 ∧ 8 ≤ s.queued_bits then
    let transfer := min (s.queued_bits / 8) (cap - out.length)
    if transfer = 0 then (s, out, true)
    else
      ({ s with queued_bits := s.queued_bits - transfer * 8 },
        out ++ List.replicate transfer (if s.queued_mode then 0xFF else 0x00),
        false)
  else if s.output_bits ≠ 8 ∧ s.queued_bits ≠ 0 then
    let amount := min (8 - s.output_bits) s.queued_bits
    let word := if s.queued_mode then (1 <<< amount) - 1 else 0
    ({ s with
        output_data := ((s.output_data <<< amount) % 256) ||| word
        output_bits := s.output_bits + amount
        queued_bits := s.queued_bits - amount }, out, false)
  else if s.output_bits = 8 then
    if out.length < cap then
      ({ s with output_data := 0, output_bits := 0 },
        out ++ [s.output_data], false)
    else (s, out, true)
  else (s, out, false)

/-- `Decoder::step` (src/src/lib.rs, lines 61-90), with the `loop` driven by
`fuel`: `none` means the loop did not exit within `fuel` iterations. -/
def Decoder.step : Nat → Decoder → List Nat → Nat → Nat → List Nat →
    Option (Decoder × Nat × List Nat × DecoderState)
  | 0, _, _, _, _, _ => none
  | fuel + 1, s, input, cl, cap, out =>
    match Decoder.consume s input cl with
    | (s1, cl1, true) => some (s1, cl1, out, .canConsume)
    | (s1, cl1, false) =>
      match Decoder.produce s1 cap out with
      | (s2, out2, true) => some (s2, cl1, out2, .canProduce)
      | (s2, out2, false) =>
        if s2.symbol_term then
          some (s2, cl1, out2,
            .terminated (s2.symbol_data != 0) (s2.output_bits != 0))
        else Decoder.step fuel s2 input cl1 cap out2

/-- `Decoder::partial_output_byte` (src/src/lib.rs, lines 93-99). -/
def Decoder.partial_output_byte (s : Decoder) : Option (Nat × Nat) :=
  if s.symbol_term = true ∧ s.output_bits ≠ 0 then
    some (s.output_data, s.output_bits)
  else none

/-- `DecodeSliceError` of the source (src/src/lib.rs, lines 548-557). -/
inductive DecodeSliceError where
  | TruncatedInput : DecodeSliceError
  | NeedsMoreSpace : DecodeSliceError
  | Corrupted : DecodeSliceError
  | Unaligned : DecodeSliceError
deriving DecidableEq, Repr

/-- `decode_from_slice` (src/src/lib.rs, lines 560-581).  The Rust function
returns `Ok(produced_len)` with the decoded bytes in the caller's buffer;
here the decoded bytes themselves are returned (their length is the Rust
return value).  `none` propagates fuel exhaustion of the inner `step`. -/
def decode_from_slice (fuel : Nat) (input : List Nat) (cap : Nat) :
    Option (Except DecodeSliceError (List Nat)) :=
  match Decoder.step fuel Decoder.new input 0 cap [] with
  | none => none
  | some (_, _, out, st) =>
    some (match st with
      | .canConsume => .error .TruncatedInput
      | .canProduce => .error .NeedsMoreSpace
      | .terminated c u =>
        if c then .error .Corrupted
        else if u then .error .Unaligned
        else .ok out)

/-- `EncoderState` of the source (src/src/lib.rs, lines 220-228). -/
inductive EncoderState where
  | canConsume : EncoderState
  | canProduce : EncoderState
  | terminated : EncoderState
deriving DecidableEq, Repr

/-- `Encoder` of the source (src/src/lib.rs, lines 231-245), fields in
source order.  `symbol_data` models a `u32`, `output_data` a `u8`. -/
structure Encoder where
  symbol_bits : Nat
  queued_bits : Nat
  output_bits : Nat
  symbol_data : Nat
  output_data : Nat
  queued_done : Bool
  queued_mode : Bool
  symbol_term : Bool
  queued_term : Bool
  output_term : Bool
deriving DecidableEq, Repr

/-- `Encoder::new` (src/src/lib.rs, lines 249-264): the all-zero state. -/
def Encoder.new : Encoder :=
  ⟨0, 0, 0, 0, 0, false, false, false, false, false⟩

/-- `Encoder::set_consumed_bytes_end` (src/src/lib.rs, lines 298-300). -/
def Encoder.set_consumed_bytes_end (s : Encoder) : Encoder :=
  { s with queued_term := true }

/-- The run-extraction tail of `Encoder::consume` (src/src/lib.rs, lines
313-341): everything after the input-pulling stanza. -/
def Encoder.scan (s : Encoder) : Encoder :=
  if s.queued_done then s
  else if 0 < s.output_bits ∨ 0 < s.queued_bits then
    let count0 :=
      if s.queued_mode then u8_leading_ones s.output_data
      else u8_leading_zeros s.output_data
    let count := min count0 s.output_bits
    if count = 0 then { s with queued_mode := !s.queued_mode, queued_done := true }
    else
      { s with
        output_data :=
          if count < 8 then (s.output_data <<< count) % 256 else s.output_data
        output_bits := s.output_bits - count
        queued_bits := s.queued_bits + count }
  else { s with symbol_term := true }

/-- `Encoder::consume` (src/src/lib.rs, lines 302-342): the input-pulling
stanza (which alone can `return true`, meaning `CanConsume`), then the
run-extraction tail. -/
def Encoder.consume (s : Encoder) (input : List Nat) (cl : Nat) :
    Encoder × Nat × Bool :=
  if s.output_bits = 0 ∧ s.symbol_term = false then
    match input.get? cl with
    | some b =>
      (Encoder.scan { s with output_data := b % 256, output_bits := 8 },
        cl + 1, false)
    | none =>
      if s.queued_term = false then (s, cl, true)
      else (Encoder.scan s, cl, false)
  else (Encoder.scan s, cl, false)

/-- The `else if self.queued_done` emission block of `Encoder::produce`
(src/src/lib.rs, lines 354-517): packs the completed run into
`symbol_data` using the length table of the active `queued_mode`.  Every
`match` arm of the source performs the same three updates (OR a shifted
pattern into `symbol_data`, advance `symbol_bits`, settle the queue), so
the arms are rendered as an `if` chain in source order computing the
quadruple `(ORed bits, symbol width, new queued_bits, new queued_done)`,
applied by a single record update; the two continuation arms (`12284..`
and `4106..`) subtract the continuation length and leave `queued_done`
as it was (the source leaves it set), all others clear the queue. -/
def Encoder.emitRun (s : Encoder) : Encoder :=
  let r : Nat × Nat × Nat × Bool :=
    if s.queued_mode then
      if s.queued_bits = 0 then
        (0xFFE <<< (8 - s.symbol_bits), 24, 0, false)
      else if s.queued_bits ≤ 2 then
        ((0b10 ||| (s.queued_bits - 1)) <<< (30 - s.symbol_bits), 2, 0, false)
      else if s.queued_bits ≤ 6 then
        ((0b0100 ||| (s.queued_bits - 3)) <<< (28 - s.symbol_bits), 4, 0, false)
      else if s.queued_bits ≤ 14 then
        ((0b001000 ||| (s.queued_bits - 7)) <<< (26 - s.symbol_bits), 6, 0, false)
      else if s.queued_bits ≤ 30 then
        ((0b00010000 ||| (s.queued_bits - 15)) <<< (24 - s.symbol_bits), 8, 0, false)
      else if s.queued_bits ≤ 62 then
        ((0b0000100000 ||| (s.queued_bits - 31)) <<< (22 - s.symbol_bits), 10, 0, false)
      else if s.queued_bits ≤ 126 then
        ((0b000001000000 ||| (s.queued_bits - 63)) <<< (20 - s.symbol_bits), 12, 0, false)
      else if s.queued_bits ≤ 254 then
        ((0b00000010000000 ||| (s.queued_bits - 127)) <<< (18 - s.symbol_bits), 14, 0, false)
      else if s.queued_bits ≤ 510 then
        ((0b0000000100000000 ||| (s.queued_bits - 255)) <<< (16 - s.symbol_bits), 16, 0, false)
      else if s.queued_bits ≤ 1022 then
        ((0b000000001000000000 ||| (s.queued_bits - 511)) <<< (14 - s.symbol_bits), 18, 0, false)
      else if s.queued_bits ≤ 2046 then
        ((0b00000000010000000000 ||| (s.queued_bits - 1023)) <<< (12 - s.symbol_bits), 20, 0, false)
      else if s.queued_bits ≤ 4094 then
        ((0b0000000000100000000000 ||| (s.queued_bits - 2047)) <<< (10 - s.symbol_bits), 22, 0, false)
      else if s.queued_bits ≤ 8190 then
        ((0b000000000001000000000000 ||| (s.queued_bits - 4095)) <<< (8 - s.symbol_bits), 24, 0, false)
      else if s.queued_bits ≤ 12283 then
        ((s.queued_bits - 8191) <<< (8 - s.symbol_bits), 24, 0, false)
      else
        (0xFFD <<< (8 - s.symbol_bits), 24, s.queued_bits - 12284, s.queued_done)
    else
      if s.queued_bits = 0 then
        (0xFFE <<< (8 - s.symbol_bits), 24, 0, false)
      else if s.queued_bits = 1 then
        (0b1 <<< (31 - s.symbol_bits), 1, 0, false)
      else if s.queued_bits = 2 then
        (0b01 <<< (30 - s.symbol_bits), 2, 0, false)
      else if s.queued_bits = 3 then
        (0b001 <<< (29 - s.symbol_bits), 3, 0, false)
      else if s.queued_bits = 4 then
        (0b0001 <<< (28 - s.symbol_bits), 4, 0, false)
      else if s.queued_bits = 5 then
        (0b00001 <<< (27 - s.symbol_bits), 5, 0, false)
      else if s.queued_bits = 6 then
        (0b000001 <<< (26 - s.symbol_bits), 6, 0, false)
      else if s.queued_bits = 7 then
        (0b0000001 <<< (25 - s.symbol_bits), 7, 0, false)
      else if s.queued_bits = 8 then
        (0b00000001 <<< (24 - s.symbol_bits), 8, 0, false)
      else if s.queued_bits = 9 then
        (0b000000001 <<< (23 - s.symbol_bits), 9, 0, false)
      else if s.queued_bits = 10 then
        (0b0000000001 <<< (22 - s.symbol_bits), 10, 0, false)
      else if s.queued_bits = 11 then
        (0b00000000001 <<< (21 - s.symbol_bits), 11, 0, false)
      else if s.queued_bits = 12 then
        (0b000000000001 <<< (20 - s.symbol_bits), 12, 0, false)
      else if s.queued_bits ≤ 4105 then
        ((s.queued_bits - 13) <<< (8 - s.symbol_bits), 24, 0, false)
      else
        (0xFFD <<< (8 - s.symbol_bits), 24, s.queued_bits - 4106, s.queued_done)
  match r with
  | (bits, width, qb, qd) =>
    { s with
      symbol_data := s.symbol_data ||| bits
      symbol_bits := s.symbol_bits + width
      queued_bits := qb
      queued_done := qd }

/-- The `while self.symbol_bits >= 8` flushing loop of `Encoder::produce`
(src/src/lib.rs, lines 520-530), with an explicit iteration counter.  Each
pass removes exactly 8 bits, so starting the counter at `symbol_bits`
itself always covers the loop; the `0` case is then only reached with
`symbol_bits = 0` and returns exactly what the loop exit returns. -/
def Encoder.flushGo : Nat → Encoder → Nat → List Nat →
    Encoder × List Nat × Bool
  | 0, s, _, out => (s, out, false)
  | g + 1, s, cap, out =>
    if 8 ≤ s.symbol_bits then
      if out.length < cap then
        Encoder.flushGo g
          { s with
            symbol_data := (s.symbol_data <<< 8) % 2 ^ 32
            symbol_bits := s.symbol_bits - 8 }
          cap (out ++ [(s.symbol_data >>> 24) % 256])
      else (s, out, true)
    else (s, out, false)

/-- The flushing loop of `Encoder::produce`. -/
def Encoder.flush (s : Encoder) (cap : Nat) (out : List Nat) :
    Encoder × List Nat × Bool :=
  Encoder.flushGo s.symbol_bits s cap out

/-- The `if self.symbol_bits <= 8` head of `Encoder::produce`
(src/src/lib.rs, lines 345-518): when at most 8 symbol bits are pending,
either inject the end-of-stream marker `0xFFF` (as 24 bits from an empty
window, else as 32) or emit a completed run. -/
def Encoder.emitPhase (s : Encoder) : Encoder :=
  if s.symbol_bits ≤ 8 then
    if s.symbol_term = true ∧ s.output_term = false then
      { s with
        symbol_data := s.symbol_data ||| 0xFFF <<< (8 - s.symbol_bits)
        symbol_bits := if s.symbol_bits = 0 then 24 else 32 }
    else if s.queued_done then Encoder.emitRun s
    else s
  else s

/-- `Encoder::produce` (src/src/lib.rs, lines 344-537): the emission head,
then the whole-byte flushing loop (an early `CanProduce` return skips the
trailing `output_term` update, exactly as the Rust `return true` does). -/
def Encoder.produce (s : Encoder) (cap : Nat) (out : List Nat) :
    Encoder × List Nat × Bool :=
  match Encoder.flush (Encoder.emitPhase s) cap out with
  | (s2, out2, true) => (s2, out2, true)
  | (s2, out2, false) =>
    if s2.symbol_term = true ∧ s2.symbol_bits = 0 then
      ({ s2 with output_term := true }, out2, false)
    else (s2, out2, false)

/-- `Encoder::step` (src/src/lib.rs, lines 272-295), with the `loop` driven
by `fuel`: `none` means the loop did not exit within `fuel` iterations. -/
def Encoder.step : Nat → Encoder → List Nat → Nat → Nat → List Nat →
    Option (Encoder × Nat × List Nat × EncoderState)
  | 0, _, _, _, _, _ => none
  | fuel + 1, s, input, cl, cap, out =>
    match Encoder.consume s input cl with
    | (s1, cl1, true) => some (s1, cl1, out, .canConsume)
    | (s1, cl1, false) =>
      match Encoder.produce s1 cap out with
      | (s2, out2, true) => some (s2, cl1, out2, .canProduce)
      | (s2, out2, false) =>
        if s2.output_term then some (s2, cl1, out2, .terminated)
        else Encoder.step fuel s2 input cl1 cap out2

/-- `EncodeSliceError` of the source (src/src/lib.rs, lines 585-588). -/
inductive EncodeSliceError where
  | NeedsMoreSpace : EncodeSliceError
deriving DecidableEq, Repr

/-- `encode_into_slice` (src/src/lib.rs, lines 591-602).  The Rust function
returns `Ok(produced_len)` with the encoded bytes in the caller's buffer;
here the encoded bytes themselves are returned.  `none` covers both fuel
exhaustion of the inner `step` and the `CanConsume` outcome, on which the
Rust code hits `unreachable!` (a panic). -/
def encode_into_slice (fuel : Nat) (input : List Nat) (cap : Nat) :
    Option (Except EncodeSliceError (List Nat)) :=
  match Encoder.step fuel (Encoder.set_consumed_bytes_end Encoder.new)
      input 0 cap [] with
  | none => none
  | some (_, _, _, .canConsume) => none
  | some (_, _, _, .canProduce) => some (.error .NeedsMoreSpace)
  | some (_, _, out, .terminated) => some (.ok out)

instance : DecidableEq (Except DecodeSliceError (List Nat)) := fun a b =>
  match a, b with
  | .error e, .error f => decidable_of_iff (e = f) (by simp)
  | .ok v, .ok w => decidable_of_iff (v = w) (by simp)
  | .error _, .ok _ => isFalse (by simp)
  | .ok _, .error _ => isFalse (by simp)

/-! ### Specification layer for the round-trip property

The compositional description of the wire format, used to characterise
both state machines: input bytes are flattened to a bit list (MSB first),
decomposed into alternating runs starting with a zero-run (possibly
empty), each run is coded by the length table of its mode, the
end-of-stream marker is appended and the stream is zero-padded to a byte
boundary. -/

/-- The `w` low-order bits of `n`, most significant first. -/
def bitsBE (w n : Nat) : List Bool := (List.range w).map fun i => n.testBit (w - 1 - i)

/-- All bits of a byte list, MSB first within each byte. -/
def bitsOfBytes (l : List Nat) : List Bool := l.flatMap fun x => bitsBE 8 x

/-- Length of the leading run of value `m`. -/
def countRun (m : Bool) : List Bool → Nat
  | [] => 0
  | b :: bs => if b = m then countRun m bs + 1 else 0

/-- Run-length decomposition, alternating modes starting with `m`; the
first run may be empty, later ones never are.  `g` bounds the number of
runs (`length + 1` always suffices). -/
def runLengthsGo : Nat → Bool → List Bool → List Nat
  | 0, _, _ => []
  | g + 1, m, bs =>
    if bs = [] then []
    else countRun m bs :: runLengthsGo g (!m) (bs.drop (countRun m bs))

/-- Run-length decomposition of a bit list, starting with mode `m`. -/
def runLengths (m : Bool) (bs : List Bool) : List Nat :=
  runLengthsGo (bs.length + 1) m bs

/-- The bit list described by a run-length list starting with mode `m`. -/
def runsBits : Bool → List Nat → List Bool
  | _, [] => []
  | m, r :: rest => List.replicate r m ++ runsBits (!m) rest

/-- Code for a completed run of ONE bits of length `L` (the encoder's
`queued_mode = false` table): `0xFFE` for the empty run, the unary code
`0^(L-1) 1` for `1 ≤ L ≤ 12`, the 24-bit long symbol with payload
`L - 13` for `13 ≤ L ≤ 4105`, and a `0xFFD` continuation otherwise. -/
def oneRunCode (L : Nat) : List Bool :=
  if L = 0 then bitsBE 24 0xFFE
  else if L ≤ 12 then bitsBE L 1
  else if L ≤ 4105 then bitsBE 24 (L - 13)
  else bitsBE 24 0xFFD ++ oneRunCode (L - 4106)
termination_by L
decreasing_by omega

/-- Code for a completed run of ZERO bits of length `L` (the encoder's
`queued_mode = true` table): `0xFFE` for the empty run, the two-field
codes `0^p 1` + `p+1` payload bits for `1 ≤ L ≤ 8190`, the 24-bit long
symbol with payload `L - 8191` for `8191 ≤ L ≤ 12283`, and a `0xFFD`
continuation otherwise. -/
def zeroRunCode (L : Nat) : List Bool :=
  if L = 0 then bitsBE 24 0xFFE
  else if L ≤ 2 then bitsBE 2 (0b10 ||| (L - 1))
  else if L ≤ 6 then bitsBE 4 (0b0100 ||| (L - 3))
  else if L ≤ 14 then bitsBE 6 (0b001000 ||| (L - 7))
  else if L ≤ 30 then bitsBE 8 (0b00010000 ||| (L - 15))
  else if L ≤ 62 then bitsBE 10 (0b0000100000 ||| (L - 31))
  else if L ≤ 126 then bitsBE 12 (0b000001000000 ||| (L - 63))
  else if L ≤ 254 then bitsBE 14 (0b00000010000000 ||| (L - 127))
  else if L ≤ 510 then bitsBE 16 (0b0000000100000000 ||| (L - 255))
  else if L ≤ 1022 then bitsBE 18 (0b000000001000000000 ||| (L - 511))
  else if L ≤ 2046 then bitsBE 20 (0b00000000010000000000 ||| (L - 1023))
  else if L ≤ 4094 then bitsBE 22 (0b0000000000100000000000 ||| (L - 2047))
  else if L ≤ 8190 then bitsBE 24 (0b000000000001000000000000 ||| (L - 4095))
  else if L ≤ 12283 then bitsBE 24 (L - 8191)
  else bitsBE 24 0xFFD ++ zeroRunCode (L - 12284)
termination_by L
decreasing_by omega

/-- Codes of a run list, alternating modes starting with `m = false`
(zero-runs) for the stream head. -/
def codeRuns : Bool → List Nat → List Bool
  | _, [] => []
  | m, r :: rest =>
    (if m then oneRunCode r else zeroRunCode r) ++ codeRuns (!m) rest

/-- Pack a bit list (whose length is a multiple of 8) into bytes, MSB
first. -/
def bytesOfBits : List Bool → List Nat
  | b7 :: b6 :: b5 :: b4 :: b3 :: b2 :: b1 :: b0 :: rest =>
    ((((((((if b7 then 1 else 0) * 2 + (if b6 then 1 else 0)) * 2 +
      (if b5 then 1 else 0)) * 2 + (if b4 then 1 else 0)) * 2 +
      (if b3 then 1 else 0)) * 2 + (if b2 then 1 else 0)) * 2 +
      (if b1 then 1 else 0)) * 2 + (if b0 then 1 else 0)) ::
      bytesOfBits rest
  | _ => []

/-- The complete bit stream for a payload: run codes, the end-of-stream
marker, zero padding to a byte boundary. -/
def encodeStreamBits (b : List Nat) : List Bool :=
  let core := codeRuns false (runLengths false (bitsOfBytes b)) ++ bitsBE 24 0xFFF
  core ++ List.replicate ((8 - core.length % 8) % 8) false

/-- The compositional encoding of a payload into bytes. -/
def encodeBytes (b : List Nat) : List Nat := bytesOfBits (encodeStreamBits b)

instance : DecidableEq (Except EncodeSliceError (List Nat)) := fun a b =>
  match a, b with
  | .error e, .error f => decidable_of_iff (e = f) (by simp)
  | .ok v, .ok w => decidable_of_iff (v = w) (by simp)
  | .error _, .ok _ => isFalse (by simp)
  | .ok _, .error _ => isFalse (by simp)

/-! Two of the repository's own slice tests, reproduced on the embedding as
a sanity check (`encode_slice_short_run_of_zeroes` and `decode_corrupted`
of src/src/tests.rs). -/

example :
    Decoder.step 50 Decoder.new [0x00, 0x10, 0xE1, 0x00, 0x0F, 0xFF] 0 600 [] =
      some (⟨0, 0, 0, 0, 0, false, false, true⟩, 6, List.replicate 540 0,
        .terminated false false) := by decide

example :
    decode_from_slice 50 [0b10001010, 0b10000000, 0b00000111, 0b11111111,
      0b10110110] 32 = some (.error .Corrupted) := by decide

example :
    encode_into_slice 100 [0b01010101] 16 =
      some (.ok [0b10110110, 0b11010000, 0b00000000, 0b11111111, 0b11110000]) := by
  decide

/-! ### Structural lemmas about the decoder -/

/-- `Decoder.fillGo` never touches the run queue, the output accumulator or
the terminal flag. -/
theorem Decoder.fillGo_fields (g : Nat) (s : Decoder) (input : List Nat)
    (cl : Nat) :
    (Decoder.fillGo g s input cl).1.queued_bits = s.queued_bits ∧
    (Decoder.fillGo g s input cl).1.queued_mode = s.queued_mode ∧
    (Decoder.fillGo g s input cl).1.symbol_term = s.symbol_term ∧
    (Decoder.fillGo g s input cl).1.symbol_mode = s.symbol_mode ∧
    (Decoder.fillGo g s input cl).1.output_bits = s.output_bits ∧
    (Decoder.fillGo g s input cl).1.output_data = s.output_data := by
  induction g generalizing s cl with
  | zero => exact ⟨rfl, rfl, rfl, rfl, rfl, rfl⟩
  | succ g ih =>
    rw [Decoder.fillGo]
    split
    · match input.get? cl with
      | none => exact ⟨rfl, rfl, rfl, rfl, rfl, rfl⟩
      | some b => exact ih _ _
    · exact ⟨rfl, rfl, rfl, rfl, rfl, rfl⟩

/-- `Decoder.parse` never touches the output accumulator. -/
theorem Decoder.parse_output_fields (s : Decoder) :
    (Decoder.parse s).output_bits = s.output_bits ∧
    (Decoder.parse s).output_data = s.output_data :=
  ⟨rfl, rfl⟩

/-- If `Decoder.parse` runs from a state with an empty queue and the
terminal flag clear, then in the resulting state a set terminal flag still
comes with an empty queue (the end-of-stream symbol queues no run). -/
theorem Decoder.parse_term_queued (s : Decoder) (hq : s.queued_bits = 0)
    (ht : s.symbol_term = false) :
    (Decoder.parse s).symbol_term = true → (Decoder.parse s).queued_bits = 0 := by
  unfold Decoder.parse
  by_cases hp : u32_leading_zeros s.symbol_data < 12
  · by_cases hm : s.symbol_mode <;> simp [hp, hm, ht]
  · simp only [hp, ht, hq, if_false]
    split_ifs <;> simp_all

/-- `Decoder.consume` preserves the decoder invariant pieces it can touch:
a set terminal flag still comes with an empty queue, the output fields are
untouched, and a `true` result (`CanConsume`) implies the terminal flag is
clear in the resulting state. -/
theorem Decoder.consume_sound (s : Decoder) (input : List Nat) (cl : Nat)
    (hi : s.symbol_term = true → s.queued_bits = 0) :
    ((Decoder.consume s input cl).1.symbol_term = true →
      (Decoder.consume s input cl).1.queued_bits = 0) ∧
    (Decoder.consume s input cl).1.output_bits = s.output_bits ∧
    (Decoder.consume s input cl).1.output_data = s.output_data ∧
    ((Decoder.consume s input cl).2.2 = true →
      (Decoder.consume s input cl).1.symbol_term = false) := by
  unfold Decoder.consume Decoder.fill
  split
  · next hg =>
    obtain ⟨hq, ht⟩ := hg
    have hfields := Decoder.fillGo_fields 3 s input cl
    rcases hf : Decoder.fillGo 3 s input cl with ⟨s1, cl1, b⟩
    rw [hf] at hfields
    obtain ⟨f1, _, f3, _, f5, f6⟩ := hfields
    cases b
    · refine ⟨?_, ?_, ?_, ?_⟩
      · exact Decoder.parse_term_queued s1 (f1.trans hq) (f3.trans ht)
      · exact (Decoder.parse_output_fields s1).1.trans f5
      · exact (Decoder.parse_output_fields s1).2.trans f6
      · intro h
        exact absurd h (by simp)
    · exact ⟨fun h => f1.trans hq, f5, f6, fun _ => f3.trans ht⟩
  · exact ⟨hi, rfl, rfl, by simp⟩

/-- `x ||| y` stays below a power of two that bounds both sides. -/
theorem nat_lor_lt_two_pow {x y n : Nat} (hx : x < 2 ^ n) (hy : y < 2 ^ n) :
    x ||| y < 2 ^ n :=
  Nat.bitwise_lt hx hy

/-- `Decoder.produce` leaves the symbol window alone, never grows the run
queue, keeps the partial output byte well formed, and — when the queue is
empty and it does not ask for more space — leaves the queue empty and the
partial byte strictly below 8 bits. -/
theorem Decoder.produce_sound (s : Decoder) (cap : Nat) (out : List Nat)
    (hb : s.output_bits ≤ 8) (hd : s.output_data < 2 ^ s.output_bits) :
    (Decoder.produce s cap out).1.symbol_term = s.symbol_term ∧
    (Decoder.produce s cap out).1.symbol_data = s.symbol_data ∧
    (Decoder.produce s cap out).1.queued_bits ≤ s.queued_bits ∧
    (Decoder.produce s cap out).1.output_bits ≤ 8 ∧
    (Decoder.produce s cap out).1.output_data <
      2 ^ (Decoder.produce s cap out).1.output_bits ∧
    (s.queued_bits = 0 → (Decoder.produce s cap out).2.2 = false →
      (Decoder.produce s cap out).1.queued_bits = 0 ∧
      (Decoder.produce s cap out).1.output_bits ≠ 8) := by
  by_cases hg : s.output_bits = 0 ∧ 8 ≤ s.queued_bits
  · by_cases htr : min (s.queued_bits / 8) (cap - out.length) = 0
    · refine ?_
      simp only [Decoder.produce, if_pos hg, htr, if_pos rfl]
      exact ⟨by simp, by simp, le_refl _, hb, hd, fun hz _ => absurd hg.2 (by omega)⟩
    · simp only [Decoder.produce, if_pos hg, if_neg htr]
      exact ⟨by simp, by simp, by simp, hb, hd, fun hz _ => absurd hg.2 (by omega)⟩
  · by_cases hg2 : s.output_bits ≠ 8 ∧ s.queued_bits ≠ 0
    · simp only [Decoder.produce, if_neg hg, if_pos hg2]
      refine ⟨by simp, by simp, by simp, ?_, ?_, fun hz _ => absurd hz hg2.2⟩
      · have h1 : min (8 - s.output_bits) s.queued_bits ≤ 8 - s.output_bits :=
          min_le_left _ _
        have h2 : s.output_bits ≠ 0 ∨ s.queued_bits < 8 := by
          by_contra hcon
          push_neg at hcon
          exact hg ⟨hcon.1, hcon.2⟩
        show s.output_bits + min (8 - s.output_bits) s.queued_bits ≤ 8
        omega
      · show ((s.output_data <<< min (8 - s.output_bits) s.queued_bits) % 256 |||
            if s.queued_mode = true
            then (1 <<< min (8 - s.output_bits) s.queued_bits) - 1 else 0) <
          2 ^ (s.output_bits + min (8 - s.output_bits) s.queued_bits)
        apply nat_lor_lt_two_pow
        · calc (s.output_data <<< min (8 - s.output_bits) s.queued_bits) % 256
              ≤ s.output_data <<< min (8 - s.output_bits) s.queued_bits :=
                Nat.mod_le _ _
          _ = s.output_data * 2 ^ min (8 - s.output_bits) s.queued_bits := by
                rw [Nat.shiftLeft_eq]
          _ < 2 ^ s.output_bits * 2 ^ min (8 - s.output_bits) s.queued_bits :=
                (Nat.mul_lt_mul_right (Nat.pow_pos (by omega))).mpr hd
          _ = 2 ^ (s.output_bits + min (8 - s.output_bits) s.queued_bits) := by
                rw [pow_add]
        · split
          · calc (1 <<< min (8 - s.output_bits) s.queued_bits) - 1
                < 1 <<< min (8 - s.output_bits) s.queued_bits := by
                  have h3 : 0 < 1 <<< min (8 - s.output_bits) s.queued_bits := by
                    rw [Nat.shiftLeft_eq]
                    positivity
                  omega
            _ = 2 ^ min (8 - s.output_bits) s.queued_bits := by
                  rw [Nat.shiftLeft_eq, one_mul]
            _ ≤ 2 ^ (s.output_bits + min (8 - s.output_bits) s.queued_bits) :=
                  Nat.pow_le_pow_right (by omega) (by omega)
          · positivity
    · by_cases hob : s.output_bits = 8
      · by_cases hsp : out.length < cap
        · simp only [Decoder.produce, if_neg hg, if_neg hg2, if_pos hob,
            if_pos hsp]
          exact ⟨by simp, by simp, le_refl _, by simp, by simp,
            fun hz _ => ⟨hz, by simp⟩⟩
        · simp only [Decoder.produce, if_neg hg, if_neg hg2, if_pos hob,
            if_neg hsp]
          exact ⟨by simp, by simp, le_refl _, hb, hd,
            fun hz hfalse => absurd hfalse (by simp)⟩
      · simp only [Decoder.produce, if_neg hg, if_neg hg2, if_neg hob]
        exact ⟨by simp, by simp, le_refl _, hb, hd, fun hz _ => ⟨hz, hob⟩⟩

/-- Soundness of one `Decoder::step` call: it preserves the decoder
invariant (a set terminal flag comes with an empty queue; the partial
output byte holds at most 8 well-formed bits), a `CanConsume` result
leaves the terminal flag clear, and a `Terminated{corrupted, unaligned}`
result leaves the terminal flag set, the queue empty, the partial byte
strictly below 8 bits, with `corrupted` and `unaligned` computed from the
final state exactly as the source does. -/
theorem Decoder.step_sound :
    ∀ (fuel : Nat) (s : Decoder) (input : List Nat) (cl cap : Nat)
      (out : List Nat) (s' : Decoder) (cl' : Nat) (out' : List Nat)
      (st : DecoderState),
      Decoder.step fuel s input cl cap out = some (s', cl', out', st) →
      (s.symbol_term = true → s.queued_bits = 0) → s.output_bits ≤ 8 →
      s.output_data < 2 ^ s.output_bits →
      ((s'.symbol_term = true → s'.queued_bits = 0) ∧ s'.output_bits ≤ 8 ∧
        s'.output_data < 2 ^ s'.output_bits ∧
        (st = .canConsume → s'.symbol_term = false) ∧
        (∀ c u, st = .terminated c u →
          s'.symbol_term = true ∧ s'.queued_bits = 0 ∧ s'.output_bits ≠ 8 ∧
          c = (s'.symbol_data != 0) ∧ u = (s'.output_bits != 0))) := by
  intro fuel
  induction fuel with
  | zero =>
    intro s input cl cap out s' cl' out' st h
    simp [Decoder.step] at h
  | succ fuel ih =>
    intro s input cl cap out s' cl' out' st h h1 h2 h3
    rw [Decoder.step] at h
    have Hc := Decoder.consume_sound s input cl h1
    rcases hc : Decoder.consume s input cl with ⟨s1, cl1, b⟩
    rw [hc] at Hc h
    obtain ⟨Hc1, Hc2, Hc3, Hc4⟩ := Hc
    cases b with
    | true =>
      simp only [Option.some.injEq, Prod.mk.injEq] at h
      obtain ⟨hs, _, _, hst⟩ := h
      subst hs
      subst hst
      refine ⟨Hc1, Hc2 ▸ h2, by rw [Hc2, Hc3]; exact h3, fun _ => Hc4 rfl, ?_⟩
      intro c u hcu
      exact absurd hcu (by simp)
    | false =>
      simp only [] at Hc1 Hc2 Hc3 Hc4
      have Hp := Decoder.produce_sound s1 cap out (Hc2 ▸ h2)
        (by rw [Hc2, Hc3]; exact h3)
      dsimp only [] at h
      rcases hp : Decoder.produce s1 cap out with ⟨s2, out2, b2⟩
      rw [hp] at Hp h
      obtain ⟨Hp1, Hp2, Hp3, Hp4, Hp5, Hp6⟩ := Hp
      simp only [] at Hp1 Hp2 Hp3 Hp4 Hp5 Hp6
      have hq2 : s2.symbol_term = true → s2.queued_bits = 0 := by
        intro ht2
        have := Hc1 (Hp1 ▸ ht2)
        omega
      cases b2 with
      | true =>
        simp only [Option.some.injEq, Prod.mk.injEq] at h
        obtain ⟨hs, _, _, hst⟩ := h
        subst hs
        subst hst
        refine ⟨hq2, Hp4, Hp5, ?_, ?_⟩
        · intro hcc
          exact absurd hcc (by simp)
        · intro c u hcu
          exact absurd hcu (by simp)
      | false =>
        dsimp only [] at h
        split at h
        · next hterm =>
          simp only [Option.some.injEq, Prod.mk.injEq] at h
          obtain ⟨hs, _, _, hst⟩ := h
          subst hs
          have hq0 : s2.queued_bits = 0 := hq2 hterm
          have hq1 : s1.queued_bits = 0 := Hc1 (Hp1 ▸ hterm)
          obtain ⟨_, hob⟩ := Hp6 hq1 rfl
          refine ⟨hq2, Hp4, Hp5, ?_, ?_⟩
          · intro hcc
            rw [← hst] at hcc
            exact absurd hcc (by simp)
          · intro c u hcu
            rw [← hst] at hcu
            simp only [DecoderState.terminated.injEq] at hcu
            exact ⟨hterm, hq0, hob, hcu.1.symm, hcu.2.symm⟩
        · exact ih s2 input cl1 cap out2 s' cl' out' st h hq2 Hp4 Hp5

/-- From a terminal quiescent state (`symbol_term` set, queue empty,
partial byte below 8 bits) a further `Decoder::step` call returns
`(0, 0, Terminated{..})` with the flags recomputed from the unchanged
state, whatever input, output capacity and fuel it is given. -/
theorem Decoder.step_noop (s : Decoder) (input : List Nat) (cl cap : Nat)
    (out : List Nat) (ht : s.symbol_term = true) (hq : s.queued_bits = 0)
    (hob : s.output_bits ≠ 8) (fuel : Nat) :
    Decoder.step (fuel + 1) s input cl cap out =
      some (s, cl, out, .terminated (s.symbol_data != 0) (s.output_bits != 0)) := by
  rw [Decoder.step]
  have hcons : Decoder.consume s input cl = (s, cl, false) := by
    unfold Decoder.consume
    rw [if_neg]
    simp [ht]
  rw [hcons]
  have hprod : Decoder.produce s cap out = (s, out, false) := by
    unfold Decoder.produce
    rw [if_neg (by omega), if_neg (by simp [hq]), if_neg hob]
  dsimp only []
  rw [hprod]
  dsimp only []
  rw [if_pos ht]

/-- The decoder states reachable through the public API: the initial state
(`Decoder::new`, which `reset` also restores) and every state produced by
a completed `step` call. -/
inductive Decoder.Reachable : Decoder → Prop where
  | new : Decoder.Reachable Decoder.new
  | step (s : Decoder) (fuel cl cap : Nat) (input out : List Nat)
      (s' : Decoder) (cl' : Nat) (out' : List Nat) (st : DecoderState) :
      Decoder.Reachable s →
      Decoder.step fuel s input cl cap out = some (s', cl', out', st) →
      Decoder.Reachable s'

/-- Every reachable decoder state satisfies the decoder invariant. -/
theorem Decoder.reachable_inv (s : Decoder) (h : Decoder.Reachable s) :
    (s.symbol_term = true → s.queued_bits = 0) ∧ s.output_bits ≤ 8 ∧
    s.output_data < 2 ^ s.output_bits := by
  induction h with
  | new => exact ⟨fun _ => rfl, by simp [Decoder.new], by simp [Decoder.new]⟩
  | step s fuel cl cap input out s' cl' out' st _ hstep ih =>
    obtain ⟨i1, i2, i3⟩ := ih
    obtain ⟨j1, j2, j3, _⟩ :=
      Decoder.step_sound fuel s input cl cap out s' cl' out' st hstep i1 i2 i3
    exact ⟨j1, j2, j3⟩

/-! ### Structural lemmas about the encoder -/

/-- `Encoder.emitRun` only rewrites the symbol window and the run queue:
the terminal flags, the input-scan byte and the run mode are untouched. -/
theorem Encoder.emitRun_fields (s : Encoder) :
    (Encoder.emitRun s).symbol_term = s.symbol_term ∧
    (Encoder.emitRun s).output_term = s.output_term ∧
    (Encoder.emitRun s).queued_term = s.queued_term ∧
    (Encoder.emitRun s).output_bits = s.output_bits ∧
    (Encoder.emitRun s).output_data = s.output_data ∧
    (Encoder.emitRun s).queued_mode = s.queued_mode := by
  exact ⟨rfl, rfl, rfl, rfl, rfl, rfl⟩

/-- `Encoder.flushGo` only rewrites the symbol window and the output list:
every other field is untouched. -/
theorem Encoder.flushGo_fields (g : Nat) (s : Encoder) (cap : Nat)
    (out : List Nat) :
    (Encoder.flushGo g s cap out).1.queued_bits = s.queued_bits ∧
    (Encoder.flushGo g s cap out).1.output_bits = s.output_bits ∧
    (Encoder.flushGo g s cap out).1.output_data = s.output_data ∧
    (Encoder.flushGo g s cap out).1.queued_done = s.queued_done ∧
    (Encoder.flushGo g s cap out).1.queued_mode = s.queued_mode ∧
    (Encoder.flushGo g s cap out).1.symbol_term = s.symbol_term ∧
    (Encoder.flushGo g s cap out).1.queued_term = s.queued_term ∧
    (Encoder.flushGo g s cap out).1.output_term = s.output_term := by
  induction g generalizing s out with
  | zero => exact ⟨rfl, rfl, rfl, rfl, rfl, rfl, rfl, rfl⟩
  | succ g ih =>
    rw [Encoder.flushGo]
    split
    · split
      · exact ih _ _
      · exact ⟨rfl, rfl, rfl, rfl, rfl, rfl, rfl, rfl⟩
    · exact ⟨rfl, rfl, rfl, rfl, rfl, rfl, rfl, rfl⟩

/-- The encoder invariant: once `symbol_term` is set the run pipeline is
empty (no completed run pending, no queued bits, no residual input bits),
and once `output_term` is set the stream is terminal with a fully flushed
symbol window. -/
def Encoder.Inv (s : Encoder) : Prop :=
  (s.symbol_term = true →
    s.queued_done = false ∧ s.queued_bits = 0 ∧ s.output_bits = 0) ∧
  (s.output_term = true → s.symbol_term = true ∧ s.symbol_bits = 0)

/-- `Encoder.scan` preserves the encoder invariant and leaves the symbol
window and both end markers it does not own untouched. -/
theorem Encoder.scan_sound (s : Encoder) (h : Encoder.Inv s) :
    Encoder.Inv (Encoder.scan s) ∧
    (Encoder.scan s).symbol_bits = s.symbol_bits ∧
    (Encoder.scan s).symbol_data = s.symbol_data ∧
    (Encoder.scan s).queued_term = s.queued_term ∧
    (Encoder.scan s).output_term = s.output_term := by
  obtain ⟨hA, hB⟩ := h
  unfold Encoder.scan
  split
  · exact ⟨⟨hA, hB⟩, rfl, rfl, rfl, rfl⟩
  · next hqd =>
    split
    · next hbits =>
      have hterm : s.symbol_term = false := by
        by_contra hcon
        obtain ⟨_, hqb0, hob0⟩ := hA (by revert hcon; cases s.symbol_term <;> simp)
        rcases hbits with hlt | hlt <;> omega
      have hoterm : s.output_term = false := by
        by_contra hcon
        have h2 := hB (by revert hcon; cases s.output_term <;> simp)
        rw [h2.1] at hterm
        cases hterm
      dsimp only []
      split <;> split <;>
        exact ⟨⟨fun hcon => by simp [hterm] at hcon,
          fun hcon => by simp [hoterm] at hcon⟩, rfl, rfl, rfl, rfl⟩
    · next hbits =>
      refine ⟨⟨?_, ?_⟩, rfl, rfl, rfl, rfl⟩
      · intro _
        refine ⟨?_, ?_, ?_⟩
        · simpa using hqd
        · show s.queued_bits = 0
          omega
        · show s.output_bits = 0
          omega
      · intro hcon
        have h2 := hB hcon
        exact ⟨rfl, h2.2⟩

/-- Flushing an already empty symbol window does nothing. -/
theorem Encoder.flush_sb0 (s : Encoder) (cap : Nat) (out : List Nat)
    (h : s.symbol_bits = 0) : Encoder.flush s cap out = (s, out, false) := by
  unfold Encoder.flush
  rw [h]
  rfl

/-- `Encoder.emitPhase` preserves the encoder invariant and the fields the
emission head does not own. -/
theorem Encoder.emitPhase_sound (s : Encoder) (h : Encoder.Inv s) :
    Encoder.Inv (Encoder.emitPhase s) ∧
    (Encoder.emitPhase s).output_term = s.output_term ∧
    (Encoder.emitPhase s).symbol_term = s.symbol_term ∧
    (Encoder.emitPhase s).output_bits = s.output_bits ∧
    (Encoder.emitPhase s).queued_term = s.queued_term := by
  obtain ⟨hA, hB⟩ := h
  unfold Encoder.emitPhase
  split
  · split
    · next heos =>
      refine ⟨⟨?_, ?_⟩, rfl, rfl, rfl, rfl⟩
      · intro _
        exact hA heos.1
      · intro hcon
        simp [heos.2] at hcon
    · next heos =>
      split
      · next hqd =>
        have hterm : s.symbol_term = false := by
          by_contra hcon
          have h2 := hA (by revert hcon; cases s.symbol_term <;> simp)
          rw [h2.1] at hqd
          cases hqd
        have hoterm : s.output_term = false := by
          by_contra hcon
          have h2 := hB (by revert hcon; cases s.output_term <;> simp)
          rw [h2.1] at hterm
          cases hterm
        obtain ⟨e1, e2, _⟩ := Encoder.emitRun_fields s
        refine ⟨⟨?_, ?_⟩, ?_, e1, ?_, ?_⟩
        · intro hcon
          rw [e1, hterm] at hcon
          cases hcon
        · intro hcon
          rw [e2, hoterm] at hcon
          cases hcon
        · exact e2
        · exact (Encoder.emitRun_fields s).2.2.2.1
        · exact (Encoder.emitRun_fields s).2.2.1
      · exact ⟨⟨hA, hB⟩, rfl, rfl, rfl, rfl⟩
  · exact ⟨⟨hA, hB⟩, rfl, rfl, rfl, rfl⟩

/-- `Encoder.produce` preserves the encoder invariant. -/
theorem Encoder.produce_inv (s : Encoder) (cap : Nat) (out : List Nat)
    (h : Encoder.Inv s) : Encoder.Inv (Encoder.produce s cap out).1 := by
  obtain ⟨hInv1, _⟩ := Encoder.emitPhase_sound s h
  obtain ⟨hA1, hB1⟩ := hInv1
  unfold Encoder.produce
  have hfl := Encoder.flushGo_fields (Encoder.emitPhase s).symbol_bits
    (Encoder.emitPhase s) cap out
  rcases hf : Encoder.flush (Encoder.emitPhase s) cap out with ⟨s2, out2, b⟩
  rw [show Encoder.flush (Encoder.emitPhase s) cap out =
    Encoder.flushGo (Encoder.emitPhase s).symbol_bits (Encoder.emitPhase s)
      cap out from rfl] at hf
  rw [hf] at hfl
  obtain ⟨f1, f2, f3, f4, f5, f6, f7, f8⟩ := hfl
  simp only [] at f1 f2 f3 f4 f5 f6 f7 f8
  have hA2 : s2.symbol_term = true →
      s2.queued_done = false ∧ s2.queued_bits = 0 ∧ s2.output_bits = 0 := by
    intro hcon
    have h3 := hA1 (f6 ▸ hcon)
    exact ⟨f4.trans h3.1, f1.trans h3.2.1, f2.trans h3.2.2⟩
  have hB2 : s2.output_term = true →
      s2.symbol_term = true ∧ s2.symbol_bits = 0 := by
    intro hcon
    have h3 := hB1 (f8 ▸ hcon)
    have hflid := Encoder.flush_sb0 (Encoder.emitPhase s) cap out h3.2
    rw [show Encoder.flush (Encoder.emitPhase s) cap out =
      Encoder.flushGo (Encoder.emitPhase s).symbol_bits (Encoder.emitPhase s)
        cap out from rfl, hf] at hflid
    obtain ⟨hs2, _, _⟩ := Prod.mk.injEq .. ▸ hflid
    exact ⟨f6.trans h3.1, by rw [congrArg Encoder.symbol_bits hs2]; exact h3.2⟩
  cases b with
  | true => exact ⟨hA2, hB2⟩
  | false =>
    dsimp only []
    split
    · next hcond =>
      exact ⟨fun _ => hA2 hcond.1, fun _ => hcond⟩
    · exact ⟨hA2, hB2⟩

/-- `Encoder.consume` preserves the encoder invariant, leaves
`output_term` alone, and a `true` result (`CanConsume`) leaves the state
untouched. -/
theorem Encoder.consume_inv (s : Encoder) (input : List Nat) (cl : Nat)
    (h : Encoder.Inv s) :
    Encoder.Inv (Encoder.consume s input cl).1 ∧
    (Encoder.consume s input cl).1.output_term = s.output_term ∧
    ((Encoder.consume s input cl).2.2 = true →
      (Encoder.consume s input cl).1 = s) := by
  unfold Encoder.consume
  split
  · next hg =>
    rcases hin : input.get? cl with _ | b
    · simp only [hin]
      split
      · exact ⟨h, rfl, fun _ => rfl⟩
      · have hs := Encoder.scan_sound s h
        exact ⟨hs.1, hs.2.2.2.2, by simp⟩
    · simp only [hin]
      have h1 : Encoder.Inv { s with output_data := b % 256, output_bits := 8 } := by
        constructor
        · intro hcon
          simp [hg.2] at hcon
        · intro hcon
          have h2 := h.2 hcon
          rw [hg.2] at h2
          exact absurd h2.1 (by simp)
      have hs := Encoder.scan_sound _ h1
      exact ⟨hs.1, hs.2.2.2.2, by simp⟩
  · have hs := Encoder.scan_sound s h
    exact ⟨hs.1, hs.2.2.2.2, by simp⟩

/-- Soundness of one `Encoder::step` call: it preserves the encoder
invariant, and a `Terminated` result leaves `output_term` set. -/
theorem Encoder.step_inv :
    ∀ (fuel : Nat) (s : Encoder) (input : List Nat) (cl cap : Nat)
      (out : List Nat) (s' : Encoder) (cl' : Nat) (out' : List Nat)
      (st : EncoderState),
      Encoder.step fuel s input cl cap out = some (s', cl', out', st) →
      Encoder.Inv s →
      Encoder.Inv s' ∧ (st = .terminated → s'.output_term = true) := by
  intro fuel
  induction fuel with
  | zero =>
    intro s input cl cap out s' cl' out' st h
    simp [Encoder.step] at h
  | succ fuel ih =>
    intro s input cl cap out s' cl' out' st h hInv
    rw [Encoder.step] at h
    have Hc := Encoder.consume_inv s input cl hInv
    rcases hc : Encoder.consume s input cl with ⟨s1, cl1, b⟩
    rw [hc] at Hc h
    obtain ⟨HcInv, _, _⟩ := Hc
    cases b with
    | true =>
      simp only [Option.some.injEq, Prod.mk.injEq] at h
      obtain ⟨hs, _, _, hst⟩ := h
      subst hs
      subst hst
      exact ⟨HcInv, fun hcon => absurd hcon (by simp)⟩
    | false =>
      dsimp only [] at h
      have Hp := Encoder.produce_inv s1 cap out HcInv
      rcases hp : Encoder.produce s1 cap out with ⟨s2, out2, b2⟩
      rw [hp] at Hp h
      cases b2 with
      | true =>
        simp only [Option.some.injEq, Prod.mk.injEq] at h
        obtain ⟨hs, _, _, hst⟩ := h
        subst hs
        subst hst
        exact ⟨Hp, fun hcon => absurd hcon (by simp)⟩
      | false =>
        dsimp only [] at h
        split at h
        · next hterm =>
          simp only [Option.some.injEq, Prod.mk.injEq] at h
          obtain ⟨hs, _, _, hst⟩ := h
          subst hs
          exact ⟨Hp, fun _ => hterm⟩
        · exact ih s2 input cl1 cap out2 s' cl' out' st h Hp

/-- Setting `symbol_term` on a state where it is already set is the
identity. -/
theorem Encoder.set_symbol_term_id (t : Encoder) (ht : t.symbol_term = true) :
    ({ t with symbol_term := true } : Encoder) = t := by
  cases t
  simp_all

/-- Setting `output_term` on a state where it is already set is the
identity. -/
theorem Encoder.set_output_term_id (t : Encoder) (ht : t.output_term = true) :
    ({ t with output_term := true } : Encoder) = t := by
  cases t
  simp_all

/-- From a terminal state satisfying the invariant with `output_term` set,
a further `Encoder::step` call returns `(0, 0, Terminated)` and leaves
every field unchanged, whatever input, capacity and fuel it is given. -/
theorem Encoder.step_terminal_noop (s : Encoder) (h : Encoder.Inv s)
    (hot : s.output_term = true) (input : List Nat) (cl cap : Nat)
    (out : List Nat) (fuel : Nat) :
    Encoder.step (fuel + 1) s input cl cap out = some (s, cl, out, .terminated) := by
  obtain ⟨hA, hB⟩ := h
  obtain ⟨hst, hsb⟩ := hB hot
  obtain ⟨hqd, hqb, hob⟩ := hA hst
  have hscan : Encoder.scan s = s := by
    unfold Encoder.scan
    rw [if_neg (by simp [hqd]), if_neg (by omega)]
    exact Encoder.set_symbol_term_id s hst
  have hcons : Encoder.consume s input cl = (s, cl, false) := by
    unfold Encoder.consume
    rw [if_neg (by simp [hst]), hscan]
  have hemit : Encoder.emitPhase s = s := by
    unfold Encoder.emitPhase
    rw [if_pos (by omega), if_neg (by simp [hot]), if_neg (by simp [hqd])]
  have hprod : Encoder.produce s cap out = (s, out, false) := by
    unfold Encoder.produce
    rw [hemit, Encoder.flush_sb0 s cap out hsb]
    dsimp only []
    rw [if_pos ⟨hst, hsb⟩, Encoder.set_output_term_id s hot]
  rw [Encoder.step, hcons]
  dsimp only []
  rw [hprod]
  dsimp only []
  rw [if_pos hot]

/-- The encoder states reachable through the public API: the initial state
(`Encoder::new`, which `reset` also restores), every state produced by a
completed `step` call, and `set_consumed_bytes_end`. -/
inductive Encoder.Reachable : Encoder → Prop where
  | new : Encoder.Reachable Encoder.new
  | step (s : Encoder) (fuel cl cap : Nat) (input out : List Nat)
      (s' : Encoder) (cl' : Nat) (out' : List Nat) (st : EncoderState) :
      Encoder.Reachable s →
      Encoder.step fuel s input cl cap out = some (s', cl', out', st) →
      Encoder.Reachable s'
  | set_end (s : Encoder) : Encoder.Reachable s →
      Encoder.Reachable (Encoder.set_consumed_bytes_end s)

/-- Every reachable encoder state satisfies the encoder invariant. -/
theorem Encoder.reachable_invariant (s : Encoder) (h : Encoder.Reachable s) :
    Encoder.Inv s := by
  induction h with
  | new =>
    constructor
    · intro hcon
      simp [Encoder.new] at hcon
    · intro hcon
      simp [Encoder.new] at hcon
  | step s fuel cl cap input out s' cl' out' st _ hstep ih =>
    exact (Encoder.step_inv fuel s input cl cap out s' cl' out' st hstep ih).1
  | set_end s _ ih =>
    exact ⟨fun hcon => ih.1 hcon, fun hcon => ih.2 hcon⟩

/-- `bitLen` is bounded by any exponent bounding its argument. -/
theorem bitLen_le (g k n : Nat) (hn : n < 2 ^ k) (hk : k ≤ g) :
    bitLen g n ≤ k := by
  induction g generalizing k n with
  | zero => simp [bitLen]
  | succ g ih =>
    rw [bitLen]
    split
    · omega
    · next hz =>
      have hk1 : 1 ≤ k := by
        by_contra hcon
        have : k = 0 := by omega
        subst this
        simp at hn
        omega
      have hdiv : n / 2 < 2 ^ (k - 1) := by
        have h2 : n < 2 ^ (k - 1) * 2 := by
          have : 2 ^ (k - 1) * 2 = 2 ^ k := by
            rw [← pow_succ]
            congr 1
            omega
          omega
        omega
      have := ih (k - 1) (n / 2) hdiv (by omega)
      omega

/-! ### The claims -/

/-- **C6.**  Whenever the decoder's `step` returns `Terminated` from a
reachable state, the end-of-stream marker has been parsed (`symbol_term`
set and `queued_bits` drained to 0), the `corrupted` flag is true iff the
residual `symbol_data` window is nonzero (tail bits past the end-of-stream
marker were nonzero), and the `unaligned` flag is true iff `output_bits`
is nonzero (the decoded payload did not end on a byte boundary). -/
theorem claim_C6_terminated_flags (fuel : Nat) (s : Decoder)
    (input : List Nat) (cl cap : Nat) (out : List Nat) (s' : Decoder)
    (cl' : Nat) (out' : List Nat) (c u : Bool) (hr : Decoder.Reachable s)
    (h : Decoder.step fuel s input cl cap out =
      some (s', cl', out', .terminated c u)) :
    s'.symbol_term = true ∧ s'.queued_bits = 0 ∧
    (c = true ↔ s'.symbol_data ≠ 0) ∧ (u = true ↔ s'.output_bits ≠ 0) := by
  obtain ⟨i1, i2, i3⟩ := Decoder.reachable_inv s hr
  obtain ⟨_, _, _, _, hter⟩ :=
    Decoder.step_sound fuel s input cl cap out s' cl' out' _ h i1 i2 i3
  obtain ⟨ht, hq, _, hc, hu⟩ := hter c u rfl
  subst hc
  subst hu
  refine ⟨ht, hq, ?_, ?_⟩ <;> simp [bne_iff_ne]

/-- Witness for C6: decoding the bare end-of-stream stream `[0x00, 0x0F,
0xFF]` terminates with both flags clear. -/
theorem claim_C6_witness :
    (⟨0, 0, 0, 0, 0, false, true, true⟩ : Decoder).symbol_term = true ∧
    (⟨0, 0, 0, 0, 0, false, true, true⟩ : Decoder).queued_bits = 0 ∧
    (false = true ↔ (⟨0, 0, 0, 0, 0, false, true, true⟩ : Decoder).symbol_data ≠ 0) ∧
    (false = true ↔ (⟨0, 0, 0, 0, 0, false, true, true⟩ : Decoder).output_bits ≠ 0) :=
  claim_C6_terminated_flags 10 Decoder.new [0x00, 0x0F, 0xFF] 0 8 []
    ⟨0, 0, 0, 0, 0, false, true, true⟩ 3 [] false false
    Decoder.Reachable.new (by decide)

/-- **C7.**  `decode_from_slice` translates the outcome of its single
`step`: `CanConsume → TruncatedInput`, `CanProduce → NeedsMoreSpace`, a
corrupted termination → `Corrupted` (taking precedence over `Unaligned`
when both flags are set), a clean but unaligned termination → `Unaligned`,
and otherwise it returns the produced bytes. -/
theorem claim_C7_decode_from_slice (fuel : Nat) (input : List Nat)
    (cap : Nat) (s' : Decoder) (cl' : Nat) (out : List Nat)
    (st : DecoderState)
    (h : Decoder.step fuel Decoder.new input 0 cap [] =
      some (s', cl', out, st)) :
    (st = .canConsume →
      decode_from_slice fuel input cap = some (.error .TruncatedInput)) ∧
    (st = .canProduce →
      decode_from_slice fuel input cap = some (.error .NeedsMoreSpace)) ∧
    (∀ u, st = .terminated true u →
      decode_from_slice fuel input cap = some (.error .Corrupted)) ∧
    (st = .terminated false true →
      decode_from_slice fuel input cap = some (.error .Unaligned)) ∧
    (st = .terminated false false →
      decode_from_slice fuel input cap = some (.ok out)) := by
  unfold decode_from_slice
  rw [h]
  refine ⟨?_, ?_, ?_, ?_, ?_⟩
  · intro hst
    subst hst
    rfl
  · intro hst
    subst hst
    rfl
  · intro u hst
    subst hst
    rfl
  · intro hst
    subst hst
    rfl
  · intro hst
    subst hst
    rfl

/-- Witness for C7: the bare end-of-stream stream decodes to `ok []`. -/
theorem claim_C7_witness :
    decode_from_slice 10 [0x00, 0x0F, 0xFF] 8 = some (.ok []) :=
  (claim_C7_decode_from_slice 10 [0x00, 0x0F, 0xFF] 8
    ⟨0, 0, 0, 0, 0, false, true, true⟩ 3 [] (.terminated false false)
    (by decide)).2.2.2.2 rfl

/-- **C8.**  Terminal stability, for both codecs: once a `step` from a
reachable state has returned `Terminated`, every further `step` call with
any input, any output capacity and positive fuel returns
`(0, 0, Terminated{..})` with the same terminal flags and leaves every
field of the codec state unchanged. -/
theorem claim_C8_terminal_stability :
    (∀ (fuel : Nat) (s : Decoder) (input : List Nat) (cl cap : Nat)
      (out : List Nat) (s' : Decoder) (cl' : Nat) (out' : List Nat)
      (c u : Bool), Decoder.Reachable s →
      Decoder.step fuel s input cl cap out =
        some (s', cl', out', .terminated c u) →
      ∀ (fuel' cap' : Nat) (input' : List Nat),
        Decoder.step (fuel' + 1) s' input' 0 cap' [] =
          some (s', 0, [], .terminated c u)) ∧
    (∀ (fuel : Nat) (s : Encoder) (input : List Nat) (cl cap : Nat)
      (out : List Nat) (s' : Encoder) (cl' : Nat) (out' : List Nat),
      Encoder.Reachable s →
      Encoder.step fuel s input cl cap out = some (s', cl', out', .terminated) →
      ∀ (fuel' cap' : Nat) (input' : List Nat),
        Encoder.step (fuel' + 1) s' input' 0 cap' [] =
          some (s', 0, [], .terminated)) := by
  constructor
  · intro fuel s input cl cap out s' cl' out' c u hr h fuel' cap' input'
    obtain ⟨i1, i2, i3⟩ := Decoder.reachable_inv s hr
    obtain ⟨_, _, _, _, hter⟩ :=
      Decoder.step_sound fuel s input cl cap out s' cl' out' _ h i1 i2 i3
    obtain ⟨ht, hq, hob, hc, hu⟩ := hter c u rfl
    rw [Decoder.step_noop s' input' 0 cap' [] ht hq hob fuel', hc, hu]
  · intro fuel s input cl cap out s' cl' out' hr h fuel' cap' input'
    have hinv := Encoder.reachable_invariant s hr
    obtain ⟨hinv', hot⟩ :=
      Encoder.step_inv fuel s input cl cap out s' cl' out' _ h hinv
    exact Encoder.step_terminal_noop s' hinv' (hot rfl) input' 0 cap' [] fuel'

/-- Witness for C8: a terminated decoder and a terminated encoder are both
inert under a further step with fresh input and output. -/
theorem claim_C8_witness :
    Decoder.step 1 (⟨0, 0, 0, 0, 0, false, true, true⟩ : Decoder)
      [1, 2, 3] 0 4 [] =
      some (⟨0, 0, 0, 0, 0, false, true, true⟩, 0, [], .terminated false false) ∧
    Encoder.step 1
      (⟨0, 0, 0, 0, 0, false, false, true, true, true⟩ : Encoder) [9] 0 4 [] =
      some (⟨0, 0, 0, 0, 0, false, false, true, true, true⟩, 0, [],
        .terminated) :=
  ⟨claim_C8_terminal_stability.1 10 Decoder.new [0x00, 0x0F, 0xFF] 0 8 []
      ⟨0, 0, 0, 0, 0, false, true, true⟩ 3 [] false false
      Decoder.Reachable.new (by decide) 0 4 [1, 2, 3],
    claim_C8_terminal_stability.2 10
      (Encoder.set_consumed_bytes_end Encoder.new) [] 0 8 []
      ⟨0, 0, 0, 0, 0, false, false, true, true, true⟩ 0 [0x00, 0x0F, 0xFF]
      (Encoder.Reachable.set_end _ Encoder.Reachable.new) (by decide) 0 4 [9]⟩

/-- **C10.**  Whenever the encoder's `step` returns `Terminated` from a
reachable state, the final state satisfies `symbol_bits = 0`,
`queued_bits = 0` and `output_bits = 0`: the terminal `debug_assert!`s of
the source hold on every reachable path — no input bits, run bits or
symbol bits remain buffered at termination. -/
theorem claim_C10_terminal_asserts (fuel : Nat) (s : Encoder)
    (input : List Nat) (cl cap : Nat) (out : List Nat) (s' : Encoder)
    (cl' : Nat) (out' : List Nat) (hr : Encoder.Reachable s)
    (h : Encoder.step fuel s input cl cap out =
      some (s', cl', out', .terminated)) :
    s'.symbol_bits = 0 ∧ s'.queued_bits = 0 ∧ s'.output_bits = 0 := by
  have hinv := Encoder.reachable_invariant s hr
  obtain ⟨⟨hA, hB⟩, hot⟩ :=
    Encoder.step_inv fuel s input cl cap out s' cl' out' _ h hinv
  obtain ⟨hst, hsb⟩ := hB (hot rfl)
  obtain ⟨_, hqb, hob⟩ := hA hst
  exact ⟨hsb, hqb, hob⟩

/-- Witness for C10: encoding the empty input terminates with all three
buffers empty. -/
theorem claim_C10_witness :
    (⟨0, 0, 0, 0, 0, false, false, true, true, true⟩ : Encoder).symbol_bits = 0 ∧
    (⟨0, 0, 0, 0, 0, false, false, true, true, true⟩ : Encoder).queued_bits = 0 ∧
    (⟨0, 0, 0, 0, 0, false, false, true, true, true⟩ : Encoder).output_bits = 0 :=
  claim_C10_terminal_asserts 10 (Encoder.set_consumed_bytes_end Encoder.new)
    [] 0 8 [] ⟨0, 0, 0, 0, 0, false, false, true, true, true⟩ 0
    [0x00, 0x0F, 0xFF] (Encoder.Reachable.set_end _ Encoder.Reachable.new)
    (by decide)

/-- **C9 counterexample.**  Decoding `0101 0001 | 0000 0000 | 0000 1111 |
1111 1111` (a 4-bit zero run, a 4-bit one run, then the end-of-stream
marker) with a zero-length output buffer suspends on `CanProduce` after
the end-of-stream marker has already been parsed, with a full byte
pending flush; in that state — `step` has returned only `CanConsume` or
`CanProduce`, never `Terminated` — `partial_output_byte` already returns
`Some((0b00001111, 8))`, not `None` as the claim requires. -/
theorem claim_C9_counterexample :
    Decoder.step 50 Decoder.new [0b01010001, 0x00, 0x0F, 0xFF] 0 0 [] =
      some (⟨0, 0, 8, 0, 15, true, true, true⟩, 4, [], .canProduce) ∧
    Decoder.partial_output_byte ⟨0, 0, 8, 0, 15, true, true, true⟩ =
      some (15, 8) := by decide

/-- **C9 (amended).**  `partial_output_byte` returns `Some((data, bits))`
exactly when `symbol_term` is set and `output_bits ≠ 0`.  After a `step`
from a reachable state returns `Terminated`, it returns `Some` iff the
`unaligned` flag is set, and then `data` holds the trailing bits of the
last partial output byte right-aligned in the low byte with
`bits ∈ [1, 7]` their count; after a `CanConsume` return it returns
`None`; but it can already return `Some` (with `bits = 8`) in a state
suspended on `CanProduce` once the end-of-stream marker has been parsed
with a full byte pending flush. -/
theorem claim_C9_partial_output_byte (fuel : Nat) (s : Decoder)
    (input : List Nat) (cl cap : Nat) (out : List Nat) (s' : Decoder)
    (cl' : Nat) (out' : List Nat) (st : DecoderState)
    (hr : Decoder.Reachable s)
    (h : Decoder.step fuel s input cl cap out = some (s', cl', out', st)) :
    (∀ c u, st = .terminated c u →
      Decoder.partial_output_byte s' =
        if u = true then some (s'.output_data, s'.output_bits) else none) ∧
    (∀ c, st = .terminated c true →
      1 ≤ s'.output_bits ∧ s'.output_bits ≤ 7 ∧
      s'.output_data < 2 ^ s'.output_bits) ∧
    (st = .canConsume → Decoder.partial_output_byte s' = none) := by
  obtain ⟨i1, i2, i3⟩ := Decoder.reachable_inv s hr
  obtain ⟨inv1, inv2, inv3, hcc, hter⟩ :=
    Decoder.step_sound fuel s input cl cap out s' cl' out' _ h i1 i2 i3
  refine ⟨?_, ?_, ?_⟩
  · intro c u hst
    obtain ⟨ht, _, _, _, hu⟩ := hter c u hst
    subst hu
    by_cases hub : s'.output_bits = 0
    · simp [Decoder.partial_output_byte, ht, hub]
    · simp [Decoder.partial_output_byte, ht, hub]
  · intro c hst
    obtain ⟨ht, _, hob, _, hu⟩ := hter c true hst
    have hnz : s'.output_bits ≠ 0 := by
      intro hz
      rw [hz] at hu
      simp at hu
    exact ⟨by omega, by omega, inv3⟩
  · intro hst
    have := hcc hst
    simp [Decoder.partial_output_byte, this]

/-- Witness for the amended C9: decoding a stream whose payload is 4 bits
long terminates unaligned with `partial_output_byte = some (0b0111, 4)`. -/
theorem claim_C9_witness :
    (∀ c u, (DecoderState.terminated false true : DecoderState) = .terminated c u →
      Decoder.partial_output_byte ⟨3, 0, 4, 0, 7, true, true, true⟩ =
        if u = true
        then some ((⟨3, 0, 4, 0, 7, true, true, true⟩ : Decoder).output_data,
          (⟨3, 0, 4, 0, 7, true, true, true⟩ : Decoder).output_bits)
        else none) ∧
    (∀ c, (DecoderState.terminated false true : DecoderState) = .terminated c true →
      1 ≤ (⟨3, 0, 4, 0, 7, true, true, true⟩ : Decoder).output_bits ∧
      (⟨3, 0, 4, 0, 7, true, true, true⟩ : Decoder).output_bits ≤ 7 ∧
      (⟨3, 0, 4, 0, 7, true, true, true⟩ : Decoder).output_data <
        2 ^ (⟨3, 0, 4, 0, 7, true, true, true⟩ : Decoder).output_bits) ∧
    ((DecoderState.terminated false true : DecoderState) = .canConsume →
      Decoder.partial_output_byte ⟨3, 0, 4, 0, 7, true, true, true⟩ = none) :=
  claim_C9_partial_output_byte 50 Decoder.new
    [0b10001000, 0b00000000, 0b01111111, 0b11111000] 0 32 []
    ⟨3, 0, 4, 0, 7, true, true, true⟩ 4 [] (.terminated false true)
    Decoder.Reachable.new (by decide)

/-- **C2 counterexample.**  Parsing the continuation long symbol `0xFFD`
(here arriving as the bytes `[0x00, 0x0F, 0xFD]` in the initial mode-0
state) queues 12284 run bits — the run the continuation itself stands
for — so it does emit run bits by itself, contrary to the claim; only the
mode-toggle half of the claim holds (`symbol_mode` stays `false`). -/
theorem claim_C2_counterexample :
    Decoder.consume Decoder.new [0x00, 0x0F, 0xFD] 0 =
      (⟨0, 12284, 0, 0, 0, false, false, false⟩, 3, false) := by decide

/-- **C2 (amended).**  Parsing a long symbol with 12-bit payload `0xFFD`
queues 12284 run bits in mode 0 (resp. 4106 in mode 1) — exactly the
amount the encoder subtracts when it emits a continuation — and does not
toggle `symbol_mode`, so the next symbol is parsed in the same mode and
its run continues the same run. -/
theorem claim_C2_continuation_parse (s : Decoder) (input : List Nat)
    (cl : Nat) (hq : s.queued_bits = 0) (ht : s.symbol_term = false)
    (hsb : 24 ≤ s.symbol_bits) (hsd : s.symbol_data < 2 ^ 20)
    (hp : ((s.symbol_data >>> 8) % 2 ^ 16) &&& 0xFFF = 0xFFD) :
    Decoder.consume s input cl =
      ({ s with
          symbol_bits := s.symbol_bits - 24
          symbol_data := (s.symbol_data <<< 24) % 2 ^ 32
          queued_bits := if s.symbol_mode = true then 4106 else 12284
          queued_mode := s.symbol_mode }, cl, false) := by
  have hpre : ¬ u32_leading_zeros s.symbol_data < 12 := by
    have := bitLen_le 32 20 s.symbol_data hsd (by omega)
    unfold u32_leading_zeros
    omega
  unfold Decoder.consume
  rw [if_pos ⟨hq, ht⟩]
  have hfill : Decoder.fill s input cl = (s, cl, false) := by
    unfold Decoder.fill Decoder.fillGo
    rw [if_neg (by omega)]
  rw [hfill]
  dsimp only []
  unfold Decoder.parse
  simp only [hpre, if_false, hp]
  cases hm : s.symbol_mode <;> simp [ht]

/-- Witness for the amended C2: a mode-0 state holding exactly the symbol
`0xFFD` in its window queues 12284 bits without toggling the mode. -/
theorem claim_C2_witness :
    Decoder.consume ⟨24, 0, 0, 0x0FFD00, 0, false, false, false⟩ [] 0 =
      (⟨0, 12284, 0, 0, 0, false, false, false⟩, 0, false) := by
  rw [claim_C2_continuation_parse
    ⟨24, 0, 0, 0x0FFD00, 0, false, false, false⟩ [] 0 rfl rfl (by decide)
    (by decide) (by decide)]
  decide

/-- **C3 counterexample.**  Scanning the input byte `0b0101_0101` from a
fresh encoder completes a run of ZERO bits of length 1 (after the second
`consume` call, `queued_done` is set with `queued_bits = 1` and
`queued_mode` already toggled to 1); emitting it packs the 2-bit code
`10` — `symbol_bits` goes from 0 to 2 and the window becomes
`0b10 <<< 30 = 2 ^ 31` — not the 1-bit code `1` the claim's table
prescribes for a zero-run of length 1 (that unary table is the one-run
table). -/
theorem claim_C3_counterexample :
    Encoder.consume Encoder.new [0b01010101] 0 =
      (⟨0, 1, 7, 0, 170, false, false, false, false, false⟩, 1, false) ∧
    Encoder.consume ⟨0, 1, 7, 0, 170, false, false, false, false, false⟩
      [0b01010101] 1 =
      (⟨0, 1, 7, 0, 170, true, true, false, false, false⟩, 1, false) ∧
    Encoder.produce ⟨0, 1, 7, 0, 170, true, true, false, false, false⟩ 8 [] =
      (⟨2, 0, 7, 2 ^ 31, 170, false, true, false, false, false⟩, [], false) := by
  decide

/-- **C3 (amended).**  The unary/long/continuation table of the claim is
the encoder's table for completed runs of ONE bits (emitted with
`queued_mode` already toggled to 0), not zero bits: such a run of length
`L` is emitted as the unary code `0^(L-1) 1` of `L` bits for
`1 ≤ L ≤ 12` (so `L = 1` is the 1-bit code `1`), as a 24-bit long symbol
with payload `L - 13` for `13 ≤ L ≤ 4105`, and as a continuation `0xFFD`
long symbol with `L - 4106` left queued in the same mode for
`L ≥ 4106`. -/
theorem claim_C3_one_run_table (s : Encoder) (hm : s.queued_mode = false) :
    (1 ≤ s.queued_bits → s.queued_bits ≤ 12 →
      Encoder.emitRun s = { s with
        symbol_data :=
          s.symbol_data ||| 1 <<< (32 - s.queued_bits - s.symbol_bits)
        symbol_bits := s.symbol_bits + s.queued_bits
        queued_bits := 0
        queued_done := false }) ∧
    (13 ≤ s.queued_bits → s.queued_bits ≤ 4105 →
      Encoder.emitRun s = { s with
        symbol_data :=
          s.symbol_data ||| (s.queued_bits - 13) <<< (8 - s.symbol_bits)
        symbol_bits := s.symbol_bits + 24
        queued_bits := 0
        queued_done := false }) ∧
    (4106 ≤ s.queued_bits →
      Encoder.emitRun s = { s with
        symbol_data := s.symbol_data ||| 0xFFD <<< (8 - s.symbol_bits)
        symbol_bits := s.symbol_bits + 24
        queued_bits := s.queued_bits - 4106 }) := by
  obtain ⟨sb, qb, ob, sd, od, qd, qm, st, qt, ot⟩ := s
  simp only [] at hm
  subst hm
  refine ⟨?_, ?_, ?_⟩
  · intro h1 h12
    interval_cases qb <;> simp [Encoder.emitRun]
  · intro h13 h4105
    simp only [] at h13 h4105
    unfold Encoder.emitRun
    dsimp only []
    have c0 : ¬ qb = 0 := by omega
    have c1 : ¬ qb = 1 := by omega
    have c2 : ¬ qb = 2 := by omega
    have c3 : ¬ qb = 3 := by omega
    have c4 : ¬ qb = 4 := by omega
    have c5 : ¬ qb = 5 := by omega
    have c6 : ¬ qb = 6 := by omega
    have c7 : ¬ qb = 7 := by omega
    have c8 : ¬ qb = 8 := by omega
    have c9 : ¬ qb = 9 := by omega
    have c10 : ¬ qb = 10 := by omega
    have c11 : ¬ qb = 11 := by omega
    have c12 : ¬ qb = 12 := by omega
    rw [if_neg (by simp), if_neg c0, if_neg c1, if_neg c2, if_neg c3,
      if_neg c4, if_neg c5, if_neg c6, if_neg c7, if_neg c8, if_neg c9,
      if_neg c10, if_neg c11, if_neg c12, if_pos h4105]
  · intro h4106
    simp only [] at h4106
    unfold Encoder.emitRun
    dsimp only []
    have d0 : ¬ qb = 0 := by omega
    have d1 : ¬ qb = 1 := by omega
    have d2 : ¬ qb = 2 := by omega
    have d3 : ¬ qb = 3 := by omega
    have d4 : ¬ qb = 4 := by omega
    have d5 : ¬ qb = 5 := by omega
    have d6 : ¬ qb = 6 := by omega
    have d7 : ¬ qb = 7 := by omega
    have d8 : ¬ qb = 8 := by omega
    have d9 : ¬ qb = 9 := by omega
    have d10 : ¬ qb = 10 := by omega
    have d11 : ¬ qb = 11 := by omega
    have d12 : ¬ qb = 12 := by omega
    have d13 : ¬ qb ≤ 4105 := by omega
    rw [if_neg (by simp), if_neg d0, if_neg d1, if_neg d2, if_neg d3,
      if_neg d4, if_neg d5, if_neg d6, if_neg d7, if_neg d8, if_neg d9,
      if_neg d10, if_neg d11, if_neg d12, if_neg d13]

/-- Witness for the amended C3: a one-run of length 5 packs the 5-bit
unary code, one of length 100 the long symbol with payload 87, one of
length 5000 the continuation with 894 bits left queued. -/
theorem claim_C3_witness :
    Encoder.emitRun ⟨0, 5, 0, 0, 0, true, false, false, false, false⟩ =
      ⟨5, 0, 0, 134217728, 0, false, false, false, false, false⟩ ∧
    Encoder.emitRun ⟨0, 100, 0, 0, 0, true, false, false, false, false⟩ =
      ⟨24, 0, 0, 22272, 0, false, false, false, false, false⟩ ∧
    Encoder.emitRun ⟨0, 5000, 0, 0, 0, true, false, false, false, false⟩ =
      ⟨24, 894, 0, 1047808, 0, true, false, false, false, false⟩ := by
  refine ⟨?_, ?_, ?_⟩
  · rw [(claim_C3_one_run_table
      ⟨0, 5, 0, 0, 0, true, false, false, false, false⟩ rfl).1
      (by decide) (by decide)]
    decide
  · rw [(claim_C3_one_run_table
      ⟨0, 100, 0, 0, 0, true, false, false, false, false⟩ rfl).2.1
      (by decide) (by decide)]
    decide
  · rw [(claim_C3_one_run_table
      ⟨0, 5000, 0, 0, 0, true, false, false, false, false⟩ rfl).2.2
      (by decide)]
    decide

/-- **C4 counterexample.**  Encoding the single byte `0xFF` (with
end-of-input signalled) produces a stream whose first three bytes
`[0x00, 0x0F, 0xFE]` are exactly the no-op long symbol with payload
`0xFFE` (emitted for the empty leading zero-run), so the encoder does
emit it; the second conjunct shows the decoder consuming those three
bytes as one 24-bit symbol that queues no run. -/
theorem claim_C4_counterexample :
    encode_into_slice 100 [0b11111111] 16 =
      some (.ok [0x00, 0x0F, 0xFE, 0b00000001, 0x00, 0x0F, 0xFF]) ∧
    Decoder.consume Decoder.new [0x00, 0x0F, 0xFE] 0 =
      (⟨0, 0, 0, 0, 0, false, true, false⟩, 3, false) := by decide

/-- **C4 (amended).**  The encoder emits the no-op long symbol `0xFFE`
precisely when it emits a completed run of length 0 (e.g. for the empty
leading zero-run of an input starting with a one bit, or for an empty
continuation remainder), in either mode; the decoder accepts it as a
symbol that queues no run (while still toggling the parse mode). -/
theorem claim_C4_noop_symbol :
    (∀ s : Encoder, s.queued_bits = 0 →
      Encoder.emitRun s = { s with
        symbol_data := s.symbol_data ||| 0xFFE <<< (8 - s.symbol_bits)
        symbol_bits := s.symbol_bits + 24
        queued_bits := 0
        queued_done := false }) ∧
    (∀ (s : Decoder) (input : List Nat) (cl : Nat),
      s.queued_bits = 0 → s.symbol_term = false → 24 ≤ s.symbol_bits →
      s.symbol_data < 2 ^ 20 →
      ((s.symbol_data >>> 8) % 2 ^ 16) &&& 0xFFF = 0xFFE →
      Decoder.consume s input cl =
        ({ s with
            symbol_bits := s.symbol_bits - 24
            symbol_data := (s.symbol_data <<< 24) % 2 ^ 32
            symbol_mode := !s.symbol_mode }, cl, false)) := by
  constructor
  · intro s hq
    unfold Encoder.emitRun
    by_cases hm : s.queued_mode = true
    · rw [if_pos hm, if_pos hq]
    · rw [if_neg hm, if_pos hq]
  · intro s input cl hq ht hsb hsd hp
    have hpre : ¬ u32_leading_zeros s.symbol_data < 12 := by
      have := bitLen_le 32 20 s.symbol_data hsd (by omega)
      unfold u32_leading_zeros
      omega
    unfold Decoder.consume
    rw [if_pos ⟨hq, ht⟩]
    have hfill : Decoder.fill s input cl = (s, cl, false) := by
      unfold Decoder.fill Decoder.fillGo
      rw [if_neg (by omega)]
    rw [hfill]
    dsimp only []
    unfold Decoder.parse
    simp only [hpre, if_false, hp]
    cases hm : s.symbol_mode <;> simp [ht]

/-- Witness for the amended C4: an empty completed run in mode 1 packs the
`0xFFE` symbol, and a mode-0 decoder window holding exactly `0xFFE`
consumes it without queuing a run. -/
theorem claim_C4_witness :
    Encoder.emitRun ⟨0, 0, 0, 0, 0, true, true, false, false, false⟩ =
      ⟨24, 0, 0, 1048064, 0, false, true, false, false, false⟩ ∧
    Decoder.consume ⟨24, 0, 0, 0x0FFE00, 0, false, false, false⟩ [] 0 =
      (⟨0, 0, 0, 0, 0, false, true, false⟩, 0, false) := by
  constructor
  · rw [claim_C4_noop_symbol.1 ⟨0, 0, 0, 0, 0, true, true, false, false, false⟩
      rfl]
    decide
  · rw [claim_C4_noop_symbol.2 ⟨24, 0, 0, 0x0FFE00, 0, false, false, false⟩
      [] 0 rfl rfl (by decide) (by decide) (by decide)]
    decide

/-! ### Bit-window toolkit for the round-trip proof -/

/-- The top `sb` valid bits of a left-justified `w`-bit window. -/
def winBits (w sb n : Nat) : List Bool := (List.range sb).map fun i => n.testBit (w - 1 - i)

theorem winBits_length (w sb n : Nat) : (winBits w sb n).length = sb := by
  simp [winBits]

theorem bitsBE_length (w n : Nat) : (bitsBE w n).length = w := by
  simp [bitsBE]

theorem winBits_getElem (w sb n : Nat) (i : Nat) (h : i < sb) :
    getElem (winBits w sb n) i (by simpa [winBits_length] using h) =
      n.testBit (w - 1 - i) := by
  simp [winBits]

theorem bitsBE_getElem (w n : Nat) (i : Nat) (h : i < w) :
    getElem (bitsBE w n) i (by simpa [bitsBE_length] using h) =
      n.testBit (w - 1 - i) := by
  simp [bitsBE]

theorem winBits_zero_len (w n : Nat) : winBits w 0 n = [] := by
  simp [winBits]

/-- Bits below a zero low part are all `false`. -/
theorem testBit_low_zero {n k : Nat} (hlow : n % 2 ^ k = 0) :
    ∀ j, j < k → n.testBit j = false := by
  intro j hj
  have h0 := Nat.testBit_mod_two_pow n k j
  rw [hlow, Nat.zero_testBit] at h0
  simpa [hj] using h0.symm

/-- Emission: OR-ing a `k`-bit pattern right below the `sb` valid bits of
a clean window appends the pattern's bits. -/
theorem winBits_or_append (w sb k pat n : Nat) (hw : sb + k ≤ w)
    (hlow : n % 2 ^ (w - sb) = 0) (hpat : pat < 2 ^ k) :
    winBits w (sb + k) (n ||| pat <<< (w - sb - k)) =
      winBits w sb n ++ bitsBE k pat := by
  apply List.ext_getElem
  · simp [winBits_length, bitsBE_length]
  · intro i h1 h2
    have hisk : i < sb + k := by simpa [winBits_length] using h1
    rw [winBits_getElem w (sb + k) _ i hisk]
    rw [Nat.testBit_or, Nat.testBit_shiftLeft]
    by_cases hi : i < sb
    · rw [List.getElem_append_left (by simpa [winBits_length] using hi)]
      rw [winBits_getElem w sb n i hi]
      have hpb : pat.testBit (w - 1 - i - (w - sb - k)) = false :=
        Nat.testBit_lt_two_pow
          (lt_of_lt_of_le hpat (Nat.pow_le_pow_right (by norm_num) (by omega)))
      simp [hpb]
    · rw [List.getElem_append_right (by simpa [winBits_length] using hi)]
      simp only [winBits_length, bitsBE, List.getElem_map, List.getElem_range]
      have hnb : n.testBit (w - 1 - i) = false :=
        testBit_low_zero hlow _ (by omega)
      have hge : w - 1 - i ≥ w - sb - k := by omega
      rw [hnb, decide_eq_true hge]
      simp only [Bool.false_or, Bool.true_and]
      congr 1
      omega

/-- Emission keeps the window clean below the new valid bits. -/
theorem winBits_or_low (w sb k pat n : Nat) (hw : sb + k ≤ w)
    (hlow : n % 2 ^ (w - sb) = 0) :
    (n ||| pat <<< (w - sb - k)) % 2 ^ (w - (sb + k)) = 0 := by
  apply Nat.eq_of_testBit_eq
  intro j
  rw [Nat.zero_testBit, Nat.testBit_mod_two_pow]
  by_cases hj : j < w - (sb + k)
  · have h1 : n.testBit j = false := testBit_low_zero hlow _ (by omega)
    have h2 : ¬ (w - sb - k ≤ j) := by omega
    simp [hj, h1, Nat.testBit_or, h2]
  · simp [hj]

/-- Emission keeps the window inside `w` bits. -/
theorem winBits_or_lt (w sb k pat n : Nat) (hw : sb + k ≤ w)
    (hn : n < 2 ^ w) (hpat : pat < 2 ^ k) :
    (n ||| pat <<< (w - sb - k)) < 2 ^ w := by
  apply nat_lor_lt_two_pow hn
  rw [Nat.shiftLeft_eq]
  calc pat * 2 ^ (w - sb - k) < 2 ^ k * 2 ^ (w - sb - k) :=
        (Nat.mul_lt_mul_right (Nat.pow_pos (by omega))).mpr hpat
    _ = 2 ^ (k + (w - sb - k)) := by rw [pow_add]
    _ ≤ 2 ^ w := Nat.pow_le_pow_right (by norm_num) (by omega)

/-- Shifting the window left by `k` discards its first `k` bits. -/
theorem winBits_shl_drop (w sb k n : Nat) (hk : k ≤ sb) (hsb : sb ≤ w) :
    winBits w (sb - k) ((n <<< k) % 2 ^ w) = (winBits w sb n).drop k := by
  apply List.ext_getElem
  · simp [winBits_length]
  · intro i h1 h2
    have hi : i < sb - k := by simpa [winBits_length] using h1
    rw [winBits_getElem w (sb - k) _ i hi]
    rw [List.getElem_drop]
    rw [winBits_getElem w sb n (k + i) (by omega)]
    have hw1 : w - 1 - i < w := by omega
    have hw2 : w - 1 - i ≥ k := by omega
    rw [Nat.testBit_mod_two_pow, Nat.testBit_shiftLeft,
      decide_eq_true hw1, decide_eq_true hw2]
    simp only [Bool.true_and]
    congr 1
    omega

/-- Shifting keeps the window clean below the remaining valid bits. -/
theorem winBits_shl_low (w sb k n : Nat) (hk : k ≤ sb) (hsb : sb ≤ w)
    (hlow : n % 2 ^ (w - sb) = 0) :
    ((n <<< k) % 2 ^ w) % 2 ^ (w - (sb - k)) = 0 := by
  apply Nat.eq_of_testBit_eq
  intro j
  rw [Nat.zero_testBit, Nat.testBit_mod_two_pow, Nat.testBit_mod_two_pow,
    Nat.testBit_shiftLeft]
  by_cases hj : j < w - (sb - k)
  · by_cases hjk : k ≤ j
    · have : n.testBit (j - k) = false := testBit_low_zero hlow _ (by omega)
      simp [this]
    · simp [hjk]
  · simp [hj]

/-- `bitsBE` ignores bits above its width. -/
theorem bitsBE_mod (w n : Nat) : bitsBE w (n % 2 ^ w) = bitsBE w n := by
  apply List.ext_getElem
  · simp [bitsBE_length]
  · intro i h1 h2
    rw [bitsBE_getElem w _ i (by simpa [bitsBE_length] using h1),
      bitsBE_getElem w n i (by simpa [bitsBE_length] using h1)]
    rw [Nat.testBit_mod_two_pow]
    have : w - 1 - i < w := by
      have : i < w := by simpa [bitsBE_length] using h1
      omega
    simp [this]

/-- Extracting the top `k` bits of the window as a value. -/
theorem bitsBE_shiftRight_take (w sb k n : Nat) (hk : k ≤ sb) (hsb : sb ≤ w) :
    bitsBE k (n >>> (w - k)) = (winBits w sb n).take k := by
  apply List.ext_getElem
  · simp [bitsBE_length, winBits_length]
    omega
  · intro i h1 h2
    have hik : i < k := by simpa [bitsBE_length] using h1
    rw [bitsBE_getElem k _ i hik]
    rw [List.getElem_take, winBits_getElem w sb n i (by omega)]
    rw [Nat.testBit_shiftRight]
    congr 1
    omega

/-- If the window's top `k` bits spell a `k`-bit value, the shifted-out
top equals that value. -/
theorem winBits_value (w sb k n v : Nat) (hk : k ≤ sb) (hsb : sb ≤ w)
    (hn : n < 2 ^ w) (hv : v < 2 ^ k)
    (h : (winBits w sb n).take k = bitsBE k v) : n >>> (w - k) = v := by
  have h2 : bitsBE k (n >>> (w - k)) = bitsBE k v := by
    rw [bitsBE_shiftRight_take w sb k n hk hsb, h]
  apply Nat.eq_of_testBit_eq
  intro j
  by_cases hj : j < k
  · have e1 := bitsBE_getElem k (n >>> (w - k)) (k - 1 - j) (by omega)
    have e2 := bitsBE_getElem k v (k - 1 - j) (by omega)
    have e3 : getElem (bitsBE k (n >>> (w - k))) (k - 1 - j) (by
      simpa [bitsBE_length] using (by omega : k - 1 - j < k)) =
        getElem (bitsBE k v) (k - 1 - j) (by
          simpa [bitsBE_length] using (by omega : k - 1 - j < k)) := by
      simp only [h2]
    rw [e1, e2] at e3
    have hkk : k - 1 - (k - 1 - j) = j := by omega
    rwa [hkk] at e3
  · have hx : n >>> (w - k) < 2 ^ k := by
      rw [Nat.shiftRight_eq_div_pow]
      apply Nat.div_lt_of_lt_mul
      calc n < 2 ^ w := hn
        _ ≤ 2 ^ (w - k) * 2 ^ k := by
            rw [← pow_add]
            exact Nat.pow_le_pow_right (by norm_num) (by omega)
    rw [Nat.testBit_lt_two_pow (lt_of_lt_of_le hx
      (Nat.pow_le_pow_right (by norm_num) (by omega))),
      Nat.testBit_lt_two_pow (lt_of_lt_of_le hv
        (Nat.pow_le_pow_right (by norm_num) (by omega)))]

theorem bitsBE_zero (w : Nat) : bitsBE w 0 = List.replicate w false := by
  apply List.ext_getElem
  · simp [bitsBE_length]
  · intro i h1 h2
    rw [bitsBE_getElem w 0 i (by simpa [bitsBE_length] using h1)]
    simp [Nat.zero_testBit]

theorem bitsBE_all_ones (a : Nat) :
    bitsBE a (2 ^ a - 1) = List.replicate a true := by
  apply List.ext_getElem
  · simp [bitsBE_length]
  · intro i h1 h2
    have hia : i < a := by simpa [bitsBE_length] using h1
    rw [bitsBE_getElem a _ i hia]
    rw [Nat.testBit_two_pow_sub_one]
    simp only [List.getElem_replicate]
    exact decide_eq_true (by omega)

/-- The top bit of a value known to lie in `[2 ^ k, 2 ^ (k + 1))`. -/
theorem testBit_true_of_bounds {v k : Nat} (h1 : 2 ^ k ≤ v)
    (h2 : v < 2 ^ (k + 1)) : v.testBit k = true := by
  rw [Nat.testBit_to_div_mod]
  have hd : v / 2 ^ k = 1 := by
    apply Nat.div_eq_of_lt_le
    · simpa using h1
    · rw [pow_succ] at h2
      omega
  rw [hd]
  rfl

/-- OR-ing a value below a power of two adds it. -/
theorem two_pow_lor_eq_add (k x : Nat) (hx : x < 2 ^ k) :
    2 ^ k ||| x = 2 ^ k + x := by
  apply Nat.eq_of_testBit_eq
  intro i
  rw [Nat.testBit_lor]
  rcases lt_trichotomy i k with h | h | h
  · have h1 := Nat.testBit_mod_two_pow (2 ^ k + x) k i
    rw [Nat.add_mod_left, Nat.mod_eq_of_lt hx] at h1
    rw [decide_eq_true h, Bool.true_and] at h1
    rw [Nat.testBit_two_pow_of_ne (by omega), Bool.false_or, h1]
  · subst h
    rw [Nat.testBit_two_pow_self, Bool.true_or]
    have : (2 ^ i + x).testBit i = true := by
      apply testBit_true_of_bounds (by omega)
      rw [pow_succ]
      omega
    rw [this]
  · have hx2 : x < 2 ^ i :=
      lt_of_lt_of_le hx (Nat.pow_le_pow_right (by norm_num) (by omega))
    have hs : 2 ^ k + x < 2 ^ i := by
      have : 2 ^ (k + 1) ≤ 2 ^ i := Nat.pow_le_pow_right (by norm_num) (by omega)
      rw [pow_succ] at this
      omega
    rw [Nat.testBit_two_pow_of_ne (by omega), Nat.testBit_lt_two_pow hx2,
      Nat.testBit_lt_two_pow hs]
    rfl

/-- Big-endian bits of a two-field word: high field, then low field. -/
theorem bitsBE_shl_or (m a x y : Nat) (hx : x < 2 ^ m) (hy : y < 2 ^ a) :
    bitsBE (m + a) ((x <<< a) ||| y) = bitsBE m x ++ bitsBE a y := by
  apply List.ext_getElem
  · simp [bitsBE_length]
  · intro i h1 h2
    have hima : i < m + a := by simpa [bitsBE_length] using h1
    rw [bitsBE_getElem (m + a) _ i hima]
    rw [Nat.testBit_or, Nat.testBit_shiftLeft]
    by_cases hi : i < m
    · rw [List.getElem_append_left (by simpa [bitsBE_length] using hi)]
      rw [bitsBE_getElem m x i hi]
      have hyb : y.testBit (m + a - 1 - i) = false := by
        apply Nat.testBit_lt_two_pow
        exact lt_of_lt_of_le hy (Nat.pow_le_pow_right (by norm_num) (by omega))
      rw [hyb, decide_eq_true (show m + a - 1 - i ≥ a by omega), Bool.true_and,
        Bool.or_false]
      congr 1
      omega
    · rw [List.getElem_append_right (by simpa [bitsBE_length] using hi)]
      have hlt : ¬ (m + a - 1 - i ≥ a) := by omega
      rw [decide_eq_false hlt, Bool.false_and, Bool.false_or]
      simp only [bitsBE_length, bitsBE, List.getElem_map, List.getElem_range,
        List.length_map, List.length_range]
      congr 1
      omega

/-- A left shift pads the big-endian bits with zeroes on the right. -/
theorem bitsBE_shl_pad (m a x : Nat) (hx : x < 2 ^ m) :
    bitsBE (m + a) (x <<< a) = bitsBE m x ++ List.replicate a false := by
  have h := bitsBE_shl_or m a x 0 hx (Nat.pos_pow_of_pos a (by norm_num))
  rw [Nat.or_zero] at h
  rw [h, bitsBE_zero]

theorem bitsBE_inj {w x y : Nat} (hx : x < 2 ^ w) (hy : y < 2 ^ w)
    (h : bitsBE w x = bitsBE w y) : x = y := by
  apply Nat.eq_of_testBit_eq
  intro j
  by_cases hj : j < w
  · have e1 := bitsBE_getElem w x (w - 1 - j) (by omega)
    have e2 := bitsBE_getElem w y (w - 1 - j) (by omega)
    have e3 : getElem (bitsBE w x) (w - 1 - j) (by
        simpa [bitsBE_length] using (by omega : w - 1 - j < w)) =
        getElem (bitsBE w y) (w - 1 - j) (by
          simpa [bitsBE_length] using (by omega : w - 1 - j < w)) := by
      simp only [h]
    rw [e1, e2] at e3
    have hww : w - 1 - (w - 1 - j) = j := by omega
    rwa [hww] at e3
  · rw [Nat.testBit_lt_two_pow (lt_of_lt_of_le hx
        (Nat.pow_le_pow_right (by norm_num) (by omega))),
      Nat.testBit_lt_two_pow (lt_of_lt_of_le hy
        (Nat.pow_le_pow_right (by norm_num) (by omega)))]

/-- A clean window whose valid bits are all `false` is the zero word. -/
theorem winBits_zero_of_all_false {w sb n : Nat} (hsb : sb ≤ w)
    (hn : n < 2 ^ w) (hlow : n % 2 ^ (w - sb) = 0)
    (h : winBits w sb n = List.replicate sb false) : n = 0 := by
  apply Nat.eq_of_testBit_eq
  intro j
  rw [Nat.zero_testBit]
  by_cases hj : j < w - sb
  · exact testBit_low_zero hlow j hj
  · by_cases hj2 : j < w
    · have hi : w - 1 - j < sb := by omega
      have e1 := winBits_getElem w sb n (w - 1 - j) hi
      have e2 : getElem (winBits w sb n) (w - 1 - j) (by
          simpa [winBits_length] using hi) =
          getElem (List.replicate sb false) (w - 1 - j)
            (by simpa using hi) := by
        simp only [h]
      rw [e1, List.getElem_replicate] at e2
      have hww : w - 1 - (w - 1 - j) = j := by omega
      rwa [hww] at e2
    · exact Nat.testBit_lt_two_pow (lt_of_lt_of_le hn
        (Nat.pow_le_pow_right (by norm_num) (by omega)))

/-- A full window is exactly the big-endian bits of its shifted-out top. -/
theorem winBits_eq_bitsBE (w sb n : Nat) (h : sb ≤ w) :
    winBits w sb n = bitsBE sb (n >>> (w - sb)) := by
  rw [bitsBE_shiftRight_take w sb sb n le_rfl h]
  exact (List.take_of_length_le (by rw [winBits_length])).symm

theorem bitsOfBytes_nil : bitsOfBytes [] = [] := rfl

theorem bitsOfBytes_cons (x : Nat) (xs : List Nat) :
    bitsOfBytes (x :: xs) = bitsBE 8 x ++ bitsOfBytes xs := by
  simp [bitsOfBytes]

theorem bitsOfBytes_append (xs ys : List Nat) :
    bitsOfBytes (xs ++ ys) = bitsOfBytes xs ++ bitsOfBytes ys := by
  simp [bitsOfBytes]

theorem bitsOfBytes_length (xs : List Nat) :
    (bitsOfBytes xs).length = 8 * xs.length := by
  induction xs with
  | nil => rfl
  | cons x xs ih =>
    rw [bitsOfBytes_cons, List.length_append, bitsBE_length, ih,
      List.length_cons]
    ring

theorem bitsOfBytes_take_succ (b : List Nat) (cl : Nat) (h : cl < b.length) :
    bitsOfBytes (b.take (cl + 1)) =
      bitsOfBytes (b.take cl) ++ bitsBE 8 (getElem b cl h) := by
  rw [List.take_succ, bitsOfBytes_append]
  congr 1
  have : b[cl]? = some (getElem b cl h) := List.getElem?_eq_getElem h
  rw [this]
  rfl

theorem bitsOfBytes_drop (Y : List Nat) (cl : Nat) :
    (bitsOfBytes Y).drop (8 * cl) = bitsOfBytes (Y.drop cl) := by
  induction cl generalizing Y with
  | zero => simp
  | succ cl ih =>
    cases Y with
    | nil => simp [bitsOfBytes]
    | cons y ys =>
      rw [bitsOfBytes_cons, List.drop_append_eq_append_drop]
      have h8 : 8 * (cl + 1) = 8 * cl + 8 := by ring
      rw [bitsBE_length, h8]
      rw [List.drop_eq_nil_of_le (by rw [bitsBE_length]; omega), List.nil_append]
      have : 8 * cl + 8 - 8 = 8 * cl := by omega
      rw [this, ih]
      rfl

theorem bitsOfBytes_replicate_ff (t : Nat) :
    bitsOfBytes (List.replicate t 0xFF) = List.replicate (8 * t) true := by
  induction t with
  | zero => rfl
  | succ t ih =>
    rw [List.replicate_succ, bitsOfBytes_cons, ih]
    have h8 : 8 * (t + 1) = 8 + 8 * t := by ring
    rw [h8, List.replicate_add]
    congr 1

theorem bitsOfBytes_replicate_00 (t : Nat) :
    bitsOfBytes (List.replicate t 0x00) = List.replicate (8 * t) false := by
  induction t with
  | zero => rfl
  | succ t ih =>
    rw [List.replicate_succ, bitsOfBytes_cons, ih]
    have h8 : 8 * (t + 1) = 8 + 8 * t := by ring
    rw [h8, List.replicate_add]
    congr 1

/-- Byte sequences are recoverable from their bit streams. -/
theorem bitsOfBytes_inj {xs ys : List Nat} (hx : ∀ a ∈ xs, a < 256)
    (hy : ∀ a ∈ ys, a < 256) (h : bitsOfBytes xs = bitsOfBytes ys) :
    xs = ys := by
  induction xs generalizing ys with
  | nil =>
    cases ys with
    | nil => rfl
    | cons y ys =>
      have := congrArg List.length h
      rw [bitsOfBytes_length, bitsOfBytes_length] at this
      simp at this
  | cons x xs ih =>
    cases ys with
    | nil =>
      have := congrArg List.length h
      rw [bitsOfBytes_length, bitsOfBytes_length] at this
      simp at this
    | cons y ys =>
      rw [bitsOfBytes_cons, bitsOfBytes_cons] at h
      have hhead : bitsBE 8 x = bitsBE 8 y := by
        have h1 := congrArg (List.take 8) h
        rw [List.take_left' (bitsBE_length 8 x),
          List.take_left' (bitsBE_length 8 y)] at h1
        exact h1
      have htail : bitsOfBytes xs = bitsOfBytes ys := by
        have h1 := congrArg (List.drop 8) h
        rw [List.drop_left' (bitsBE_length 8 x),
          List.drop_left' (bitsBE_length 8 y)] at h1
        exact h1
      have hx0 : x < 256 := hx x (by simp)
      have hy0 : y < 256 := hy y (by simp)
      have : x = y := bitsBE_inj
        (show x < 2 ^ 8 by norm_num [hx0])
        (show y < 2 ^ 8 by norm_num [hy0]) hhead
      rw [this, ih (fun a ha => hx a (by simp [ha])) (fun a ha => hy a (by simp [ha])) htail]

theorem countRun_nil (m : Bool) : countRun m [] = 0 := rfl

theorem countRun_cons (m b : Bool) (bs : List Bool) :
    countRun m (b :: bs) = if b = m then countRun m bs + 1 else 0 := rfl

theorem countRun_replicate_append (m : Bool) (q : Nat) (bs : List Bool) :
    countRun m (List.replicate q m ++ bs) = q + countRun m bs := by
  induction q with
  | zero => simp
  | succ q ih =>
    rw [List.replicate_succ, List.cons_append, countRun_cons, if_pos rfl, ih]
    ring

theorem countRun_le_length (m : Bool) (bs : List Bool) :
    countRun m bs ≤ bs.length := by
  induction bs with
  | nil => exact Nat.le_refl 0
  | cons b bs ih =>
    rw [countRun_cons]
    by_cases h : b = m
    · rw [if_pos h]
      simpa using ih
    · rw [if_neg h]
      simp

theorem countRun_take (m : Bool) (bs : List Bool) :
    bs.take (countRun m bs) = List.replicate (countRun m bs) m := by
  induction bs with
  | nil => simp [countRun_nil]
  | cons b bs ih =>
    rw [countRun_cons]
    by_cases h : b = m
    · rw [if_pos h, List.take_succ_cons, ih, h]
      rfl
    · rw [if_neg h]
      simp

theorem countRun_zero_head (m : Bool) (b : Bool) (bs : List Bool)
    (h : countRun m (b :: bs) = 0) : b = !m := by
  rw [countRun_cons] at h
  by_cases hb : b = m
  · rw [if_pos hb] at h
    omega
  · cases b <;> cases m <;> simp_all

/-- Lower bound for the gas-driven bit length. -/
theorem bitLen_ge (g k n : Nat) (hn : 2 ^ k ≤ n) (hk : k < g) :
    k + 1 ≤ bitLen g n := by
  induction g generalizing k n with
  | zero => omega
  | succ g ih =>
    rw [bitLen]
    have hz : ¬ n = 0 := by
      have : 0 < 2 ^ k := Nat.pos_pow_of_pos k (by norm_num)
      omega
    rw [if_neg hz]
    cases k with
    | zero => omega
    | succ k =>
      have hdiv : 2 ^ k ≤ n / 2 := by
        rw [Nat.le_div_iff_mul_le (by norm_num)]
        rw [pow_succ] at hn
        omega
      have := ih k (n / 2) hdiv (by omega)
      omega

/-- `u32::leading_zeros` determined by the value of the shifted-out top
`wd` bits of the window. -/
theorem u32lz_of_top {n v wd p : Nat} (hn : n < 2 ^ 32) (hwd : wd ≤ 32)
    (hp : p < wd) (hv : n >>> (32 - wd) = v) (h1 : 2 ^ (wd - 1 - p) ≤ v)
    (h2 : v < 2 ^ (wd - p)) : u32_leading_zeros n = p := by
  have hlo : 2 ^ (31 - p) ≤ n := by
    have hm : v * 2 ^ (32 - wd) ≤ n := by
      rw [← hv, Nat.shiftRight_eq_div_pow]
      exact Nat.div_mul_le_self n (2 ^ (32 - wd))
    calc 2 ^ (31 - p) = 2 ^ (wd - 1 - p) * 2 ^ (32 - wd) := by
          rw [← pow_add]
          congr 1
          omega
      _ ≤ v * 2 ^ (32 - wd) := Nat.mul_le_mul_right _ h1
      _ ≤ n := hm
  have hhi : n < 2 ^ (32 - p) := by
    have hd : n / 2 ^ (32 - wd) < 2 ^ (wd - p) := by
      rw [← Nat.shiftRight_eq_div_pow, hv]
      exact h2
    have := (Nat.div_lt_iff_lt_mul
      (Nat.pos_pow_of_pos (32 - wd) (by norm_num))).mp hd
    calc n < 2 ^ (wd - p) * 2 ^ (32 - wd) := this
      _ = 2 ^ (32 - p) := by
          rw [← pow_add]
          congr 1
          omega
  have hle : bitLen 32 n ≤ 32 - p := bitLen_le 32 (32 - p) n hhi (by omega)
  have hge : 32 - p ≤ bitLen 32 n := by
    have := bitLen_ge 32 (31 - p) n hlo (by omega)
    omega
  unfold u32_leading_zeros
  omega

/-- When the top `wd` window bits are a small value, at least 12 zeros
lead. -/
theorem u32lz_ge12 {n v wd : Nat} (hwd : 20 ≤ 32 - wd + 12)
    (hv : n >>> (32 - wd) = v) (h2 : v < 2 ^ (wd - 12)) (hwd2 : 12 ≤ wd)
    (hwd3 : wd ≤ 32) : 12 ≤ u32_leading_zeros n := by
  have hn20 : n < 2 ^ 20 := by
    have hd : n / 2 ^ (32 - wd) < 2 ^ (wd - 12) := by
      rw [← Nat.shiftRight_eq_div_pow, hv]
      exact h2
    have := (Nat.div_lt_iff_lt_mul
      (Nat.pos_pow_of_pos (32 - wd) (by norm_num))).mp hd
    calc n < 2 ^ (wd - 12) * 2 ^ (32 - wd) := this
      _ = 2 ^ (wd - 12 + (32 - wd)) := by rw [← pow_add]
      _ ≤ 2 ^ 20 := Nat.pow_le_pow_right (by norm_num) (by omega)
  have := bitLen_le 32 20 n hn20 (by omega)
  unfold u32_leading_zeros
  omega

/-- The count a scan pass extracts equals the length of the leading
current-mode run of the valid output-window bits. -/
theorem scan_count_correct : ∀ od < 256, ∀ ob < 9, ∀ m : Bool,
    (0 < ob → od % 2 ^ (8 - ob) = 0) →
    min (if m then u8_leading_ones od else u8_leading_zeros od) ob =
      countRun m (bitsBE ob (od >>> (8 - ob))) := by decide

/-- The count a scan pass extracts, as a function. -/
def scanCount (m : Bool) (od ob : Nat) : Nat :=
  min (if m then u8_leading_ones od else u8_leading_zeros od) ob

/-- The scan pass drops the extracted run from the output window. -/
theorem scan_resid_correct : ∀ od < 256, ∀ ob < 9, ∀ m : Bool,
    (0 < ob → od % 2 ^ (8 - ob) = 0) →
    bitsBE (ob - scanCount m od ob)
        ((if scanCount m od ob < 8 then (od <<< scanCount m od ob) % 256 else od) >>>
          (8 - (ob - scanCount m od ob))) =
      List.drop (scanCount m od ob) (bitsBE ob (od >>> (8 - ob))) := by decide

/-- The scan pass keeps the output window left-justified. -/
theorem scan_resid_lowzero : ∀ od < 256, ∀ ob < 9, ∀ m : Bool,
    (0 < ob → od % 2 ^ (8 - ob) = 0) →
    (0 < ob - scanCount m od ob →
      (if scanCount m od ob < 8 then (od <<< scanCount m od ob) % 256 else od) %
        2 ^ (8 - (ob - scanCount m od ob)) = 0) := by decide

/-- The emission arms of `Encoder.emitRun` in `queued_mode = true`, as
explicit record equalities (expressions copied from the source arms). -/
theorem Encoder.emitRun_mode1 (s : Encoder) (hm : s.queued_mode = true) :
    (s.queued_bits = 0 →
      Encoder.emitRun s = { s with
        symbol_data := s.symbol_data ||| 0xFFE <<< (8 - s.symbol_bits)
        symbol_bits := s.symbol_bits + 24
        queued_bits := 0
        queued_done := false }) ∧
    (1 ≤ s.queued_bits → s.queued_bits ≤ 2 →
      Encoder.emitRun s = { s with
        symbol_data := s.symbol_data ||| (0b10 ||| (s.queued_bits - 1)) <<< (30 - s.symbol_bits)
        symbol_bits := s.symbol_bits + 2
        queued_bits := 0
        queued_done := false }) ∧
    (3 ≤ s.queued_bits → s.queued_bits ≤ 6 →
      Encoder.emitRun s = { s with
        symbol_data := s.symbol_data ||| (0b0100 ||| (s.queued_bits - 3)) <<< (28 - s.symbol_bits)
        symbol_bits := s.symbol_bits + 4
        queued_bits := 0
        queued_done := false }) ∧
    (7 ≤ s.queued_bits → s.queued_bits ≤ 14 →
      Encoder.emitRun s = { s with
        symbol_data := s.symbol_data ||| (0b001000 ||| (s.queued_bits - 7)) <<< (26 - s.symbol_bits)
        symbol_bits := s.symbol_bits + 6
        queued_bits := 0
        queued_done := false }) ∧
    (15 ≤ s.queued_bits → s.queued_bits ≤ 30 →
      Encoder.emitRun s = { s with
        symbol_data := s.symbol_data ||| (0b00010000 ||| (s.queued_bits - 15)) <<< (24 - s.symbol_bits)
        symbol_bits := s.symbol_bits + 8
        queued_bits := 0
        queued_done := false }) ∧
    (31 ≤ s.queued_bits → s.queued_bits ≤ 62 →
      Encoder.emitRun s = { s with
        symbol_data := s.symbol_data ||| (0b0000100000 ||| (s.queued_bits - 31)) <<< (22 - s.symbol_bits)
        symbol_bits := s.symbol_bits + 10
        queued_bits := 0
        queued_done := false }) ∧
    (63 ≤ s.queued_bits → s.queued_bits ≤ 126 →
      Encoder.emitRun s = { s with
        symbol_data := s.symbol_data ||| (0b000001000000 ||| (s.queued_bits - 63)) <<< (20 - s.symbol_bits)
        symbol_bits := s.symbol_bits + 12
        queued_bits := 0
        queued_done := false }) ∧
    (127 ≤ s.queued_bits → s.queued_bits ≤ 254 →
      Encoder.emitRun s = { s with
        symbol_data := s.symbol_data ||| (0b00000010000000 ||| (s.queued_bits - 127)) <<< (18 - s.symbol_bits)
        symbol_bits := s.symbol_bits + 14
        queued_bits := 0
        queued_done := false }) ∧
    (255 ≤ s.queued_bits → s.queued_bits ≤ 510 →
      Encoder.emitRun s = { s with
        symbol_data := s.symbol_data ||| (0b0000000100000000 ||| (s.queued_bits - 255)) <<< (16 - s.symbol_bits)
        symbol_bits := s.symbol_bits + 16
        queued_bits := 0
        queued_done := false }) ∧
    (511 ≤ s.queued_bits → s.queued_bits ≤ 1022 →
      Encoder.emitRun s = { s with
        symbol_data := s.symbol_data ||| (0b000000001000000000 ||| (s.queued_bits - 511)) <<< (14 - s.symbol_bits)
        symbol_bits := s.symbol_bits + 18
        queued_bits := 0
        queued_done := false }) ∧
    (1023 ≤ s.queued_bits → s.queued_bits ≤ 2046 →
      Encoder.emitRun s = { s with
        symbol_data := s.symbol_data ||| (0b00000000010000000000 ||| (s.queued_bits - 1023)) <<< (12 - s.symbol_bits)
        symbol_bits := s.symbol_bits + 20
        queued_bits := 0
        queued_done := false }) ∧
    (2047 ≤ s.queued_bits → s.queued_bits ≤ 4094 →
      Encoder.emitRun s = { s with
        symbol_data := s.symbol_data ||| (0b0000000000100000000000 ||| (s.queued_bits - 2047)) <<< (10 - s.symbol_bits)
        symbol_bits := s.symbol_bits + 22
        queued_bits := 0
        queued_done := false }) ∧
    (4095 ≤ s.queued_bits → s.queued_bits ≤ 8190 →
      Encoder.emitRun s = { s with
        symbol_data := s.symbol_data ||| (0b000000000001000000000000 ||| (s.queued_bits - 4095)) <<< (8 - s.symbol_bits)
        symbol_bits := s.symbol_bits + 24
        queued_bits := 0
        queued_done := false }) ∧
    (8191 ≤ s.queued_bits → s.queued_bits ≤ 12283 →
      Encoder.emitRun s = { s with
        symbol_data := s.symbol_data ||| (s.queued_bits - 8191) <<< (8 - s.symbol_bits)
        symbol_bits := s.symbol_bits + 24
        queued_bits := 0
        queued_done := false }) ∧
    (12284 ≤ s.queued_bits →
      Encoder.emitRun s = { s with
        symbol_data := s.symbol_data ||| 0xFFD <<< (8 - s.symbol_bits)
        symbol_bits := s.symbol_bits + 24
        queued_bits := s.queued_bits - 12284 }) := by
  obtain ⟨sb, qb, ob, sd, od, qd, qm, st, qt, ot⟩ := s
  simp only [] at hm
  subst hm
  refine ⟨?_, ?_, ?_, ?_, ?_, ?_, ?_, ?_, ?_, ?_, ?_, ?_, ?_, ?_, ?_⟩
  · intro h
    simp only [] at h
    unfold Encoder.emitRun
    dsimp only []
    rw [if_pos rfl, if_pos (by omega)]
  · intro h1 h2
    simp only [] at h1 h2
    unfold Encoder.emitRun
    dsimp only []
    have c0 : ¬ (qb = 0) := by omega
    rw [if_pos rfl, if_neg c0, if_pos (by omega)]
  · intro h1 h2
    simp only [] at h1 h2
    unfold Encoder.emitRun
    dsimp only []
    have c0 : ¬ (qb = 0) := by omega
    have c1 : ¬ (qb ≤ 2) := by omega
    rw [if_pos rfl, if_neg c0, if_neg c1, if_pos (by omega)]
  · intro h1 h2
    simp only [] at h1 h2
    unfold Encoder.emitRun
    dsimp only []
    have c0 : ¬ (qb = 0) := by omega
    have c1 : ¬ (qb ≤ 2) := by omega
    have c2 : ¬ (qb ≤ 6) := by omega
    rw [if_pos rfl, if_neg c0, if_neg c1, if_neg c2, if_pos (by omega)]
  · intro h1 h2
    simp only [] at h1 h2
    unfold Encoder.emitRun
    dsimp only []
    have c0 : ¬ (qb = 0) := by omega
    have c1 : ¬ (qb ≤ 2) := by omega
    have c2 : ¬ (qb ≤ 6) := by omega
    have c3 : ¬ (qb ≤ 14) := by omega
    rw [if_pos rfl, if_neg c0, if_neg c1, if_neg c2, if_neg c3, if_pos (by omega)]
  · intro h1 h2
    simp only [] at h1 h2
    unfold Encoder.emitRun
    dsimp only []
    have c0 : ¬ (qb = 0) := by omega
    have c1 : ¬ (qb ≤ 2) := by omega
    have c2 : ¬ (qb ≤ 6) := by omega
    have c3 : ¬ (qb ≤ 14) := by omega
    have c4 : ¬ (qb ≤ 30) := by omega
    rw [if_pos rfl, if_neg c0, if_neg c1, if_neg c2, if_neg c3, if_neg c4, if_pos (by omega)]
  · intro h1 h2
    simp only [] at h1 h2
    unfold Encoder.emitRun
    dsimp only []
    have c0 : ¬ (qb = 0) := by omega
    have c1 : ¬ (qb ≤ 2) := by omega
    have c2 : ¬ (qb ≤ 6) := by omega
    have c3 : ¬ (qb ≤ 14) := by omega
    have c4 : ¬ (qb ≤ 30) := by omega
    have c5 : ¬ (qb ≤ 62) := by omega
    rw [if_pos rfl, if_neg c0, if_neg c1, if_neg c2, if_neg c3, if_neg c4, if_neg c5, if_pos (by omega)]
  · intro h1 h2
    simp only [] at h1 h2
    unfold Encoder.emitRun
    dsimp only []
    have c0 : ¬ (qb = 0) := by omega
    have c1 : ¬ (qb ≤ 2) := by omega
    have c2 : ¬ (qb ≤ 6) := by omega
    have c3 : ¬ (qb ≤ 14) := by omega
    have c4 : ¬ (qb ≤ 30) := by omega
    have c5 : ¬ (qb ≤ 62) := by omega
    have c6 : ¬ (qb ≤ 126) := by omega
    rw [if_pos rfl, if_neg c0, if_neg c1, if_neg c2, if_neg c3, if_neg c4, if_neg c5, if_neg c6, if_pos (by omega)]
  · intro h1 h2
    simp only [] at h1 h2
    unfold Encoder.emitRun
    dsimp only []
    have c0 : ¬ (qb = 0) := by omega
    have c1 : ¬ (qb ≤ 2) := by omega
    have c2 : ¬ (qb ≤ 6) := by omega
    have c3 : ¬ (qb ≤ 14) := by omega
    have c4 : ¬ (qb ≤ 30) := by omega
    have c5 : ¬ (qb ≤ 62) := by omega
    have c6 : ¬ (qb ≤ 126) := by omega
    have c7 : ¬ (qb ≤ 254) := by omega
    rw [if_pos rfl, if_neg c0, if_neg c1, if_neg c2, if_neg c3, if_neg c4, if_neg c5, if_neg c6, if_neg c7, if_pos (by omega)]
  · intro h1 h2
    simp only [] at h1 h2
    unfold Encoder.emitRun
    dsimp only []
    have c0 : ¬ (qb = 0) := by omega
    have c1 : ¬ (qb ≤ 2) := by omega
    have c2 : ¬ (qb ≤ 6) := by omega
    have c3 : ¬ (qb ≤ 14) := by omega
    have c4 : ¬ (qb ≤ 30) := by omega
    have c5 : ¬ (qb ≤ 62) := by omega
    have c6 : ¬ (qb ≤ 126) := by omega
    have c7 : ¬ (qb ≤ 254) := by omega
    have c8 : ¬ (qb ≤ 510) := by omega
    rw [if_pos rfl, if_neg c0, if_neg c1, if_neg c2, if_neg c3, if_neg c4, if_neg c5, if_neg c6, if_neg c7, if_neg c8, if_pos (by omega)]
  · intro h1 h2
    simp only [] at h1 h2
    unfold Encoder.emitRun
    dsimp only []
    have c0 : ¬ (qb = 0) := by omega
    have c1 : ¬ (qb ≤ 2) := by omega
    have c2 : ¬ (qb ≤ 6) := by omega
    have c3 : ¬ (qb ≤ 14) := by omega
    have c4 : ¬ (qb ≤ 30) := by omega
    have c5 : ¬ (qb ≤ 62) := by omega
    have c6 : ¬ (qb ≤ 126) := by omega
    have c7 : ¬ (qb ≤ 254) := by omega
    have c8 : ¬ (qb ≤ 510) := by omega
    have c9 : ¬ (qb ≤ 1022) := by omega
    rw [if_pos rfl, if_neg c0, if_neg c1, if_neg c2, if_neg c3, if_neg c4, if_neg c5, if_neg c6, if_neg c7, if_neg c8, if_neg c9, if_pos (by omega)]
  · intro h1 h2
    simp only [] at h1 h2
    unfold Encoder.emitRun
    dsimp only []
    have c0 : ¬ (qb = 0) := by omega
    have c1 : ¬ (qb ≤ 2) := by omega
    have c2 : ¬ (qb ≤ 6) := by omega
    have c3 : ¬ (qb ≤ 14) := by omega
    have c4 : ¬ (qb ≤ 30) := by omega
    have c5 : ¬ (qb ≤ 62) := by omega
    have c6 : ¬ (qb ≤ 126) := by omega
    have c7 : ¬ (qb ≤ 254) := by omega
    have c8 : ¬ (qb ≤ 510) := by omega
    have c9 : ¬ (qb ≤ 1022) := by omega
    have c10 : ¬ (qb ≤ 2046) := by omega
    rw [if_pos rfl, if_neg c0, if_neg c1, if_neg c2, if_neg c3, if_neg c4, if_neg c5, if_neg c6, if_neg c7, if_neg c8, if_neg c9, if_neg c10, if_pos (by omega)]
  · intro h1 h2
    simp only [] at h1 h2
    unfold Encoder.emitRun
    dsimp only []
    have c0 : ¬ (qb = 0) := by omega
    have c1 : ¬ (qb ≤ 2) := by omega
    have c2 : ¬ (qb ≤ 6) := by omega
    have c3 : ¬ (qb ≤ 14) := by omega
    have c4 : ¬ (qb ≤ 30) := by omega
    have c5 : ¬ (qb ≤ 62) := by omega
    have c6 : ¬ (qb ≤ 126) := by omega
    have c7 : ¬ (qb ≤ 254) := by omega
    have c8 : ¬ (qb ≤ 510) := by omega
    have c9 : ¬ (qb ≤ 1022) := by omega
    have c10 : ¬ (qb ≤ 2046) := by omega
    have c11 : ¬ (qb ≤ 4094) := by omega
    rw [if_pos rfl, if_neg c0, if_neg c1, if_neg c2, if_neg c3, if_neg c4, if_neg c5, if_neg c6, if_neg c7, if_neg c8, if_neg c9, if_neg c10, if_neg c11, if_pos (by omega)]
  · intro h1 h2
    simp only [] at h1 h2
    unfold Encoder.emitRun
    dsimp only []
    have c0 : ¬ (qb = 0) := by omega
    have c1 : ¬ (qb ≤ 2) := by omega
    have c2 : ¬ (qb ≤ 6) := by omega
    have c3 : ¬ (qb ≤ 14) := by omega
    have c4 : ¬ (qb ≤ 30) := by omega
    have c5 : ¬ (qb ≤ 62) := by omega
    have c6 : ¬ (qb ≤ 126) := by omega
    have c7 : ¬ (qb ≤ 254) := by omega
    have c8 : ¬ (qb ≤ 510) := by omega
    have c9 : ¬ (qb ≤ 1022) := by omega
    have c10 : ¬ (qb ≤ 2046) := by omega
    have c11 : ¬ (qb ≤ 4094) := by omega
    have c12 : ¬ (qb ≤ 8190) := by omega
    rw [if_pos rfl, if_neg c0, if_neg c1, if_neg c2, if_neg c3, if_neg c4, if_neg c5, if_neg c6, if_neg c7, if_neg c8, if_neg c9, if_neg c10, if_neg c11, if_neg c12, if_pos (by omega)]
  · intro h1
    simp only [] at h1
    unfold Encoder.emitRun
    dsimp only []
    have c0 : ¬ (qb = 0) := by omega
    have c1 : ¬ (qb ≤ 2) := by omega
    have c2 : ¬ (qb ≤ 6) := by omega
    have c3 : ¬ (qb ≤ 14) := by omega
    have c4 : ¬ (qb ≤ 30) := by omega
    have c5 : ¬ (qb ≤ 62) := by omega
    have c6 : ¬ (qb ≤ 126) := by omega
    have c7 : ¬ (qb ≤ 254) := by omega
    have c8 : ¬ (qb ≤ 510) := by omega
    have c9 : ¬ (qb ≤ 1022) := by omega
    have c10 : ¬ (qb ≤ 2046) := by omega
    have c11 : ¬ (qb ≤ 4094) := by omega
    have c12 : ¬ (qb ≤ 8190) := by omega
    have c13 : ¬ (qb ≤ 12283) := by omega
    rw [if_pos rfl, if_neg c0, if_neg c1, if_neg c2, if_neg c3, if_neg c4, if_neg c5, if_neg c6, if_neg c7, if_neg c8, if_neg c9, if_neg c10, if_neg c11, if_neg c12, if_neg c13]

/-- The emission arms of `Encoder.emitRun` in `queued_mode = false`, as
explicit record equalities (expressions copied from the source arms). -/
theorem Encoder.emitRun_mode0 (s : Encoder) (hm : s.queued_mode = false) :
    (s.queued_bits = 0 →
      Encoder.emitRun s = { s with
        symbol_data := s.symbol_data ||| 0xFFE <<< (8 - s.symbol_bits)
        symbol_bits := s.symbol_bits + 24
        queued_bits := 0
        queued_done := false }) ∧
    (s.queued_bits = 1 →
      Encoder.emitRun s = { s with
        symbol_data := s.symbol_data ||| 0b1 <<< (31 - s.symbol_bits)
        symbol_bits := s.symbol_bits + 1
        queued_bits := 0
        queued_done := false }) ∧
    (s.queued_bits = 2 →
      Encoder.emitRun s = { s with
        symbol_data := s.symbol_data ||| 0b01 <<< (30 - s.symbol_bits)
        symbol_bits := s.symbol_bits + 2
        queued_bits := 0
        queued_done := false }) ∧
    (s.queued_bits = 3 →
      Encoder.emitRun s = { s with
        symbol_data := s.symbol_data ||| 0b001 <<< (29 - s.symbol_bits)
        symbol_bits := s.symbol_bits + 3
        queued_bits := 0
        queued_done := false }) ∧
    (s.queued_bits = 4 →
      Encoder.emitRun s = { s with
        symbol_data := s.symbol_data ||| 0b0001 <<< (28 - s.symbol_bits)
        symbol_bits := s.symbol_bits + 4
        queued_bits := 0
        queued_done := false }) ∧
    (s.queued_bits = 5 →
      Encoder.emitRun s = { s with
        symbol_data := s.symbol_data ||| 0b00001 <<< (27 - s.symbol_bits)
        symbol_bits := s.symbol_bits + 5
        queued_bits := 0
        queued_done := false }) ∧
    (s.queued_bits = 6 →
      Encoder.emitRun s = { s with
        symbol_data := s.symbol_data ||| 0b000001 <<< (26 - s.symbol_bits)
        symbol_bits := s.symbol_bits + 6
        queued_bits := 0
        queued_done := false }) ∧
    (s.queued_bits = 7 →
      Encoder.emitRun s = { s with
        symbol_data := s.symbol_data ||| 0b0000001 <<< (25 - s.symbol_bits)
        symbol_bits := s.symbol_bits + 7
        queued_bits := 0
        queued_done := false }) ∧
    (s.queued_bits = 8 →
      Encoder.emitRun s = { s with
        symbol_data := s.symbol_data ||| 0b00000001 <<< (24 - s.symbol_bits)
        symbol_bits := s.symbol_bits + 8
        queued_bits := 0
        queued_done := false }) ∧
    (s.queued_bits = 9 →
      Encoder.emitRun s = { s with
        symbol_data := s.symbol_data ||| 0b000000001 <<< (23 - s.symbol_bits)
        symbol_bits := s.symbol_bits + 9
        queued_bits := 0
        queued_done := false }) ∧
    (s.queued_bits = 10 →
      Encoder.emitRun s = { s with
        symbol_data := s.symbol_data ||| 0b0000000001 <<< (22 - s.symbol_bits)
        symbol_bits := s.symbol_bits + 10
        queued_bits := 0
        queued_done := false }) ∧
    (s.queued_bits = 11 →
      Encoder.emitRun s = { s with
        symbol_data := s.symbol_data ||| 0b00000000001 <<< (21 - s.symbol_bits)
        symbol_bits := s.symbol_bits + 11
        queued_bits := 0
        queued_done := false }) ∧
    (s.queued_bits = 12 →
      Encoder.emitRun s = { s with
        symbol_data := s.symbol_data ||| 0b000000000001 <<< (20 - s.symbol_bits)
        symbol_bits := s.symbol_bits + 12
        queued_bits := 0
        queued_done := false }) ∧
    (13 ≤ s.queued_bits → s.queued_bits ≤ 4105 →
      Encoder.emitRun s = { s with
        symbol_data := s.symbol_data ||| (s.queued_bits - 13) <<< (8 - s.symbol_bits)
        symbol_bits := s.symbol_bits + 24
        queued_bits := 0
        queued_done := false }) ∧
    (4106 ≤ s.queued_bits →
      Encoder.emitRun s = { s with
        symbol_data := s.symbol_data ||| 0xFFD <<< (8 - s.symbol_bits)
        symbol_bits := s.symbol_bits + 24
        queued_bits := s.queued_bits - 4106 }) := by
  obtain ⟨sb, qb, ob, sd, od, qd, qm, st, qt, ot⟩ := s
  simp only [] at hm
  subst hm
  refine ⟨?_, ?_, ?_, ?_, ?_, ?_, ?_, ?_, ?_, ?_, ?_, ?_, ?_, ?_, ?_⟩
  · intro h
    simp only [] at h
    unfold Encoder.emitRun
    dsimp only []
    rw [if_neg (by simp), if_pos (by omega)]
  · intro h
    simp only [] at h
    unfold Encoder.emitRun
    dsimp only []
    have c0 : ¬ (qb = 0) := by omega
    rw [if_neg (by simp), if_neg c0, if_pos (by omega)]
  · intro h
    simp only [] at h
    unfold Encoder.emitRun
    dsimp only []
    have c0 : ¬ (qb = 0) := by omega
    have c1 : ¬ (qb = 1) := by omega
    rw [if_neg (by simp), if_neg c0, if_neg c1, if_pos (by omega)]
  · intro h
    simp only [] at h
    unfold Encoder.emitRun
    dsimp only []
    have c0 : ¬ (qb = 0) := by omega
    have c1 : ¬ (qb = 1) := by omega
    have c2 : ¬ (qb = 2) := by omega
    rw [if_neg (by simp), if_neg c0, if_neg c1, if_neg c2, if_pos (by omega)]
  · intro h
    simp only [] at h
    unfold Encoder.emitRun
    dsimp only []
    have c0 : ¬ (qb = 0) := by omega
    have c1 : ¬ (qb = 1) := by omega
    have c2 : ¬ (qb = 2) := by omega
    have c3 : ¬ (qb = 3) := by omega
    rw [if_neg (by simp), if_neg c0, if_neg c1, if_neg c2, if_neg c3, if_pos (by omega)]
  · intro h
    simp only [] at h
    unfold Encoder.emitRun
    dsimp only []
    have c0 : ¬ (qb = 0) := by omega
    have c1 : ¬ (qb = 1) := by omega
    have c2 : ¬ (qb = 2) := by omega
    have c3 : ¬ (qb = 3) := by omega
    have c4 : ¬ (qb = 4) := by omega
    rw [if_neg (by simp), if_neg c0, if_neg c1, if_neg c2, if_neg c3, if_neg c4, if_pos (by omega)]
  · intro h
    simp only [] at h
    unfold Encoder.emitRun
    dsimp only []
    have c0 : ¬ (qb = 0) := by omega
    have c1 : ¬ (qb = 1) := by omega
    have c2 : ¬ (qb = 2) := by omega
    have c3 : ¬ (qb = 3) := by omega
    have c4 : ¬ (qb = 4) := by omega
    have c5 : ¬ (qb = 5) := by omega
    rw [if_neg (by simp), if_neg c0, if_neg c1, if_neg c2, if_neg c3, if_neg c4, if_neg c5, if_pos (by omega)]
  · intro h
    simp only [] at h
    unfold Encoder.emitRun
    dsimp only []
    have c0 : ¬ (qb = 0) := by omega
    have c1 : ¬ (qb = 1) := by omega
    have c2 : ¬ (qb = 2) := by omega
    have c3 : ¬ (qb = 3) := by omega
    have c4 : ¬ (qb = 4) := by omega
    have c5 : ¬ (qb = 5) := by omega
    have c6 : ¬ (qb = 6) := by omega
    rw [if_neg (by simp), if_neg c0, if_neg c1, if_neg c2, if_neg c3, if_neg c4, if_neg c5, if_neg c6, if_pos (by omega)]
  · intro h
    simp only [] at h
    unfold Encoder.emitRun
    dsimp only []
    have c0 : ¬ (qb = 0) := by omega
    have c1 : ¬ (qb = 1) := by omega
    have c2 : ¬ (qb = 2) := by omega
    have c3 : ¬ (qb = 3) := by omega
    have c4 : ¬ (qb = 4) := by omega
    have c5 : ¬ (qb = 5) := by omega
    have c6 : ¬ (qb = 6) := by omega
    have c7 : ¬ (qb = 7) := by omega
    rw [if_neg (by simp), if_neg c0, if_neg c1, if_neg c2, if_neg c3, if_neg c4, if_neg c5, if_neg c6, if_neg c7, if_pos (by omega)]
  · intro h
    simp only [] at h
    unfold Encoder.emitRun
    dsimp only []
    have c0 : ¬ (qb = 0) := by omega
    have c1 : ¬ (qb = 1) := by omega
    have c2 : ¬ (qb = 2) := by omega
    have c3 : ¬ (qb = 3) := by omega
    have c4 : ¬ (qb = 4) := by omega
    have c5 : ¬ (qb = 5) := by omega
    have c6 : ¬ (qb = 6) := by omega
    have c7 : ¬ (qb = 7) := by omega
    have c8 : ¬ (qb = 8) := by omega
    rw [if_neg (by simp), if_neg c0, if_neg c1, if_neg c2, if_neg c3, if_neg c4, if_neg c5, if_neg c6, if_neg c7, if_neg c8, if_pos (by omega)]
  · intro h
    simp only [] at h
    unfold Encoder.emitRun
    dsimp only []
    have c0 : ¬ (qb = 0) := by omega
    have c1 : ¬ (qb = 1) := by omega
    have c2 : ¬ (qb = 2) := by omega
    have c3 : ¬ (qb = 3) := by omega
    have c4 : ¬ (qb = 4) := by omega
    have c5 : ¬ (qb = 5) := by omega
    have c6 : ¬ (qb = 6) := by omega
    have c7 : ¬ (qb = 7) := by omega
    have c8 : ¬ (qb = 8) := by omega
    have c9 : ¬ (qb = 9) := by omega
    rw [if_neg (by simp), if_neg c0, if_neg c1, if_neg c2, if_neg c3, if_neg c4, if_neg c5, if_neg c6, if_neg c7, if_neg c8, if_neg c9, if_pos (by omega)]
  · intro h
    simp only [] at h
    unfold Encoder.emitRun
    dsimp only []
    have c0 : ¬ (qb = 0) := by omega
    have c1 : ¬ (qb = 1) := by omega
    have c2 : ¬ (qb = 2) := by omega
    have c3 : ¬ (qb = 3) := by omega
    have c4 : ¬ (qb = 4) := by omega
    have c5 : ¬ (qb = 5) := by omega
    have c6 : ¬ (qb = 6) := by omega
    have c7 : ¬ (qb = 7) := by omega
    have c8 : ¬ (qb = 8) := by omega
    have c9 : ¬ (qb = 9) := by omega
    have c10 : ¬ (qb = 10) := by omega
    rw [if_neg (by simp), if_neg c0, if_neg c1, if_neg c2, if_neg c3, if_neg c4, if_neg c5, if_neg c6, if_neg c7, if_neg c8, if_neg c9, if_neg c10, if_pos (by omega)]
  · intro h
    simp only [] at h
    unfold Encoder.emitRun
    dsimp only []
    have c0 : ¬ (qb = 0) := by omega
    have c1 : ¬ (qb = 1) := by omega
    have c2 : ¬ (qb = 2) := by omega
    have c3 : ¬ (qb = 3) := by omega
    have c4 : ¬ (qb = 4) := by omega
    have c5 : ¬ (qb = 5) := by omega
    have c6 : ¬ (qb = 6) := by omega
    have c7 : ¬ (qb = 7) := by omega
    have c8 : ¬ (qb = 8) := by omega
    have c9 : ¬ (qb = 9) := by omega
    have c10 : ¬ (qb = 10) := by omega
    have c11 : ¬ (qb = 11) := by omega
    rw [if_neg (by simp), if_neg c0, if_neg c1, if_neg c2, if_neg c3, if_neg c4, if_neg c5, if_neg c6, if_neg c7, if_neg c8, if_neg c9, if_neg c10, if_neg c11, if_pos (by omega)]
  · intro h1 h2
    simp only [] at h1 h2
    unfold Encoder.emitRun
    dsimp only []
    have c0 : ¬ (qb = 0) := by omega
    have c1 : ¬ (qb = 1) := by omega
    have c2 : ¬ (qb = 2) := by omega
    have c3 : ¬ (qb = 3) := by omega
    have c4 : ¬ (qb = 4) := by omega
    have c5 : ¬ (qb = 5) := by omega
    have c6 : ¬ (qb = 6) := by omega
    have c7 : ¬ (qb = 7) := by omega
    have c8 : ¬ (qb = 8) := by omega
    have c9 : ¬ (qb = 9) := by omega
    have c10 : ¬ (qb = 10) := by omega
    have c11 : ¬ (qb = 11) := by omega
    have c12 : ¬ (qb = 12) := by omega
    rw [if_neg (by simp), if_neg c0, if_neg c1, if_neg c2, if_neg c3, if_neg c4, if_neg c5, if_neg c6, if_neg c7, if_neg c8, if_neg c9, if_neg c10, if_neg c11, if_neg c12, if_pos (by omega)]
  · intro h1
    simp only [] at h1
    unfold Encoder.emitRun
    dsimp only []
    have c0 : ¬ (qb = 0) := by omega
    have c1 : ¬ (qb = 1) := by omega
    have c2 : ¬ (qb = 2) := by omega
    have c3 : ¬ (qb = 3) := by omega
    have c4 : ¬ (qb = 4) := by omega
    have c5 : ¬ (qb = 5) := by omega
    have c6 : ¬ (qb = 6) := by omega
    have c7 : ¬ (qb = 7) := by omega
    have c8 : ¬ (qb = 8) := by omega
    have c9 : ¬ (qb = 9) := by omega
    have c10 : ¬ (qb = 10) := by omega
    have c11 : ¬ (qb = 11) := by omega
    have c12 : ¬ (qb = 12) := by omega
    have c13 : ¬ (qb ≤ 4105) := by omega
    rw [if_neg (by simp), if_neg c0, if_neg c1, if_neg c2, if_neg c3, if_neg c4, if_neg c5, if_neg c6, if_neg c7, if_neg c8, if_neg c9, if_neg c10, if_neg c11, if_neg c12, if_neg c13]

/-- The run code emitted for the run the queue holds, selected by the
emission mode (`queued_mode = true` after a completed zero-run). -/
def emitCode (m : Bool) (L : Nat) : List Bool :=
  if m then zeroRunCode L else oneRunCode L

/-- The run length a continuation symbol accounts for in each mode. -/
def contStride (m : Bool) : Nat := if m then 12284 else 4106

/-- The branch equations of `zeroRunCode`, one conjunct per range. -/
theorem zeroRunCode_eq (L : Nat) :
    (L = 0 → zeroRunCode L = bitsBE 24 0xFFE) ∧
    (1 ≤ L → L ≤ 2 → zeroRunCode L = bitsBE 2 (0b10 ||| (L - 1))) ∧
    (3 ≤ L → L ≤ 6 → zeroRunCode L = bitsBE 4 (0b0100 ||| (L - 3))) ∧
    (7 ≤ L → L ≤ 14 → zeroRunCode L = bitsBE 6 (0b001000 ||| (L - 7))) ∧
    (15 ≤ L → L ≤ 30 → zeroRunCode L = bitsBE 8 (0b00010000 ||| (L - 15))) ∧
    (31 ≤ L → L ≤ 62 → zeroRunCode L = bitsBE 10 (0b0000100000 ||| (L - 31))) ∧
    (63 ≤ L → L ≤ 126 → zeroRunCode L = bitsBE 12 (0b000001000000 ||| (L - 63))) ∧
    (127 ≤ L → L ≤ 254 → zeroRunCode L = bitsBE 14 (0b00000010000000 ||| (L - 127))) ∧
    (255 ≤ L → L ≤ 510 → zeroRunCode L = bitsBE 16 (0b0000000100000000 ||| (L - 255))) ∧
    (511 ≤ L → L ≤ 1022 → zeroRunCode L = bitsBE 18 (0b000000001000000000 ||| (L - 511))) ∧
    (1023 ≤ L → L ≤ 2046 → zeroRunCode L = bitsBE 20 (0b00000000010000000000 ||| (L - 1023))) ∧
    (2047 ≤ L → L ≤ 4094 → zeroRunCode L = bitsBE 22 (0b0000000000100000000000 ||| (L - 2047))) ∧
    (4095 ≤ L → L ≤ 8190 → zeroRunCode L = bitsBE 24 (0b000000000001000000000000 ||| (L - 4095))) ∧
    (8191 ≤ L → L ≤ 12283 → zeroRunCode L = bitsBE 24 (L - 8191)) ∧
    (12284 ≤ L → zeroRunCode L = bitsBE 24 0xFFD ++ zeroRunCode (L - 12284)) := by
  refine ⟨?_, ?_, ?_, ?_, ?_, ?_, ?_, ?_, ?_, ?_, ?_, ?_, ?_, ?_, ?_⟩
  · intro h
    unfold zeroRunCode
    rw [if_pos (by omega : L = 0)]
  · intro h1 h2
    unfold zeroRunCode
    rw [if_neg (by omega : ¬ (L = 0)), if_pos (by omega : L ≤ 2)]
  · intro h1 h2
    unfold zeroRunCode
    rw [if_neg (by omega : ¬ (L = 0)), if_neg (by omega : ¬ (L ≤ 2)), if_pos (by omega : L ≤ 6)]
  · intro h1 h2
    unfold zeroRunCode
    rw [if_neg (by omega : ¬ (L = 0)), if_neg (by omega : ¬ (L ≤ 2)), if_neg (by omega : ¬ (L ≤ 6)), if_pos (by omega : L ≤ 14)]
  · intro h1 h2
    unfold zeroRunCode
    rw [if_neg (by omega : ¬ (L = 0)), if_neg (by omega : ¬ (L ≤ 2)), if_neg (by omega : ¬ (L ≤ 6)), if_neg (by omega : ¬ (L ≤ 14)), if_pos (by omega : L ≤ 30)]
  · intro h1 h2
    unfold zeroRunCode
    rw [if_neg (by omega : ¬ (L = 0)), if_neg (by omega : ¬ (L ≤ 2)), if_neg (by omega : ¬ (L ≤ 6)), if_neg (by omega : ¬ (L ≤ 14)), if_neg (by omega : ¬ (L ≤ 30)), if_pos (by omega : L ≤ 62)]
  · intro h1 h2
    unfold zeroRunCode
    rw [if_neg (by omega : ¬ (L = 0)), if_neg (by omega : ¬ (L ≤ 2)), if_neg (by omega : ¬ (L ≤ 6)), if_neg (by omega : ¬ (L ≤ 14)), if_neg (by omega : ¬ (L ≤ 30)), if_neg (by omega : ¬ (L ≤ 62)), if_pos (by omega : L ≤ 126)]
  · intro h1 h2
    unfold zeroRunCode
    rw [if_neg (by omega : ¬ (L = 0)), if_neg (by omega : ¬ (L ≤ 2)), if_neg (by omega : ¬ (L ≤ 6)), if_neg (by omega : ¬ (L ≤ 14)), if_neg (by omega : ¬ (L ≤ 30)), if_neg (by omega : ¬ (L ≤ 62)), if_neg (by omega : ¬ (L ≤ 126)), if_pos (by omega : L ≤ 254)]
  · intro h1 h2
    unfold zeroRunCode
    rw [if_neg (by omega : ¬ (L = 0)), if_neg (by omega : ¬ (L ≤ 2)), if_neg (by omega : ¬ (L ≤ 6)), if_neg (by omega : ¬ (L ≤ 14)), if_neg (by omega : ¬ (L ≤ 30)), if_neg (by omega : ¬ (L ≤ 62)), if_neg (by omega : ¬ (L ≤ 126)), if_neg (by omega : ¬ (L ≤ 254)), if_pos (by omega : L ≤ 510)]
  · intro h1 h2
    unfold zeroRunCode
    rw [if_neg (by omega : ¬ (L = 0)), if_neg (by omega : ¬ (L ≤ 2)), if_neg (by omega : ¬ (L ≤ 6)), if_neg (by omega : ¬ (L ≤ 14)), if_neg (by omega : ¬ (L ≤ 30)), if_neg (by omega : ¬ (L ≤ 62)), if_neg (by omega : ¬ (L ≤ 126)), if_neg (by omega : ¬ (L ≤ 254)), if_neg (by omega : ¬ (L ≤ 510)), if_pos (by omega : L ≤ 1022)]
  · intro h1 h2
    unfold zeroRunCode
    rw [if_neg (by omega : ¬ (L = 0)), if_neg (by omega : ¬ (L ≤ 2)), if_neg (by omega : ¬ (L ≤ 6)), if_neg (by omega : ¬ (L ≤ 14)), if_neg (by omega : ¬ (L ≤ 30)), if_neg (by omega : ¬ (L ≤ 62)), if_neg (by omega : ¬ (L ≤ 126)), if_neg (by omega : ¬ (L ≤ 254)), if_neg (by omega : ¬ (L ≤ 510)), if_neg (by omega : ¬ (L ≤ 1022)), if_pos (by omega : L ≤ 2046)]
  · intro h1 h2
    unfold zeroRunCode
    rw [if_neg (by omega : ¬ (L = 0)), if_neg (by omega : ¬ (L ≤ 2)), if_neg (by omega : ¬ (L ≤ 6)), if_neg (by omega : ¬ (L ≤ 14)), if_neg (by omega : ¬ (L ≤ 30)), if_neg (by omega : ¬ (L ≤ 62)), if_neg (by omega : ¬ (L ≤ 126)), if_neg (by omega : ¬ (L ≤ 254)), if_neg (by omega : ¬ (L ≤ 510)), if_neg (by omega : ¬ (L ≤ 1022)), if_neg (by omega : ¬ (L ≤ 2046)), if_pos (by omega : L ≤ 4094)]
  · intro h1 h2
    unfold zeroRunCode
    rw [if_neg (by omega : ¬ (L = 0)), if_neg (by omega : ¬ (L ≤ 2)), if_neg (by omega : ¬ (L ≤ 6)), if_neg (by omega : ¬ (L ≤ 14)), if_neg (by omega : ¬ (L ≤ 30)), if_neg (by omega : ¬ (L ≤ 62)), if_neg (by omega : ¬ (L ≤ 126)), if_neg (by omega : ¬ (L ≤ 254)), if_neg (by omega : ¬ (L ≤ 510)), if_neg (by omega : ¬ (L ≤ 1022)), if_neg (by omega : ¬ (L ≤ 2046)), if_neg (by omega : ¬ (L ≤ 4094)), if_pos (by omega : L ≤ 8190)]
  · intro h1 h2
    unfold zeroRunCode
    rw [if_neg (by omega : ¬ (L = 0)), if_neg (by omega : ¬ (L ≤ 2)), if_neg (by omega : ¬ (L ≤ 6)), if_neg (by omega : ¬ (L ≤ 14)), if_neg (by omega : ¬ (L ≤ 30)), if_neg (by omega : ¬ (L ≤ 62)), if_neg (by omega : ¬ (L ≤ 126)), if_neg (by omega : ¬ (L ≤ 254)), if_neg (by omega : ¬ (L ≤ 510)), if_neg (by omega : ¬ (L ≤ 1022)), if_neg (by omega : ¬ (L ≤ 2046)), if_neg (by omega : ¬ (L ≤ 4094)), if_neg (by omega : ¬ (L ≤ 8190)), if_pos (by omega : L ≤ 12283)]
  · intro h1
    conv_lhs => rw [zeroRunCode]
    rw [if_neg (by omega : ¬ (L = 0)), if_neg (by omega : ¬ (L ≤ 2)), if_neg (by omega : ¬ (L ≤ 6)), if_neg (by omega : ¬ (L ≤ 14)), if_neg (by omega : ¬ (L ≤ 30)), if_neg (by omega : ¬ (L ≤ 62)), if_neg (by omega : ¬ (L ≤ 126)), if_neg (by omega : ¬ (L ≤ 254)), if_neg (by omega : ¬ (L ≤ 510)), if_neg (by omega : ¬ (L ≤ 1022)), if_neg (by omega : ¬ (L ≤ 2046)), if_neg (by omega : ¬ (L ≤ 4094)), if_neg (by omega : ¬ (L ≤ 8190)), if_neg (by omega : ¬ (L ≤ 12283))]

/-- The branch equations of `oneRunCode`, one conjunct per range. -/
theorem oneRunCode_eq (L : Nat) :
    (L = 0 → oneRunCode L = bitsBE 24 0xFFE) ∧
    (1 ≤ L → L ≤ 12 → oneRunCode L = bitsBE L 1) ∧
    (13 ≤ L → L ≤ 4105 → oneRunCode L = bitsBE 24 (L - 13)) ∧
    (4106 ≤ L → oneRunCode L = bitsBE 24 0xFFD ++ oneRunCode (L - 4106)) := by
  refine ⟨?_, ?_, ?_, ?_⟩
  · intro h
    unfold oneRunCode
    rw [if_pos (by omega : L = 0)]
  · intro h1 h2
    unfold oneRunCode
    rw [if_neg (by omega : ¬ (L = 0)), if_pos (by omega : L ≤ 12)]
  · intro h1 h2
    unfold oneRunCode
    rw [if_neg (by omega : ¬ (L = 0)), if_neg (by omega : ¬ (L ≤ 12)), if_pos (by omega : L ≤ 4105)]
  · intro h1
    conv_lhs => rw [oneRunCode]
    rw [if_neg (by omega : ¬ (L = 0)), if_neg (by omega : ¬ (L ≤ 12)), if_neg (by omega : ¬ (L ≤ 4105))]



/-- What one `Encoder.emitRun` call does to a state with a clean window:
it appends the emitted symbol's bits to the window and settles the queue,
leaving every other field alone. -/
def EmitSpec (s t : Encoder) (wd : Nat) : Prop :=
  t.symbol_bits = s.symbol_bits + wd ∧ wd ≤ 24 ∧
  t.symbol_data < 2 ^ 32 ∧
  t.symbol_data % 2 ^ (32 - t.symbol_bits) = 0 ∧
  t.output_bits = s.output_bits ∧ t.output_data = s.output_data ∧
  t.queued_mode = s.queued_mode ∧ t.symbol_term = s.symbol_term ∧
  t.queued_term = s.queued_term ∧ t.output_term = s.output_term ∧
  ((s.queued_bits < contStride s.queued_mode ∧
      winBits 32 t.symbol_bits t.symbol_data =
        winBits 32 s.symbol_bits s.symbol_data ++
          emitCode s.queued_mode s.queued_bits ∧
      wd = (emitCode s.queued_mode s.queued_bits).length ∧
      t.queued_bits = 0 ∧ t.queued_done = false ∧
      (1 ≤ s.queued_bits → wd ≤ 2 * s.queued_bits)) ∨
    (contStride s.queued_mode ≤ s.queued_bits ∧
      winBits 32 t.symbol_bits t.symbol_data =
        winBits 32 s.symbol_bits s.symbol_data ++ bitsBE 24 0xFFD ∧
      wd = 24 ∧ t.queued_bits = s.queued_bits - contStride s.queued_mode ∧
      t.queued_done = s.queued_done))

theorem Encoder.emitRun_spec (s : Encoder) (hsb : s.symbol_bits ≤ 8)
    (hsd : s.symbol_data < 2 ^ 32)
    (hlow : s.symbol_data % 2 ^ (32 - s.symbol_bits) = 0) :
    ∃ wd, EmitSpec s (Encoder.emitRun s) wd := by
  by_cases hm : s.queued_mode = true
  · by_cases hg0 : s.queued_bits = 0
    · have harm := (Encoder.emitRun_mode1 s hm).1 (by omega)
      refine ⟨24, ?_⟩
      unfold EmitSpec
      rw [harm]
      dsimp only []
      have hsh : 8 - s.symbol_bits = 32 - s.symbol_bits - 24 := by omega
      rw [hsh]
      have hpat : (0xFFE : Nat) < 2 ^ 24 := by norm_num
      have hcode : emitCode s.queued_mode s.queued_bits = bitsBE 24 0xFFE := by
        unfold emitCode
        rw [hm, if_pos rfl, (zeroRunCode_eq s.queued_bits).1 (by omega)]
      refine ⟨rfl, by omega,
        winBits_or_lt 32 s.symbol_bits 24 0xFFE s.symbol_data (by omega) hsd hpat,
        winBits_or_low 32 s.symbol_bits 24 0xFFE s.symbol_data (by omega) hlow,
        rfl, rfl, rfl, rfl, rfl, rfl, Or.inl ⟨?_, ?_, ?_, rfl, rfl, fun hq2 => by omega⟩⟩
      · simp [contStride, hm]
        omega
      · rw [hcode, winBits_or_append 32 s.symbol_bits 24 0xFFE s.symbol_data (by omega) hlow hpat]
      · rw [hcode, bitsBE_length]
    · by_cases hg1 : s.queued_bits ≤ 2
      · have harm := (Encoder.emitRun_mode1 s hm).2.1 (by omega) (by omega)
        refine ⟨2, ?_⟩
        unfold EmitSpec
        rw [harm]
        dsimp only []
        have hsh : 30 - s.symbol_bits = 32 - s.symbol_bits - 2 := by omega
        rw [hsh]
        have hpat : (0b10 ||| (s.queued_bits - 1)) < 2 ^ 2 := by
          apply nat_lor_lt_two_pow (by norm_num)
          omega
        have hcode : emitCode s.queued_mode s.queued_bits = bitsBE 2 (0b10 ||| (s.queued_bits - 1)) := by
          unfold emitCode
          rw [hm, if_pos rfl, (zeroRunCode_eq s.queued_bits).2.1 (by omega) (by omega)]
        refine ⟨rfl, by omega,
          winBits_or_lt 32 s.symbol_bits 2 (0b10 ||| (s.queued_bits - 1)) s.symbol_data (by omega) hsd hpat,
          winBits_or_low 32 s.symbol_bits 2 (0b10 ||| (s.queued_bits - 1)) s.symbol_data (by omega) hlow,
          rfl, rfl, rfl, rfl, rfl, rfl, Or.inl ⟨?_, ?_, ?_, rfl, rfl, fun hq2 => by omega⟩⟩
        · simp [contStride, hm]
          omega
        · rw [hcode, winBits_or_append 32 s.symbol_bits 2 (0b10 ||| (s.queued_bits - 1)) s.symbol_data (by omega) hlow hpat]
        · rw [hcode, bitsBE_length]
      · by_cases hg2 : s.queued_bits ≤ 6
        · have harm := (Encoder.emitRun_mode1 s hm).2.2.1 (by omega) (by omega)
          refine ⟨4, ?_⟩
          unfold EmitSpec
          rw [harm]
          dsimp only []
          have hsh : 28 - s.symbol_bits = 32 - s.symbol_bits - 4 := by omega
          rw [hsh]
          have hpat : (0b0100 ||| (s.queued_bits - 3)) < 2 ^ 4 := by
            apply nat_lor_lt_two_pow (by norm_num)
            omega
          have hcode : emitCode s.queued_mode s.queued_bits = bitsBE 4 (0b0100 ||| (s.queued_bits - 3)) := by
            unfold emitCode
            rw [hm, if_pos rfl, (zeroRunCode_eq s.queued_bits).2.2.1 (by omega) (by omega)]
          refine ⟨rfl, by omega,
            winBits_or_lt 32 s.symbol_bits 4 (0b0100 ||| (s.queued_bits - 3)) s.symbol_data (by omega) hsd hpat,
            winBits_or_low 32 s.symbol_bits 4 (0b0100 ||| (s.queued_bits - 3)) s.symbol_data (by omega) hlow,
            rfl, rfl, rfl, rfl, rfl, rfl, Or.inl ⟨?_, ?_, ?_, rfl, rfl, fun hq2 => by omega⟩⟩
          · simp [contStride, hm]
            omega
          · rw [hcode, winBits_or_append 32 s.symbol_bits 4 (0b0100 ||| (s.queued_bits - 3)) s.symbol_data (by omega) hlow hpat]
          · rw [hcode, bitsBE_length]
        · by_cases hg3 : s.queued_bits ≤ 14
          · have harm := (Encoder.emitRun_mode1 s hm).2.2.2.1 (by omega) (by omega)
            refine ⟨6, ?_⟩
            unfold EmitSpec
            rw [harm]
            dsimp only []
            have hsh : 26 - s.symbol_bits = 32 - s.symbol_bits - 6 := by omega
            rw [hsh]
            have hpat : (0b001000 ||| (s.queued_bits - 7)) < 2 ^ 6 := by
              apply nat_lor_lt_two_pow (by norm_num)
              omega
            have hcode : emitCode s.queued_mode s.queued_bits = bitsBE 6 (0b001000 ||| (s.queued_bits - 7)) := by
              unfold emitCode
              rw [hm, if_pos rfl, (zeroRunCode_eq s.queued_bits).2.2.2.1 (by omega) (by omega)]
            refine ⟨rfl, by omega,
              winBits_or_lt 32 s.symbol_bits 6 (0b001000 ||| (s.queued_bits - 7)) s.symbol_data (by omega) hsd hpat,
              winBits_or_low 32 s.symbol_bits 6 (0b001000 ||| (s.queued_bits - 7)) s.symbol_data (by omega) hlow,
              rfl, rfl, rfl, rfl, rfl, rfl, Or.inl ⟨?_, ?_, ?_, rfl, rfl, fun hq2 => by omega⟩⟩
            · simp [contStride, hm]
              omega
            · rw [hcode, winBits_or_append 32 s.symbol_bits 6 (0b001000 ||| (s.queued_bits - 7)) s.symbol_data (by omega) hlow hpat]
            · rw [hcode, bitsBE_length]
          · by_cases hg4 : s.queued_bits ≤ 30
            · have harm := (Encoder.emitRun_mode1 s hm).2.2.2.2.1 (by omega) (by omega)
              refine ⟨8, ?_⟩
              unfold EmitSpec
              rw [harm]
              dsimp only []
              have hsh : 24 - s.symbol_bits = 32 - s.symbol_bits - 8 := by omega
              rw [hsh]
              have hpat : (0b00010000 ||| (s.queued_bits - 15)) < 2 ^ 8 := by
                apply nat_lor_lt_two_pow (by norm_num)
                omega
              have hcode : emitCode s.queued_mode s.queued_bits = bitsBE 8 (0b00010000 ||| (s.queued_bits - 15)) := by
                unfold emitCode
                rw [hm, if_pos rfl, (zeroRunCode_eq s.queued_bits).2.2.2.2.1 (by omega) (by omega)]
              refine ⟨rfl, by omega,
                winBits_or_lt 32 s.symbol_bits 8 (0b00010000 ||| (s.queued_bits - 15)) s.symbol_data (by omega) hsd hpat,
                winBits_or_low 32 s.symbol_bits 8 (0b00010000 ||| (s.queued_bits - 15)) s.symbol_data (by omega) hlow,
                rfl, rfl, rfl, rfl, rfl, rfl, Or.inl ⟨?_, ?_, ?_, rfl, rfl, fun hq2 => by omega⟩⟩
              · simp [contStride, hm]
                omega
              · rw [hcode, winBits_or_append 32 s.symbol_bits 8 (0b00010000 ||| (s.queued_bits - 15)) s.symbol_data (by omega) hlow hpat]
              · rw [hcode, bitsBE_length]
            · by_cases hg5 : s.queued_bits ≤ 62
              · have harm := (Encoder.emitRun_mode1 s hm).2.2.2.2.2.1 (by omega) (by omega)
                refine ⟨10, ?_⟩
                unfold EmitSpec
                rw [harm]
                dsimp only []
                have hsh : 22 - s.symbol_bits = 32 - s.symbol_bits - 10 := by omega
                rw [hsh]
                have hpat : (0b0000100000 ||| (s.queued_bits - 31)) < 2 ^ 10 := by
                  apply nat_lor_lt_two_pow (by norm_num)
                  omega
                have hcode : emitCode s.queued_mode s.queued_bits = bitsBE 10 (0b0000100000 ||| (s.queued_bits - 31)) := by
                  unfold emitCode
                  rw [hm, if_pos rfl, (zeroRunCode_eq s.queued_bits).2.2.2.2.2.1 (by omega) (by omega)]
                refine ⟨rfl, by omega,
                  winBits_or_lt 32 s.symbol_bits 10 (0b0000100000 ||| (s.queued_bits - 31)) s.symbol_data (by omega) hsd hpat,
                  winBits_or_low 32 s.symbol_bits 10 (0b0000100000 ||| (s.queued_bits - 31)) s.symbol_data (by omega) hlow,
                  rfl, rfl, rfl, rfl, rfl, rfl, Or.inl ⟨?_, ?_, ?_, rfl, rfl, fun hq2 => by omega⟩⟩
                · simp [contStride, hm]
                  omega
                · rw [hcode, winBits_or_append 32 s.symbol_bits 10 (0b0000100000 ||| (s.queued_bits - 31)) s.symbol_data (by omega) hlow hpat]
                · rw [hcode, bitsBE_length]
              · by_cases hg6 : s.queued_bits ≤ 126
                · have harm := (Encoder.emitRun_mode1 s hm).2.2.2.2.2.2.1 (by omega) (by omega)
                  refine ⟨12, ?_⟩
                  unfold EmitSpec
                  rw [harm]
                  dsimp only []
                  have hsh : 20 - s.symbol_bits = 32 - s.symbol_bits - 12 := by omega
                  rw [hsh]
                  have hpat : (0b000001000000 ||| (s.queued_bits - 63)) < 2 ^ 12 := by
                    apply nat_lor_lt_two_pow (by norm_num)
                    omega
                  have hcode : emitCode s.queued_mode s.queued_bits = bitsBE 12 (0b000001000000 ||| (s.queued_bits - 63)) := by
                    unfold emitCode
                    rw [hm, if_pos rfl, (zeroRunCode_eq s.queued_bits).2.2.2.2.2.2.1 (by omega) (by omega)]
                  refine ⟨rfl, by omega,
                    winBits_or_lt 32 s.symbol_bits 12 (0b000001000000 ||| (s.queued_bits - 63)) s.symbol_data (by omega) hsd hpat,
                    winBits_or_low 32 s.symbol_bits 12 (0b000001000000 ||| (s.queued_bits - 63)) s.symbol_data (by omega) hlow,
                    rfl, rfl, rfl, rfl, rfl, rfl, Or.inl ⟨?_, ?_, ?_, rfl, rfl, fun hq2 => by omega⟩⟩
                  · simp [contStride, hm]
                    omega
                  · rw [hcode, winBits_or_append 32 s.symbol_bits 12 (0b000001000000 ||| (s.queued_bits - 63)) s.symbol_data (by omega) hlow hpat]
                  · rw [hcode, bitsBE_length]
                · by_cases hg7 : s.queued_bits ≤ 254
                  · have harm := (Encoder.emitRun_mode1 s hm).2.2.2.2.2.2.2.1 (by omega) (by omega)
                    refine ⟨14, ?_⟩
                    unfold EmitSpec
                    rw [harm]
                    dsimp only []
                    have hsh : 18 - s.symbol_bits = 32 - s.symbol_bits - 14 := by omega
                    rw [hsh]
                    have hpat : (0b00000010000000 ||| (s.queued_bits - 127)) < 2 ^ 14 := by
                      apply nat_lor_lt_two_pow (by norm_num)
                      omega
                    have hcode : emitCode s.queued_mode s.queued_bits = bitsBE 14 (0b00000010000000 ||| (s.queued_bits - 127)) := by
                      unfold emitCode
                      rw [hm, if_pos rfl, (zeroRunCode_eq s.queued_bits).2.2.2.2.2.2.2.1 (by omega) (by omega)]
                    refine ⟨rfl, by omega,
                      winBits_or_lt 32 s.symbol_bits 14 (0b00000010000000 ||| (s.queued_bits - 127)) s.symbol_data (by omega) hsd hpat,
                      winBits_or_low 32 s.symbol_bits 14 (0b00000010000000 ||| (s.queued_bits - 127)) s.symbol_data (by omega) hlow,
                      rfl, rfl, rfl, rfl, rfl, rfl, Or.inl ⟨?_, ?_, ?_, rfl, rfl, fun hq2 => by omega⟩⟩
                    · simp [contStride, hm]
                      omega
                    · rw [hcode, winBits_or_append 32 s.symbol_bits 14 (0b00000010000000 ||| (s.queued_bits - 127)) s.symbol_data (by omega) hlow hpat]
                    · rw [hcode, bitsBE_length]
                  · by_cases hg8 : s.queued_bits ≤ 510
                    · have harm := (Encoder.emitRun_mode1 s hm).2.2.2.2.2.2.2.2.1 (by omega) (by omega)
                      refine ⟨16, ?_⟩
                      unfold EmitSpec
                      rw [harm]
                      dsimp only []
                      have hsh : 16 - s.symbol_bits = 32 - s.symbol_bits - 16 := by omega
                      rw [hsh]
                      have hpat : (0b0000000100000000 ||| (s.queued_bits - 255)) < 2 ^ 16 := by
                        apply nat_lor_lt_two_pow (by norm_num)
                        omega
                      have hcode : emitCode s.queued_mode s.queued_bits = bitsBE 16 (0b0000000100000000 ||| (s.queued_bits - 255)) := by
                        unfold emitCode
                        rw [hm, if_pos rfl, (zeroRunCode_eq s.queued_bits).2.2.2.2.2.2.2.2.1 (by omega) (by omega)]
                      refine ⟨rfl, by omega,
                        winBits_or_lt 32 s.symbol_bits 16 (0b0000000100000000 ||| (s.queued_bits - 255)) s.symbol_data (by omega) hsd hpat,
                        winBits_or_low 32 s.symbol_bits 16 (0b0000000100000000 ||| (s.queued_bits - 255)) s.symbol_data (by omega) hlow,
                        rfl, rfl, rfl, rfl, rfl, rfl, Or.inl ⟨?_, ?_, ?_, rfl, rfl, fun hq2 => by omega⟩⟩
                      · simp [contStride, hm]
                        omega
                      · rw [hcode, winBits_or_append 32 s.symbol_bits 16 (0b0000000100000000 ||| (s.queued_bits - 255)) s.symbol_data (by omega) hlow hpat]
                      · rw [hcode, bitsBE_length]
                    · by_cases hg9 : s.queued_bits ≤ 1022
                      · have harm := (Encoder.emitRun_mode1 s hm).2.2.2.2.2.2.2.2.2.1 (by omega) (by omega)
                        refine ⟨18, ?_⟩
                        unfold EmitSpec
                        rw [harm]
                        dsimp only []
                        have hsh : 14 - s.symbol_bits = 32 - s.symbol_bits - 18 := by omega
                        rw [hsh]
                        have hpat : (0b000000001000000000 ||| (s.queued_bits - 511)) < 2 ^ 18 := by
                          apply nat_lor_lt_two_pow (by norm_num)
                          omega
                        have hcode : emitCode s.queued_mode s.queued_bits = bitsBE 18 (0b000000001000000000 ||| (s.queued_bits - 511)) := by
                          unfold emitCode
                          rw [hm, if_pos rfl, (zeroRunCode_eq s.queued_bits).2.2.2.2.2.2.2.2.2.1 (by omega) (by omega)]
                        refine ⟨rfl, by omega,
                          winBits_or_lt 32 s.symbol_bits 18 (0b000000001000000000 ||| (s.queued_bits - 511)) s.symbol_data (by omega) hsd hpat,
                          winBits_or_low 32 s.symbol_bits 18 (0b000000001000000000 ||| (s.queued_bits - 511)) s.symbol_data (by omega) hlow,
                          rfl, rfl, rfl, rfl, rfl, rfl, Or.inl ⟨?_, ?_, ?_, rfl, rfl, fun hq2 => by omega⟩⟩
                        · simp [contStride, hm]
                          omega
                        · rw [hcode, winBits_or_append 32 s.symbol_bits 18 (0b000000001000000000 ||| (s.queued_bits - 511)) s.symbol_data (by omega) hlow hpat]
                        · rw [hcode, bitsBE_length]
                      · by_cases hg10 : s.queued_bits ≤ 2046
                        · have harm := (Encoder.emitRun_mode1 s hm).2.2.2.2.2.2.2.2.2.2.1 (by omega) (by omega)
                          refine ⟨20, ?_⟩
                          unfold EmitSpec
                          rw [harm]
                          dsimp only []
                          have hsh : 12 - s.symbol_bits = 32 - s.symbol_bits - 20 := by omega
                          rw [hsh]
                          have hpat : (0b00000000010000000000 ||| (s.queued_bits - 1023)) < 2 ^ 20 := by
                            apply nat_lor_lt_two_pow (by norm_num)
                            omega
                          have hcode : emitCode s.queued_mode s.queued_bits = bitsBE 20 (0b00000000010000000000 ||| (s.queued_bits - 1023)) := by
                            unfold emitCode
                            rw [hm, if_pos rfl, (zeroRunCode_eq s.queued_bits).2.2.2.2.2.2.2.2.2.2.1 (by omega) (by omega)]
                          refine ⟨rfl, by omega,
                            winBits_or_lt 32 s.symbol_bits 20 (0b00000000010000000000 ||| (s.queued_bits - 1023)) s.symbol_data (by omega) hsd hpat,
                            winBits_or_low 32 s.symbol_bits 20 (0b00000000010000000000 ||| (s.queued_bits - 1023)) s.symbol_data (by omega) hlow,
                            rfl, rfl, rfl, rfl, rfl, rfl, Or.inl ⟨?_, ?_, ?_, rfl, rfl, fun hq2 => by omega⟩⟩
                          · simp [contStride, hm]
                            omega
                          · rw [hcode, winBits_or_append 32 s.symbol_bits 20 (0b00000000010000000000 ||| (s.queued_bits - 1023)) s.symbol_data (by omega) hlow hpat]
                          · rw [hcode, bitsBE_length]
                        · by_cases hg11 : s.queued_bits ≤ 4094
                          · have harm := (Encoder.emitRun_mode1 s hm).2.2.2.2.2.2.2.2.2.2.2.1 (by omega) (by omega)
                            refine ⟨22, ?_⟩
                            unfold EmitSpec
                            rw [harm]
                            dsimp only []
                            have hsh : 10 - s.symbol_bits = 32 - s.symbol_bits - 22 := by omega
                            rw [hsh]
                            have hpat : (0b0000000000100000000000 ||| (s.queued_bits - 2047)) < 2 ^ 22 := by
                              apply nat_lor_lt_two_pow (by norm_num)
                              omega
                            have hcode : emitCode s.queued_mode s.queued_bits = bitsBE 22 (0b0000000000100000000000 ||| (s.queued_bits - 2047)) := by
                              unfold emitCode
                              rw [hm, if_pos rfl, (zeroRunCode_eq s.queued_bits).2.2.2.2.2.2.2.2.2.2.2.1 (by omega) (by omega)]
                            refine ⟨rfl, by omega,
                              winBits_or_lt 32 s.symbol_bits 22 (0b0000000000100000000000 ||| (s.queued_bits - 2047)) s.symbol_data (by omega) hsd hpat,
                              winBits_or_low 32 s.symbol_bits 22 (0b0000000000100000000000 ||| (s.queued_bits - 2047)) s.symbol_data (by omega) hlow,
                              rfl, rfl, rfl, rfl, rfl, rfl, Or.inl ⟨?_, ?_, ?_, rfl, rfl, fun hq2 => by omega⟩⟩
                            · simp [contStride, hm]
                              omega
                            · rw [hcode, winBits_or_append 32 s.symbol_bits 22 (0b0000000000100000000000 ||| (s.queued_bits - 2047)) s.symbol_data (by omega) hlow hpat]
                            · rw [hcode, bitsBE_length]
                          · by_cases hg12 : s.queued_bits ≤ 8190
                            · have harm := (Encoder.emitRun_mode1 s hm).2.2.2.2.2.2.2.2.2.2.2.2.1 (by omega) (by omega)
                              refine ⟨24, ?_⟩
                              unfold EmitSpec
                              rw [harm]
                              dsimp only []
                              have hsh : 8 - s.symbol_bits = 32 - s.symbol_bits - 24 := by omega
                              rw [hsh]
                              have hpat : (0b000000000001000000000000 ||| (s.queued_bits - 4095)) < 2 ^ 24 := by
                                apply nat_lor_lt_two_pow (by norm_num)
                                omega
                              have hcode : emitCode s.queued_mode s.queued_bits = bitsBE 24 (0b000000000001000000000000 ||| (s.queued_bits - 4095)) := by
                                unfold emitCode
                                rw [hm, if_pos rfl, (zeroRunCode_eq s.queued_bits).2.2.2.2.2.2.2.2.2.2.2.2.1 (by omega) (by omega)]
                              refine ⟨rfl, by omega,
                                winBits_or_lt 32 s.symbol_bits 24 (0b000000000001000000000000 ||| (s.queued_bits - 4095)) s.symbol_data (by omega) hsd hpat,
                                winBits_or_low 32 s.symbol_bits 24 (0b000000000001000000000000 ||| (s.queued_bits - 4095)) s.symbol_data (by omega) hlow,
                                rfl, rfl, rfl, rfl, rfl, rfl, Or.inl ⟨?_, ?_, ?_, rfl, rfl, fun hq2 => by omega⟩⟩
                              · simp [contStride, hm]
                                omega
                              · rw [hcode, winBits_or_append 32 s.symbol_bits 24 (0b000000000001000000000000 ||| (s.queued_bits - 4095)) s.symbol_data (by omega) hlow hpat]
                              · rw [hcode, bitsBE_length]
                            · by_cases hg13 : s.queued_bits ≤ 12283
                              · have harm := (Encoder.emitRun_mode1 s hm).2.2.2.2.2.2.2.2.2.2.2.2.2.1 (by omega) (by omega)
                                refine ⟨24, ?_⟩
                                unfold EmitSpec
                                rw [harm]
                                dsimp only []
                                have hsh : 8 - s.symbol_bits = 32 - s.symbol_bits - 24 := by omega
                                rw [hsh]
                                have hpat : (s.queued_bits - 8191) < 2 ^ 24 := by omega
                                have hcode : emitCode s.queued_mode s.queued_bits = bitsBE 24 (s.queued_bits - 8191) := by
                                  unfold emitCode
                                  rw [hm, if_pos rfl, (zeroRunCode_eq s.queued_bits).2.2.2.2.2.2.2.2.2.2.2.2.2.1 (by omega) (by omega)]
                                refine ⟨rfl, by omega,
                                  winBits_or_lt 32 s.symbol_bits 24 (s.queued_bits - 8191) s.symbol_data (by omega) hsd hpat,
                                  winBits_or_low 32 s.symbol_bits 24 (s.queued_bits - 8191) s.symbol_data (by omega) hlow,
                                  rfl, rfl, rfl, rfl, rfl, rfl, Or.inl ⟨?_, ?_, ?_, rfl, rfl, fun hq2 => by omega⟩⟩
                                · simp [contStride, hm]
                                  omega
                                · rw [hcode, winBits_or_append 32 s.symbol_bits 24 (s.queued_bits - 8191) s.symbol_data (by omega) hlow hpat]
                                · rw [hcode, bitsBE_length]
                              · have harm := (Encoder.emitRun_mode1 s hm).2.2.2.2.2.2.2.2.2.2.2.2.2.2 (by omega)
                                refine ⟨24, ?_⟩
                                unfold EmitSpec
                                rw [harm]
                                dsimp only []
                                have hsh : 8 - s.symbol_bits = 32 - s.symbol_bits - 24 := by omega
                                rw [hsh]
                                have hpat : (0xFFD : Nat) < 2 ^ 24 := by norm_num
                                refine ⟨rfl, by omega,
                                  winBits_or_lt 32 s.symbol_bits 24 0xFFD s.symbol_data (by omega) hsd hpat,
                                  winBits_or_low 32 s.symbol_bits 24 0xFFD s.symbol_data (by omega) hlow,
                                  rfl, rfl, rfl, rfl, rfl, rfl, Or.inr ⟨?_, ?_, rfl, ?_, rfl⟩⟩
                                · simp [contStride, hm]
                                  omega
                                · rw [winBits_or_append 32 s.symbol_bits 24 0xFFD s.symbol_data (by omega) hlow hpat]
                                · simp [contStride, hm]
  · have hmf : s.queued_mode = false := by simpa using hm
    by_cases hg0 : s.queued_bits = 0
    · have harm := (Encoder.emitRun_mode0 s hmf).1 (by omega)
      refine ⟨24, ?_⟩
      unfold EmitSpec
      rw [harm]
      dsimp only []
      have hsh : 8 - s.symbol_bits = 32 - s.symbol_bits - 24 := by omega
      rw [hsh]
      have hpat : (0xFFE : Nat) < 2 ^ 24 := by norm_num
      have hcode : emitCode s.queued_mode s.queued_bits = bitsBE 24 0xFFE := by
        unfold emitCode
        rw [hmf, if_neg (by simp), (oneRunCode_eq s.queued_bits).1 (by omega)]
      refine ⟨rfl, by omega,
        winBits_or_lt 32 s.symbol_bits 24 0xFFE s.symbol_data (by omega) hsd hpat,
        winBits_or_low 32 s.symbol_bits 24 0xFFE s.symbol_data (by omega) hlow,
        rfl, rfl, rfl, rfl, rfl, rfl, Or.inl ⟨?_, ?_, ?_, rfl, rfl, fun hq2 => by omega⟩⟩
      · simp [contStride, hmf]
        omega
      · rw [hcode, winBits_or_append 32 s.symbol_bits 24 0xFFE s.symbol_data (by omega) hlow hpat]
      · rw [hcode, bitsBE_length]
    · by_cases hg1 : s.queued_bits = 1
      · have harm := (Encoder.emitRun_mode0 s hmf).2.1 (by omega)
        refine ⟨1, ?_⟩
        unfold EmitSpec
        rw [harm]
        dsimp only []
        have hsh : 31 - s.symbol_bits = 32 - s.symbol_bits - 1 := by omega
        rw [hsh]
        have hpat : (0b1 : Nat) < 2 ^ 1 := by norm_num
        have hcode : emitCode s.queued_mode s.queued_bits = bitsBE 1 0b1 := by
          unfold emitCode
          rw [hmf, if_neg (by simp), (oneRunCode_eq s.queued_bits).2.1 (by omega) (by omega), hg1]
        refine ⟨rfl, by omega,
          winBits_or_lt 32 s.symbol_bits 1 0b1 s.symbol_data (by omega) hsd hpat,
          winBits_or_low 32 s.symbol_bits 1 0b1 s.symbol_data (by omega) hlow,
          rfl, rfl, rfl, rfl, rfl, rfl, Or.inl ⟨?_, ?_, ?_, rfl, rfl, fun hq2 => by omega⟩⟩
        · simp [contStride, hmf]
          omega
        · rw [hcode, winBits_or_append 32 s.symbol_bits 1 0b1 s.symbol_data (by omega) hlow hpat]
        · rw [hcode, bitsBE_length]
      · by_cases hg2 : s.queued_bits = 2
        · have harm := (Encoder.emitRun_mode0 s hmf).2.2.1 (by omega)
          refine ⟨2, ?_⟩
          unfold EmitSpec
          rw [harm]
          dsimp only []
          have hsh : 30 - s.symbol_bits = 32 - s.symbol_bits - 2 := by omega
          rw [hsh]
          have hpat : (0b01 : Nat) < 2 ^ 2 := by norm_num
          have hcode : emitCode s.queued_mode s.queued_bits = bitsBE 2 0b01 := by
            unfold emitCode
            rw [hmf, if_neg (by simp), (oneRunCode_eq s.queued_bits).2.1 (by omega) (by omega), hg2]
          refine ⟨rfl, by omega,
            winBits_or_lt 32 s.symbol_bits 2 0b01 s.symbol_data (by omega) hsd hpat,
            winBits_or_low 32 s.symbol_bits 2 0b01 s.symbol_data (by omega) hlow,
            rfl, rfl, rfl, rfl, rfl, rfl, Or.inl ⟨?_, ?_, ?_, rfl, rfl, fun hq2 => by omega⟩⟩
          · simp [contStride, hmf]
            omega
          · rw [hcode, winBits_or_append 32 s.symbol_bits 2 0b01 s.symbol_data (by omega) hlow hpat]
          · rw [hcode, bitsBE_length]
        · by_cases hg3 : s.queued_bits = 3
          · have harm := (Encoder.emitRun_mode0 s hmf).2.2.2.1 (by omega)
            refine ⟨3, ?_⟩
            unfold EmitSpec
            rw [harm]
            dsimp only []
            have hsh : 29 - s.symbol_bits = 32 - s.symbol_bits - 3 := by omega
            rw [hsh]
            have hpat : (0b001 : Nat) < 2 ^ 3 := by norm_num
            have hcode : emitCode s.queued_mode s.queued_bits = bitsBE 3 0b001 := by
              unfold emitCode
              rw [hmf, if_neg (by simp), (oneRunCode_eq s.queued_bits).2.1 (by omega) (by omega), hg3]
            refine ⟨rfl, by omega,
              winBits_or_lt 32 s.symbol_bits 3 0b001 s.symbol_data (by omega) hsd hpat,
              winBits_or_low 32 s.symbol_bits 3 0b001 s.symbol_data (by omega) hlow,
              rfl, rfl, rfl, rfl, rfl, rfl, Or.inl ⟨?_, ?_, ?_, rfl, rfl, fun hq2 => by omega⟩⟩
            · simp [contStride, hmf]
              omega
            · rw [hcode, winBits_or_append 32 s.symbol_bits 3 0b001 s.symbol_data (by omega) hlow hpat]
            · rw [hcode, bitsBE_length]
          · by_cases hg4 : s.queued_bits = 4
            · have harm := (Encoder.emitRun_mode0 s hmf).2.2.2.2.1 (by omega)
              refine ⟨4, ?_⟩
              unfold EmitSpec
              rw [harm]
              dsimp only []
              have hsh : 28 - s.symbol_bits = 32 - s.symbol_bits - 4 := by omega
              rw [hsh]
              have hpat : (0b0001 : Nat) < 2 ^ 4 := by norm_num
              have hcode : emitCode s.queued_mode s.queued_bits = bitsBE 4 0b0001 := by
                unfold emitCode
                rw [hmf, if_neg (by simp), (oneRunCode_eq s.queued_bits).2.1 (by omega) (by omega), hg4]
              refine ⟨rfl, by omega,
                winBits_or_lt 32 s.symbol_bits 4 0b0001 s.symbol_data (by omega) hsd hpat,
                winBits_or_low 32 s.symbol_bits 4 0b0001 s.symbol_data (by omega) hlow,
                rfl, rfl, rfl, rfl, rfl, rfl, Or.inl ⟨?_, ?_, ?_, rfl, rfl, fun hq2 => by omega⟩⟩
              · simp [contStride, hmf]
                omega
              · rw [hcode, winBits_or_append 32 s.symbol_bits 4 0b0001 s.symbol_data (by omega) hlow hpat]
              · rw [hcode, bitsBE_length]
            · by_cases hg5 : s.queued_bits = 5
              · have harm := (Encoder.emitRun_mode0 s hmf).2.2.2.2.2.1 (by omega)
                refine ⟨5, ?_⟩
                unfold EmitSpec
                rw [harm]
                dsimp only []
                have hsh : 27 - s.symbol_bits = 32 - s.symbol_bits - 5 := by omega
                rw [hsh]
                have hpat : (0b00001 : Nat) < 2 ^ 5 := by norm_num
                have hcode : emitCode s.queued_mode s.queued_bits = bitsBE 5 0b00001 := by
                  unfold emitCode
                  rw [hmf, if_neg (by simp), (oneRunCode_eq s.queued_bits).2.1 (by omega) (by omega), hg5]
                refine ⟨rfl, by omega,
                  winBits_or_lt 32 s.symbol_bits 5 0b00001 s.symbol_data (by omega) hsd hpat,
                  winBits_or_low 32 s.symbol_bits 5 0b00001 s.symbol_data (by omega) hlow,
                  rfl, rfl, rfl, rfl, rfl, rfl, Or.inl ⟨?_, ?_, ?_, rfl, rfl, fun hq2 => by omega⟩⟩
                · simp [contStride, hmf]
                  omega
                · rw [hcode, winBits_or_append 32 s.symbol_bits 5 0b00001 s.symbol_data (by omega) hlow hpat]
                · rw [hcode, bitsBE_length]
              · by_cases hg6 : s.queued_bits = 6
                · have harm := (Encoder.emitRun_mode0 s hmf).2.2.2.2.2.2.1 (by omega)
                  refine ⟨6, ?_⟩
                  unfold EmitSpec
                  rw [harm]
                  dsimp only []
                  have hsh : 26 - s.symbol_bits = 32 - s.symbol_bits - 6 := by omega
                  rw [hsh]
                  have hpat : (0b000001 : Nat) < 2 ^ 6 := by norm_num
                  have hcode : emitCode s.queued_mode s.queued_bits = bitsBE 6 0b000001 := by
                    unfold emitCode
                    rw [hmf, if_neg (by simp), (oneRunCode_eq s.queued_bits).2.1 (by omega) (by omega), hg6]
                  refine ⟨rfl, by omega,
                    winBits_or_lt 32 s.symbol_bits 6 0b000001 s.symbol_data (by omega) hsd hpat,
                    winBits_or_low 32 s.symbol_bits 6 0b000001 s.symbol_data (by omega) hlow,
                    rfl, rfl, rfl, rfl, rfl, rfl, Or.inl ⟨?_, ?_, ?_, rfl, rfl, fun hq2 => by omega⟩⟩
                  · simp [contStride, hmf]
                    omega
                  · rw [hcode, winBits_or_append 32 s.symbol_bits 6 0b000001 s.symbol_data (by omega) hlow hpat]
                  · rw [hcode, bitsBE_length]
                · by_cases hg7 : s.queued_bits = 7
                  · have harm := (Encoder.emitRun_mode0 s hmf).2.2.2.2.2.2.2.1 (by omega)
                    refine ⟨7, ?_⟩
                    unfold EmitSpec
                    rw [harm]
                    dsimp only []
                    have hsh : 25 - s.symbol_bits = 32 - s.symbol_bits - 7 := by omega
                    rw [hsh]
                    have hpat : (0b0000001 : Nat) < 2 ^ 7 := by norm_num
                    have hcode : emitCode s.queued_mode s.queued_bits = bitsBE 7 0b0000001 := by
                      unfold emitCode
                      rw [hmf, if_neg (by simp), (oneRunCode_eq s.queued_bits).2.1 (by omega) (by omega), hg7]
                    refine ⟨rfl, by omega,
                      winBits_or_lt 32 s.symbol_bits 7 0b0000001 s.symbol_data (by omega) hsd hpat,
                      winBits_or_low 32 s.symbol_bits 7 0b0000001 s.symbol_data (by omega) hlow,
                      rfl, rfl, rfl, rfl, rfl, rfl, Or.inl ⟨?_, ?_, ?_, rfl, rfl, fun hq2 => by omega⟩⟩
                    · simp [contStride, hmf]
                      omega
                    · rw [hcode, winBits_or_append 32 s.symbol_bits 7 0b0000001 s.symbol_data (by omega) hlow hpat]
                    · rw [hcode, bitsBE_length]
                  · by_cases hg8 : s.queued_bits = 8
                    · have harm := (Encoder.emitRun_mode0 s hmf).2.2.2.2.2.2.2.2.1 (by omega)
                      refine ⟨8, ?_⟩
                      unfold EmitSpec
                      rw [harm]
                      dsimp only []
                      have hsh : 24 - s.symbol_bits = 32 - s.symbol_bits - 8 := by omega
                      rw [hsh]
                      have hpat : (0b00000001 : Nat) < 2 ^ 8 := by norm_num
                      have hcode : emitCode s.queued_mode s.queued_bits = bitsBE 8 0b00000001 := by
                        unfold emitCode
                        rw [hmf, if_neg (by simp), (oneRunCode_eq s.queued_bits).2.1 (by omega) (by omega), hg8]
                      refine ⟨rfl, by omega,
                        winBits_or_lt 32 s.symbol_bits 8 0b00000001 s.symbol_data (by omega) hsd hpat,
                        winBits_or_low 32 s.symbol_bits 8 0b00000001 s.symbol_data (by omega) hlow,
                        rfl, rfl, rfl, rfl, rfl, rfl, Or.inl ⟨?_, ?_, ?_, rfl, rfl, fun hq2 => by omega⟩⟩
                      · simp [contStride, hmf]
                        omega
                      · rw [hcode, winBits_or_append 32 s.symbol_bits 8 0b00000001 s.symbol_data (by omega) hlow hpat]
                      · rw [hcode, bitsBE_length]
                    · by_cases hg9 : s.queued_bits = 9
                      · have harm := (Encoder.emitRun_mode0 s hmf).2.2.2.2.2.2.2.2.2.1 (by omega)
                        refine ⟨9, ?_⟩
                        unfold EmitSpec
                        rw [harm]
                        dsimp only []
                        have hsh : 23 - s.symbol_bits = 32 - s.symbol_bits - 9 := by omega
                        rw [hsh]
                        have hpat : (0b000000001 : Nat) < 2 ^ 9 := by norm_num
                        have hcode : emitCode s.queued_mode s.queued_bits = bitsBE 9 0b000000001 := by
                          unfold emitCode
                          rw [hmf, if_neg (by simp), (oneRunCode_eq s.queued_bits).2.1 (by omega) (by omega), hg9]
                        refine ⟨rfl, by omega,
                          winBits_or_lt 32 s.symbol_bits 9 0b000000001 s.symbol_data (by omega) hsd hpat,
                          winBits_or_low 32 s.symbol_bits 9 0b000000001 s.symbol_data (by omega) hlow,
                          rfl, rfl, rfl, rfl, rfl, rfl, Or.inl ⟨?_, ?_, ?_, rfl, rfl, fun hq2 => by omega⟩⟩
                        · simp [contStride, hmf]
                          omega
                        · rw [hcode, winBits_or_append 32 s.symbol_bits 9 0b000000001 s.symbol_data (by omega) hlow hpat]
                        · rw [hcode, bitsBE_length]
                      · by_cases hg10 : s.queued_bits = 10
                        · have harm := (Encoder.emitRun_mode0 s hmf).2.2.2.2.2.2.2.2.2.2.1 (by omega)
                          refine ⟨10, ?_⟩
                          unfold EmitSpec
                          rw [harm]
                          dsimp only []
                          have hsh : 22 - s.symbol_bits = 32 - s.symbol_bits - 10 := by omega
                          rw [hsh]
                          have hpat : (0b0000000001 : Nat) < 2 ^ 10 := by norm_num
                          have hcode : emitCode s.queued_mode s.queued_bits = bitsBE 10 0b0000000001 := by
                            unfold emitCode
                            rw [hmf, if_neg (by simp), (oneRunCode_eq s.queued_bits).2.1 (by omega) (by omega), hg10]
                          refine ⟨rfl, by omega,
                            winBits_or_lt 32 s.symbol_bits 10 0b0000000001 s.symbol_data (by omega) hsd hpat,
                            winBits_or_low 32 s.symbol_bits 10 0b0000000001 s.symbol_data (by omega) hlow,
                            rfl, rfl, rfl, rfl, rfl, rfl, Or.inl ⟨?_, ?_, ?_, rfl, rfl, fun hq2 => by omega⟩⟩
                          · simp [contStride, hmf]
                            omega
                          · rw [hcode, winBits_or_append 32 s.symbol_bits 10 0b0000000001 s.symbol_data (by omega) hlow hpat]
                          · rw [hcode, bitsBE_length]
                        · by_cases hg11 : s.queued_bits = 11
                          · have harm := (Encoder.emitRun_mode0 s hmf).2.2.2.2.2.2.2.2.2.2.2.1 (by omega)
                            refine ⟨11, ?_⟩
                            unfold EmitSpec
                            rw [harm]
                            dsimp only []
                            have hsh : 21 - s.symbol_bits = 32 - s.symbol_bits - 11 := by omega
                            rw [hsh]
                            have hpat : (0b00000000001 : Nat) < 2 ^ 11 := by norm_num
                            have hcode : emitCode s.queued_mode s.queued_bits = bitsBE 11 0b00000000001 := by
                              unfold emitCode
                              rw [hmf, if_neg (by simp), (oneRunCode_eq s.queued_bits).2.1 (by omega) (by omega), hg11]
                            refine ⟨rfl, by omega,
                              winBits_or_lt 32 s.symbol_bits 11 0b00000000001 s.symbol_data (by omega) hsd hpat,
                              winBits_or_low 32 s.symbol_bits 11 0b00000000001 s.symbol_data (by omega) hlow,
                              rfl, rfl, rfl, rfl, rfl, rfl, Or.inl ⟨?_, ?_, ?_, rfl, rfl, fun hq2 => by omega⟩⟩
                            · simp [contStride, hmf]
                              omega
                            · rw [hcode, winBits_or_append 32 s.symbol_bits 11 0b00000000001 s.symbol_data (by omega) hlow hpat]
                            · rw [hcode, bitsBE_length]
                          · by_cases hg12 : s.queued_bits = 12
                            · have harm := (Encoder.emitRun_mode0 s hmf).2.2.2.2.2.2.2.2.2.2.2.2.1 (by omega)
                              refine ⟨12, ?_⟩
                              unfold EmitSpec
                              rw [harm]
                              dsimp only []
                              have hsh : 20 - s.symbol_bits = 32 - s.symbol_bits - 12 := by omega
                              rw [hsh]
                              have hpat : (0b000000000001 : Nat) < 2 ^ 12 := by norm_num
                              have hcode : emitCode s.queued_mode s.queued_bits = bitsBE 12 0b000000000001 := by
                                unfold emitCode
                                rw [hmf, if_neg (by simp), (oneRunCode_eq s.queued_bits).2.1 (by omega) (by omega), hg12]
                              refine ⟨rfl, by omega,
                                winBits_or_lt 32 s.symbol_bits 12 0b000000000001 s.symbol_data (by omega) hsd hpat,
                                winBits_or_low 32 s.symbol_bits 12 0b000000000001 s.symbol_data (by omega) hlow,
                                rfl, rfl, rfl, rfl, rfl, rfl, Or.inl ⟨?_, ?_, ?_, rfl, rfl, fun hq2 => by omega⟩⟩
                              · simp [contStride, hmf]
                                omega
                              · rw [hcode, winBits_or_append 32 s.symbol_bits 12 0b000000000001 s.symbol_data (by omega) hlow hpat]
                              · rw [hcode, bitsBE_length]
                            · by_cases hg13 : s.queued_bits ≤ 4105
                              · have harm := (Encoder.emitRun_mode0 s hmf).2.2.2.2.2.2.2.2.2.2.2.2.2.1 (by omega) (by omega)
                                refine ⟨24, ?_⟩
                                unfold EmitSpec
                                rw [harm]
                                dsimp only []
                                have hsh : 8 - s.symbol_bits = 32 - s.symbol_bits - 24 := by omega
                                rw [hsh]
                                have hpat : (s.queued_bits - 13) < 2 ^ 24 := by omega
                                have hcode : emitCode s.queued_mode s.queued_bits = bitsBE 24 (s.queued_bits - 13) := by
                                  unfold emitCode
                                  rw [hmf, if_neg (by simp), (oneRunCode_eq s.queued_bits).2.2.1 (by omega) (by omega)]
                                refine ⟨rfl, by omega,
                                  winBits_or_lt 32 s.symbol_bits 24 (s.queued_bits - 13) s.symbol_data (by omega) hsd hpat,
                                  winBits_or_low 32 s.symbol_bits 24 (s.queued_bits - 13) s.symbol_data (by omega) hlow,
                                  rfl, rfl, rfl, rfl, rfl, rfl, Or.inl ⟨?_, ?_, ?_, rfl, rfl, fun hq2 => by omega⟩⟩
                                · simp [contStride, hmf]
                                  omega
                                · rw [hcode, winBits_or_append 32 s.symbol_bits 24 (s.queued_bits - 13) s.symbol_data (by omega) hlow hpat]
                                · rw [hcode, bitsBE_length]
                              · have harm := (Encoder.emitRun_mode0 s hmf).2.2.2.2.2.2.2.2.2.2.2.2.2.2 (by omega)
                                refine ⟨24, ?_⟩
                                unfold EmitSpec
                                rw [harm]
                                dsimp only []
                                have hsh : 8 - s.symbol_bits = 32 - s.symbol_bits - 24 := by omega
                                rw [hsh]
                                have hpat : (0xFFD : Nat) < 2 ^ 24 := by norm_num
                                refine ⟨rfl, by omega,
                                  winBits_or_lt 32 s.symbol_bits 24 0xFFD s.symbol_data (by omega) hsd hpat,
                                  winBits_or_low 32 s.symbol_bits 24 0xFFD s.symbol_data (by omega) hlow,
                                  rfl, rfl, rfl, rfl, rfl, rfl, Or.inr ⟨?_, ?_, rfl, ?_, rfl⟩⟩
                                · simp [contStride, hmf]
                                  omega
                                · rw [winBits_or_append 32 s.symbol_bits 24 0xFFD s.symbol_data (by omega) hlow hpat]
                                · simp [contStride, hmf]

/-- A fully provisioned flushing loop drains all whole bytes of the
symbol window into the output, preserving the bit stream. -/
theorem Encoder.flushGo_spec (g : Nat) (s : Encoder) (cap : Nat)
    (out : List Nat) (hg : s.symbol_bits ≤ g)
    (hsd : s.symbol_data < 2 ^ 32)
    (hlow : s.symbol_data % 2 ^ (32 - s.symbol_bits) = 0)
    (hsb : s.symbol_bits ≤ 32)
    (hcap : 8 * out.length + s.symbol_bits ≤ 8 * cap) :
    ∃ t out2,
      Encoder.flushGo g s cap out = (t, out2, false) ∧
      t.symbol_bits = s.symbol_bits % 8 ∧
      t.symbol_data < 2 ^ 32 ∧
      t.symbol_data % 2 ^ (32 - t.symbol_bits) = 0 ∧
      bitsOfBytes out2 ++ winBits 32 t.symbol_bits t.symbol_data =
        bitsOfBytes out ++ winBits 32 s.symbol_bits s.symbol_data ∧
      out2.length = out.length + s.symbol_bits / 8 ∧
      (t.queued_bits, t.output_bits, t.output_data, t.queued_done,
          t.queued_mode, t.symbol_term, t.queued_term, t.output_term) =
        (s.queued_bits, s.output_bits, s.output_data, s.queued_done,
          s.queued_mode, s.symbol_term, s.queued_term, s.output_term) := by
  induction g generalizing s out with
  | zero =>
    refine ⟨s, out, rfl, by omega, hsd, ?_, rfl, by omega, rfl⟩
    have h0 : s.symbol_bits = 0 := by omega
    rw [h0] at hlow ⊢
    exact hlow
  | succ g ih =>
    by_cases h8 : 8 ≤ s.symbol_bits
    · have hroom : out.length < cap := by omega
      set s' : Encoder := { s with
        symbol_data := (s.symbol_data <<< 8) % 2 ^ 32
        symbol_bits := s.symbol_bits - 8 } with hs'
      have hsd' : s'.symbol_data < 2 ^ 32 :=
        Nat.mod_lt _ (Nat.pos_pow_of_pos 32 (by norm_num))
      have hlow' : s'.symbol_data % 2 ^ (32 - s'.symbol_bits) = 0 :=
        winBits_shl_low 32 s.symbol_bits 8 s.symbol_data h8 hsb hlow
      have hout' : (out ++ [(s.symbol_data >>> 24) % 256]).length =
          out.length + 1 := by simp
      obtain ⟨t, out2, heq, hb, hd, hl, hstream, hlen, hfields⟩ :=
        ih s' (out ++ [(s.symbol_data >>> 24) % 256]) (by
          show s.symbol_bits - 8 ≤ g
          omega) hsd' hlow' (by show s.symbol_bits - 8 ≤ 32; omega) (by
          rw [hout']
          show 8 * (out.length + 1) + (s.symbol_bits - 8) ≤ 8 * cap
          omega)
      refine ⟨t, out2, ?_, ?_, hd, hl, ?_, ?_, hfields.trans rfl⟩
      · rw [Encoder.flushGo, if_pos h8, if_pos hroom]
        exact heq
      · rw [hb]
        show (s.symbol_bits - 8) % 8 = s.symbol_bits % 8
        omega
      · rw [hstream, bitsOfBytes_append]
        have hbyte : bitsBE 8 ((s.symbol_data >>> 24) % 256) =
            (winBits 32 s.symbol_bits s.symbol_data).take 8 := by
          have h256 : (256 : Nat) = 2 ^ 8 := by norm_num
          rw [h256, bitsBE_mod]
          have := bitsBE_shiftRight_take 32 s.symbol_bits 8 s.symbol_data h8 hsb
          simpa using this
        have hdrop : winBits 32 s'.symbol_bits s'.symbol_data =
            (winBits 32 s.symbol_bits s.symbol_data).drop 8 :=
          winBits_shl_drop 32 s.symbol_bits 8 s.symbol_data h8 hsb
        rw [hdrop, bitsOfBytes_cons, bitsOfBytes_nil, List.append_nil, hbyte]
        rw [List.append_assoc, List.take_append_drop]
      · rw [hlen, hout']
        show out.length + 1 + (s.symbol_bits - 8) / 8 = _
        omega
    · refine ⟨s, out, ?_, by omega, hsd, ?_, rfl, by omega, rfl⟩
      · rw [Encoder.flushGo, if_neg h8]
      · exact hlow

/-- The flushing loop of `Encoder.produce`, fully provisioned. -/
theorem Encoder.flush_spec (s : Encoder) (cap : Nat) (out : List Nat)
    (hsd : s.symbol_data < 2 ^ 32)
    (hlow : s.symbol_data % 2 ^ (32 - s.symbol_bits) = 0)
    (hsb : s.symbol_bits ≤ 32)
    (hcap : 8 * out.length + s.symbol_bits ≤ 8 * cap) :
    ∃ t out2,
      Encoder.flush s cap out = (t, out2, false) ∧
      t.symbol_bits = s.symbol_bits % 8 ∧
      t.symbol_data < 2 ^ 32 ∧
      t.symbol_data % 2 ^ (32 - t.symbol_bits) = 0 ∧
      bitsOfBytes out2 ++ winBits 32 t.symbol_bits t.symbol_data =
        bitsOfBytes out ++ winBits 32 s.symbol_bits s.symbol_data ∧
      out2.length = out.length + s.symbol_bits / 8 ∧
      (t.queued_bits, t.output_bits, t.output_data, t.queued_done,
          t.queued_mode, t.symbol_term, t.queued_term, t.output_term) =
        (s.queued_bits, s.output_bits, s.output_data, s.queued_done,
          s.queued_mode, s.symbol_term, s.queued_term, s.output_term) :=
  Encoder.flushGo_spec s.symbol_bits s cap out le_rfl hsd hlow hsb hcap

/-- Flushing fewer than eight pending bits does nothing. -/
theorem Encoder.flush_lt8 (s : Encoder) (cap : Nat) (out : List Nat)
    (h : s.symbol_bits < 8) : Encoder.flush s cap out = (s, out, false) := by
  unfold Encoder.flush
  cases hsb : s.symbol_bits with
  | zero => rfl
  | succ g => rw [Encoder.flushGo, if_neg (by omega)]

/-- With no end marker due and no completed run, `Encoder.produce` is a
no-op. -/
theorem Encoder.produce_noop (s : Encoder) (cap : Nat) (out : List Nat)
    (hst : s.symbol_term = false) (hqd : s.queued_done = false)
    (hsb : s.symbol_bits < 8) :
    Encoder.produce s cap out = (s, out, false) := by
  have hphase : Encoder.emitPhase s = s := by
    unfold Encoder.emitPhase
    by_cases h8 : s.symbol_bits ≤ 8
    · rw [if_pos h8, if_neg (by simp [hst]), if_neg (by simp [hqd])]
    · rw [if_neg h8]
  unfold Encoder.produce
  rw [hphase, Encoder.flush_lt8 s cap out hsb]
  dsimp only []
  rw [if_neg (by simp [hst])]

/-- The value of the `n`-th run in an alternation that starts with `v`. -/
def altMode (v : Bool) (n : Nat) : Bool := if n % 2 = 0 then v else !v

theorem altMode_zero (v : Bool) : altMode v 0 = v := rfl

theorem altMode_succ (v : Bool) (n : Nat) :
    altMode v (n + 1) = altMode (!v) n := by
  unfold altMode
  by_cases h : n % 2 = 0
  · rw [if_neg (by omega), if_pos h]
  · rw [if_pos (by omega), if_neg h, Bool.not_not]

theorem runsBits_append_list (v : Bool) (R S : List Nat) :
    runsBits v (R ++ S) = runsBits v R ++ runsBits (altMode v R.length) S := by
  induction R generalizing v with
  | nil => simp [runsBits, altMode_zero]
  | cons r R ih =>
    rw [List.cons_append]
    show List.replicate r v ++ runsBits (!v) (R ++ S) = _
    rw [ih (!v), List.length_cons, altMode_succ]
    simp [runsBits]

theorem codeRuns_append_list (v : Bool) (R S : List Nat) :
    codeRuns v (R ++ S) = codeRuns v R ++ codeRuns (altMode v R.length) S := by
  induction R generalizing v with
  | nil => simp [codeRuns, altMode_zero]
  | cons r R ih =>
    rw [List.cons_append]
    show (if v then oneRunCode r else zeroRunCode r) ++ codeRuns (!v) (R ++ S) = _
    rw [ih (!v), List.length_cons, altMode_succ]
    simp [codeRuns]

theorem runsBits_single (v : Bool) (L : Nat) :
    runsBits v [L] = List.replicate L v := by
  show List.replicate L v ++ runsBits (!v) [] = _
  simp [runsBits]

theorem emitCode_eq_codeRuns (m : Bool) (L : Nat) :
    emitCode m L = codeRuns (!m) [L] := by
  cases m <;> simp [emitCode, codeRuns]

/-- Injecting the end-of-stream marker into a clean sub-byte window:
the new window is the old bits, the marker, and the byte-boundary
padding. -/
theorem eos_window (sb sd : Nat) (hsb : sb ≤ 7) (hsd : sd < 2 ^ 32)
    (hlow : sd % 2 ^ (32 - sb) = 0) :
    winBits 32 (if sb = 0 then 24 else 32) (sd ||| 0xFFF <<< (8 - sb)) =
      winBits 32 sb sd ++ bitsBE 24 0xFFF ++
        List.replicate ((8 - sb) % 8) false ∧
    (sd ||| 0xFFF <<< (8 - sb)) < 2 ^ 32 ∧
    (sd ||| 0xFFF <<< (8 - sb)) %
      2 ^ (32 - (if sb = 0 then 24 else 32)) = 0 ∧
    (if sb = 0 then 24 else 32) % 8 = 0 := by
  by_cases h0 : sb = 0
  · subst h0
    have hz : sd = 0 := by
      have : sd % 2 ^ 32 = 0 := hlow
      omega
    subst hz
    rw [if_pos rfl]
    have happ := winBits_or_append 32 0 24 0xFFF 0 (by omega)
      (by simp) (by norm_num)
    refine ⟨?_, ?_, ?_, by norm_num⟩
    · rw [winBits_zero_len] at happ
      have h8 : (8 : Nat) - 0 = 32 - 0 - 24 := by norm_num
      rw [h8]
      rw [happ, winBits_zero_len]
      simp
    · have := winBits_or_lt 32 0 24 0xFFF 0 (by omega) (by norm_num)
        (by norm_num)
      have h8 : (8 : Nat) - 0 = 32 - 0 - 24 := by norm_num
      rw [h8]
      exact this
    · have := winBits_or_low 32 0 24 0xFFF 0 (by omega) (by simp)
      have h8 : (8 : Nat) - 0 = 32 - 0 - 24 := by norm_num
      rw [h8]
      simpa using this
  · rw [if_neg h0]
    have hpat : 0xFFF <<< (8 - sb) < 2 ^ (32 - sb) := by
      rw [Nat.shiftLeft_eq]
      calc (0xFFF : Nat) * 2 ^ (8 - sb) < 2 ^ 12 * 2 ^ (8 - sb) := by
            apply (Nat.mul_lt_mul_right (Nat.pos_pow_of_pos _ (by norm_num))).mpr
            norm_num
        _ = 2 ^ (12 + (8 - sb)) := by rw [pow_add]
        _ ≤ 2 ^ (32 - sb) := Nat.pow_le_pow_right (by norm_num) (by omega)
    have happ := winBits_or_append 32 sb (32 - sb) (0xFFF <<< (8 - sb)) sd
      (by omega) hlow hpat
    have hsh : 32 - sb - (32 - sb) = 0 := by omega
    rw [hsh, Nat.shiftLeft_zero] at happ
    have hfull : sb + (32 - sb) = 32 := by omega
    rw [hfull] at happ
    refine ⟨?_, ?_, ?_, by norm_num⟩
    · rw [happ]
      have hsplit : bitsBE (32 - sb) (0xFFF <<< (8 - sb)) =
          bitsBE 24 0xFFF ++ List.replicate (8 - sb) false := by
        have := bitsBE_shl_pad 24 (8 - sb) 0xFFF (by norm_num)
        have h24 : 24 + (8 - sb) = 32 - sb := by omega
        rw [h24] at this
        exact this
      rw [hsplit, List.append_assoc]
      have hmod : (8 - sb) % 8 = 8 - sb := by omega
      rw [hmod]
    · have h1 := winBits_or_lt 32 sb (32 - sb) (0xFFF <<< (8 - sb)) sd
        (by omega) hsd (by
          have h2 : 2 ^ (32 - sb) ≤ 2 ^ (32 - sb) := le_rfl
          exact hpat)
      rw [hsh, Nat.shiftLeft_zero] at h1
      exact h1
    · have h1 := winBits_or_low 32 sb (32 - sb) (0xFFF <<< (8 - sb)) sd
        (by omega) hlow
      rw [hsh, Nat.shiftLeft_zero] at h1
      have h2 : 32 - (sb + (32 - sb)) = 32 - 32 := by omega
      rw [h2] at h1
      exact h1

theorem altMode_not (v : Bool) (n : Nat) : altMode (!v) n = !(altMode v n) := by
  unfold altMode
  by_cases h : n % 2 = 0
  · rw [if_pos h, if_pos h]
  · rw [if_neg h, if_neg h, Bool.not_not]

/-- A continuation symbol plus the code of the remainder spell the code of
the whole run. -/
theorem emitCode_cont (m : Bool) (L : Nat) (h : contStride m ≤ L) :
    emitCode m L = bitsBE 24 0xFFD ++ emitCode m (L - contStride m) := by
  cases m
  · simp only [emitCode, contStride, Bool.false_eq_true, if_false]
    simp only [contStride, Bool.false_eq_true, if_false] at h
    exact (oneRunCode_eq L).2.2.2 h
  · simp only [emitCode, contStride, if_true]
    simp only [contStride, if_true] at h
    exact (zeroRunCode_eq L).2.2.2.2.2.2.2.2.2.2.2.2.2.2 h

/-- The two live outcomes of a scan pass, by the extracted count. -/
theorem Encoder.scan_eq (s : Encoder) (hqd : s.queued_done = false)
    (hg : 0 < s.output_bits ∨ 0 < s.queued_bits) :
    Encoder.scan s =
      if scanCount s.queued_mode s.output_data s.output_bits = 0 then
        { s with queued_mode := !s.queued_mode, queued_done := true }
      else
        { s with
          output_data :=
            if scanCount s.queued_mode s.output_data s.output_bits < 8 then
              (s.output_data <<<
                scanCount s.queued_mode s.output_data s.output_bits) % 256
            else s.output_data
          output_bits :=
            s.output_bits - scanCount s.queued_mode s.output_data s.output_bits
          queued_bits :=
            s.queued_bits + scanCount s.queued_mode s.output_data s.output_bits } := by
  unfold Encoder.scan scanCount
  rw [if_neg (by simp [hqd]), if_pos hg]

/-- A nonempty window starts with the top bit of its data word. -/
theorem winBits_head (w ob od : Nat) (h : 0 < ob) :
    winBits w ob od =
      od.testBit (w - 1) ::
        (List.range (ob - 1)).map fun i => od.testBit (w - 1 - (i + 1)) := by
  cases ob with
  | zero => omega
  | succ k =>
    unfold winBits
    rw [List.range_succ_eq_map, List.map_cons]
    congr 1
    rw [List.map_map]
    congr 1
/-- One-step unfolding of the encoder loop. -/
theorem Encoder.step_succ (fuel : Nat) (s : Encoder) (input : List Nat)
    (cl cap : Nat) (out : List Nat) :
    Encoder.step (fuel + 1) s input cl cap out =
      match Encoder.consume s input cl with
      | (s1, cl1, true) => some (s1, cl1, out, .canConsume)
      | (s1, cl1, false) =>
        match Encoder.produce s1 cap out with
        | (s2, out2, true) => some (s2, cl1, out2, .canProduce)
        | (s2, out2, false) =>
          if s2.output_term then some (s2, cl1, out2, .terminated)
          else Encoder.step fuel s2 input cl1 cap out2 := rfl

theorem emitCode_zero (m : Bool) : emitCode m 0 = bitsBE 24 0xFFE := by
  cases m
  · simp only [emitCode, Bool.false_eq_true, if_false]
    exact (oneRunCode_eq 0).1 rfl
  · simp only [emitCode, if_true]
    exact (zeroRunCode_eq 0).1 rfl

/-- The encoder loop invariant at iteration boundaries: window and output
bookkeeping, the capacity account, and the run/stream decomposition
(ghost run list `R`; during an emission, the ghost total `Ltot` of the
run being emitted). -/
def EncInv (b : List Nat) (s : Encoder) (cl : Nat) (out : List Nat) : Prop :=
  s.queued_term = true ∧ s.symbol_term = false ∧ s.output_term = false ∧
  cl ≤ b.length ∧
  s.symbol_bits ≤ 7 ∧ s.symbol_data < 2 ^ 32 ∧
  s.symbol_data % 2 ^ (32 - s.symbol_bits) = 0 ∧
  s.output_bits ≤ 8 ∧ s.output_data < 256 ∧
  (0 < s.output_bits → s.output_data % 2 ^ (8 - s.output_bits) = 0) ∧
  8 * out.length + s.symbol_bits + 2 * s.queued_bits +
      2 * s.output_bits ≤ 48 + 208 * cl ∧
  (s.queued_done = true → s.queued_bits = 0 →
    8 * out.length + s.symbol_bits + 24 + 2 * s.output_bits ≤
      48 + 208 * cl) ∧
  ∃ R : List Nat,
    ((s.queued_done = false ∧
        s.queued_mode = altMode false R.length ∧
        bitsOfBytes (b.take cl) =
          runsBits false R ++ List.replicate s.queued_bits s.queued_mode ++
            winBits 8 s.output_bits s.output_data ∧
        bitsOfBytes out ++ winBits 32 s.symbol_bits s.symbol_data =
          codeRuns false R ∧
        (s.queued_bits = 0 → 0 < s.output_bits →
          s.output_data.testBit 7 = s.queued_mode)) ∨
      (s.queued_done = true ∧
        s.queued_mode = !(altMode false R.length) ∧
        (∃ Ltot,
          bitsOfBytes (b.take cl) =
            runsBits false R ++ List.replicate Ltot (!s.queued_mode) ++
              winBits 8 s.output_bits s.output_data ∧
          bitsOfBytes out ++ winBits 32 s.symbol_bits s.symbol_data ++
              emitCode s.queued_mode s.queued_bits =
            codeRuns false R ++ emitCode s.queued_mode Ltot) ∧
        (0 < s.output_bits → s.output_data.testBit 7 = s.queued_mode) ∧
        (s.output_bits = 0 → cl = b.length)))

/-- The terminal iteration: with the pipeline drained and the input
exhausted, one more loop pass injects the end-of-stream marker, flushes
it and terminates. -/
theorem Encoder.run_terminal (b : List Nat) (s : Encoder) (cl : Nat)
    (out : List Nat) (cap : Nat) (hinv : EncInv b s cl out)
    (hcap : 208 * b.length + 80 ≤ 8 * cap)
    (hqd : s.queued_done = false) (hqb : s.queued_bits = 0)
    (hob : s.output_bits = 0) (hcl : cl = b.length) :
    ∃ fuel sF outF T p,
      Encoder.step fuel s b cl cap out =
        some (sF, b.length, outF, .terminated) ∧
      bitsOfBytes outF =
        codeRuns false T ++ bitsBE 24 0xFFF ++ List.replicate p false ∧
      runsBits false T = bitsOfBytes b ∧ p ≤ 7 := by
  obtain ⟨hqt, hst, hot, hcle, hsb, hsd, hlow, hob8, hod, hodlow, hcapA,
    hcapB, R, hR⟩ := hinv
  rcases hR with ⟨_, hqm, hcons, hstream, _⟩ | ⟨hqd1, _⟩
  swap
  · rw [hqd] at hqd1
    cases hqd1
  have hget : b.get? cl = none := by
    rw [List.get?_eq_none]
    omega
  have hcons1 : Encoder.consume s b cl =
      ({ s with symbol_term := true }, cl, false) := by
    unfold Encoder.consume
    rw [if_pos ⟨hob, hst⟩, hget, if_neg (by simp [hqt])]
    unfold Encoder.scan
    rw [if_neg (by simp [hqd]), if_neg (by omega)]
  obtain ⟨hwin, hsd3, hlow3, hmod8⟩ := eos_window s.symbol_bits s.symbol_data
    hsb hsd hlow
  have hphase : Encoder.emitPhase { s with symbol_term := true } =
      { s with symbol_term := true
               symbol_data := s.symbol_data ||| 0xFFF <<< (8 - s.symbol_bits)
               symbol_bits := if s.symbol_bits = 0 then 24 else 32 } := by
    unfold Encoder.emitPhase
    dsimp only []
    rw [if_pos (show s.symbol_bits ≤ 8 by omega), if_pos ⟨rfl, hot⟩]
  obtain ⟨t4, outF, hflush, ht4b, ht4d, ht4l, hfstream, hflen, hfields⟩ :=
    Encoder.flush_spec
      { s with symbol_term := true
               symbol_data := s.symbol_data ||| 0xFFF <<< (8 - s.symbol_bits)
               symbol_bits := if s.symbol_bits = 0 then 24 else 32 }
      cap out hsd3 hlow3 (by show (if s.symbol_bits = 0 then 24 else 32) ≤ 32; split <;> omega)
      (by
        show 8 * out.length + (if s.symbol_bits = 0 then 24 else 32) ≤ 8 * cap
        split <;> omega)
  simp only [Prod.mk.injEq] at hfields
  obtain ⟨hf_qb, hf_ob, hf_od, hf_qd, hf_qm, hf_st, hf_qt, hf_ot⟩ := hfields
  have ht4sb : t4.symbol_bits = 0 := by
    rw [ht4b]
    exact hmod8
  have hprod : Encoder.produce { s with symbol_term := true } cap out =
      ({ t4 with output_term := true }, outF, false) := by
    unfold Encoder.produce
    rw [hphase, hflush]
    dsimp only []
    rw [if_pos ⟨hf_st, ht4sb⟩]
  refine ⟨1, { t4 with output_term := true }, outF, R,
    (8 - s.symbol_bits) % 8, ?_, ?_, ?_, by omega⟩
  · rw [show (1 : Nat) = 0 + 1 from rfl, Encoder.step_succ, hcons1]
    dsimp only []
    rw [hprod]
    dsimp only []
    rw [if_pos rfl, hcl]
  · rw [ht4sb, winBits_zero_len, List.append_nil] at hfstream
    rw [hfstream]
    show bitsOfBytes out ++
      winBits 32 (if s.symbol_bits = 0 then 24 else 32)
        (s.symbol_data ||| 0xFFF <<< (8 - s.symbol_bits)) = _
    rw [hwin, ← List.append_assoc, ← List.append_assoc, hstream]
  · rw [hcl, List.take_length] at hcons
    rw [hcons, hqb, hob, winBits_zero_len, List.replicate_zero]
    simp

/-- One `Encoder.produce` call on an invariant state holding a completed
run: it emits one symbol (final code or continuation), flushes whole
bytes, and re-establishes the invariant while draining the queue. -/
theorem Encoder.emit_produce (b : List Nat) (s : Encoder) (cl : Nat)
    (out : List Nat) (cap : Nat) (hinv : EncInv b s cl out)
    (hqd : s.queued_done = true)
    (hcap : 208 * b.length + 80 ≤ 8 * cap) :
    ∃ s4 out4,
      Encoder.produce s cap out = (s4, out4, false) ∧
      EncInv b s4 cl out4 ∧
      s4.output_bits = s.output_bits ∧
      ((s4.queued_done = false ∧ s4.queued_bits = 0) ∨
        (s4.queued_done = true ∧ s4.queued_bits + 4106 ≤ s.queued_bits)) := by
  obtain ⟨hqt, hst, hot, hcle, hsb, hsd, hlow, hob8, hod, hodlow, hcapA,
    hcapB, R, hR⟩ := hinv
  rcases hR with ⟨hqdF, _⟩ | ⟨_, hqmpar, ⟨Ltot, hconsE, hstreamE⟩, hheadE, hobE⟩
  · rw [hqd] at hqdF
    cases hqdF
  have hphase : Encoder.emitPhase s = Encoder.emitRun s := by
    unfold Encoder.emitPhase
    rw [if_pos (show s.symbol_bits ≤ 8 by omega), if_neg (by simp [hst]),
      if_pos hqd]
  obtain ⟨wd, hspec⟩ := Encoder.emitRun_spec s (by omega) hsd hlow
  unfold EmitSpec at hspec
  obtain ⟨hsb2, hwd24, hsd2, hlow2, hob2, hod2, hqm2, hst2, hqt2, hot2,
    hcase⟩ := hspec
  obtain ⟨t4, out4, hflush, ht4b, ht4d, ht4l, hfstream, hflen, hfields⟩ :=
    Encoder.flush_spec (Encoder.emitRun s) cap out hsd2 hlow2
      (by rw [hsb2]; omega)
      (by rw [hsb2]; omega)
  simp only [Prod.mk.injEq] at hfields
  obtain ⟨hfqb, hfob, hfod, hfqd, hfqm, hfst, hfqt, hfot⟩ := hfields
  have hprod : Encoder.produce s cap out = (t4, out4, false) := by
    unfold Encoder.produce
    rw [hphase, hflush]
    dsimp only []
    rw [if_neg (by simp [hfst, hst2, hst])]
  rw [hsb2] at ht4b hflen
  have hsb4 : t4.symbol_bits = (s.symbol_bits + wd) % 8 := ht4b
  have hob4 : t4.output_bits = s.output_bits := hfob.trans hob2
  have hod4 : t4.output_data = s.output_data := hfod.trans hod2
  have hqm4 : t4.queued_mode = s.queued_mode := hfqm.trans hqm2
  have hst4 : t4.symbol_term = false := (hfst.trans hst2).trans hst
  have hqt4 : t4.queued_term = true := (hfqt.trans hqt2).trans hqt
  have hot4 : t4.output_term = false := (hfot.trans hot2).trans hot
  have hnotqm : (!s.queued_mode) = altMode false R.length := by
    rw [hqmpar, Bool.not_not]
  rcases hcase with ⟨hlt, hwinA, hwdlen, hqb0, hqdF2, hwd2qb⟩ |
    ⟨hge, hwinB, hwd24', hqbB, hqdB⟩
  · -- final symbol: the run is fully emitted
    have hqb4 : t4.queued_bits = 0 := hfqb.trans hqb0
    have hqd4 : t4.queued_done = false := hfqd.trans hqdF2
    refine ⟨t4, out4, hprod, ?_, hob4, Or.inl ⟨hqd4, hqb4⟩⟩
    refine ⟨hqt4, hst4, hot4, hcle, by omega, ht4d, ht4l, ?_, ?_, ?_, ?_, ?_,
      R ++ [Ltot], Or.inl ⟨hqd4, ?_, ?_, ?_, ?_⟩⟩
    · rw [hob4]; exact hob8
    · rw [hod4]; exact hod
    · rw [hob4, hod4]; exact hodlow
    · -- capacity
      rw [hflen, hsb4, hqb4, hob4]
      rcases Nat.eq_zero_or_pos s.queued_bits with hq0 | hqpos
      · have hwd : wd = 24 := by
          rw [hwdlen, hq0, emitCode_zero, bitsBE_length]
        have := hcapB hqd hq0
        omega
      · have := hwd2qb hqpos
        omega
    · -- no completed run is pending afterwards
      intro h1 _
      rw [hqd4] at h1
      cases h1
    · -- parity for the extended run list
      rw [hqm4, List.length_append, List.length_singleton, altMode_succ,
        altMode_not, hqmpar]
    · -- consumed decomposition
      rw [hqb4, List.replicate_zero, hob4, hod4]
      rw [hconsE, runsBits_append_list, ← hnotqm, runsBits_single]
      simp
    · -- stream decomposition
      rw [hfstream, hwinA, codeRuns_append_list, ← List.append_assoc,
        hstreamE, emitCode_eq_codeRuns, hnotqm]
    · -- head clause
      intro _ hob0
      rw [hod4, hqm4]
      exact hheadE (by omega)
  · -- continuation symbol: part of the run is emitted
    have hqb4 : t4.queued_bits = s.queued_bits - contStride s.queued_mode :=
      hfqb.trans hqbB
    have hqd4 : t4.queued_done = true := (hfqd.trans hqdB).trans hqd
    have hstride : 4106 ≤ contStride s.queued_mode := by
      cases hq : s.queued_mode <;> simp [contStride]
    refine ⟨t4, out4, hprod, ?_, hob4, Or.inr ⟨hqd4, by omega⟩⟩
    refine ⟨hqt4, hst4, hot4, hcle, by omega, ht4d, ht4l, ?_, ?_, ?_, ?_, ?_,
      R, Or.inr ⟨hqd4, ?_, ⟨Ltot, ?_, ?_⟩, ?_, ?_⟩⟩
    · rw [hob4]; exact hob8
    · rw [hod4]; exact hod
    · rw [hob4, hod4]; exact hodlow
    · -- capacity
      rw [hflen, hsb4, hqb4, hob4]
      omega
    · -- budget for a pending empty remainder
      intro _ h2
      rw [hqb4] at h2
      rw [hflen, hsb4, hob4]
      omega
    · rw [hqm4]; exact hqmpar
    · rw [hob4, hod4, hqm4]; exact hconsE
    · -- stream decomposition with the continuation peeled off
      rw [hqm4, hqb4, hfstream, hwinB]
      rw [← hstreamE, emitCode_cont s.queued_mode s.queued_bits hge]
      simp [List.append_assoc]
    · intro h0
      rw [hod4, hqm4]
      exact hheadE (by omega)
    · intro h0
      exact hobE (by omega)

/-- One `Encoder.consume` call on an invariant scanning state that is
not yet terminal: it pulls at most one byte, extracts a run chunk or
completes the current run, and re-establishes the invariant with the
loop measure reduced. -/
theorem Encoder.consume_step (b : List Nat) (s : Encoder) (cl : Nat)
    (out : List Nat) (hinv : EncInv b s cl out)
    (hqdF : s.queued_done = false)
    (hnterm : ¬(s.queued_bits = 0 ∧ s.output_bits = 0 ∧ cl = b.length)) :
    ∃ s2 cl1,
      Encoder.consume s b cl = (s2, cl1, false) ∧
      EncInv b s2 cl1 out ∧
      ((s2.queued_done = false ∧
          20 * (b.length - cl1) + 2 * s2.output_bits + s2.queued_bits + 1 ≤
            20 * (b.length - cl) + 2 * s.output_bits + s.queued_bits) ∨
        (s2.queued_done = true ∧ s2.queued_bits = s.queued_bits ∧
          20 * (b.length - cl1) + 2 * s2.output_bits + 1 ≤
            20 * (b.length - cl) + 2 * s.output_bits + s.queued_bits ∧
          20 * (b.length - cl1) + 2 * s2.output_bits + s2.queued_bits + 1 ≤
            20 * (b.length - cl) + 2 * s.output_bits + s.queued_bits +
              4105)) := by
  obtain ⟨hqt, hst, hot, hcle, hsb, hsd, hlow, hob8, hod, hodlow, hcapA,
    hcapB, R, hR⟩ := hinv
  rcases hR with ⟨_, hqmpar, hconsC, hstreamC, hheadC⟩ | ⟨hqdT, _⟩
  swap
  · rw [hqdF] at hqdT
    cases hqdT
  obtain ⟨sb, qb, ob, sd, od, qd, qm, st, qt, ot⟩ := s
  simp only [] at hqt hst hot hsb hsd hlow hob8 hod hodlow hcapA hqdF hqmpar hconsC hstreamC hheadC hnterm
  subst hqdF hst hqt hot
  by_cases hob0 : ob = 0
  · subst hob0
    by_cases hclb : cl < b.length
    · -- pull one byte
      have hget : b.get? cl = some (getElem b cl hclb) := by
        rw [List.get?_eq_getElem?]
        exact List.getElem?_eq_getElem hclb
      have hwin1 : winBits 8 8 (b[cl] % 256) = bitsBE 8 (getElem b cl hclb) := by
        rw [winBits_eq_bitsBE 8 8 _ le_rfl]
        have h0 : (8 : Nat) - 8 = 0 := rfl
        rw [h0, Nat.shiftRight_zero]
        have h256 : (256 : Nat) = 2 ^ 8 := by norm_num
        rw [h256, bitsBE_mod]
      have hcons2 : bitsOfBytes (b.take (cl + 1)) =
          runsBits false R ++ List.replicate qb qm ++
            winBits 8 8 (b[cl] % 256) := by
        rw [bitsOfBytes_take_succ b cl hclb, hconsC, winBits_zero_len,
          List.append_nil, hwin1]
      have hod1 : b[cl] % 256 < 256 := Nat.mod_lt _ (by norm_num)
      have hlow1 : (0:Nat) < 8 → b[cl] % 256 % 2 ^ (8 - 8) = 0 := by
        intro _
        omega
      have hscan := Encoder.scan_eq ⟨sb, qb, 8, sd, b[cl] % 256, false, qm,
        false, true, false⟩ rfl (Or.inl (by norm_num))
      have hcount : scanCount qm (b[cl] % 256) 8 =
          countRun qm (winBits 8 8 (b[cl] % 256)) :=
        scan_count_correct (b[cl] % 256) hod1 8 (by norm_num) qm hlow1
      by_cases hc0 : scanCount qm (b[cl] % 256) 8 = 0
      · -- the fresh byte opens with the other bit value: complete the run
        rw [if_pos hc0] at hscan
        have hcons1 : Encoder.consume ⟨sb, qb, 0, sd, od, false, qm, false,
            true, false⟩ b cl =
            (⟨sb, qb, 8, sd, b[cl] % 256, true, !qm, false, true, false⟩,
              cl + 1, false) := by
          unfold Encoder.consume
          rw [if_pos ⟨rfl, rfl⟩, hget]
          dsimp only []
          rw [hscan]
        refine ⟨⟨sb, qb, 8, sd, b[cl] % 256, true, !qm, false, true, false⟩,
          cl + 1, hcons1, ?_, Or.inr ⟨rfl, rfl, by dsimp only []; omega, by dsimp only []; omega⟩⟩
        refine ⟨rfl, rfl, rfl, by omega, hsb, hsd, hlow, by norm_num, hod1,
          hlow1, by dsimp only []; norm_num; omega, by
            intro h1 h2
            dsimp only [] at h2 ⊢
            omega,
          R, Or.inr ⟨rfl, ?_, ⟨qb, ?_, ?_⟩, ?_, by norm_num⟩⟩
        · show (!qm) = !(altMode false R.length)
          rw [hqmpar]
        · show bitsOfBytes (b.take (cl + 1)) =
            runsBits false R ++ List.replicate qb (!(!qm)) ++
              winBits 8 8 (b[cl] % 256)
          rw [Bool.not_not]
          exact hcons2
        · show bitsOfBytes out ++ winBits 32 sb sd ++ emitCode (!qm) qb =
            codeRuns false R ++ emitCode (!qm) qb
          rw [hstreamC]
        · intro _
          show (b[cl] % 256).testBit 7 = !qm
          have hhead := winBits_head 8 8 (b[cl] % 256) (by norm_num)
          rw [hc0] at hcount
          rw [hhead] at hcount
          exact countRun_zero_head qm _ _ hcount.symm
      · -- at least one fresh bit extends the run
        rw [if_neg hc0] at hscan
        have hresid := scan_resid_correct (b[cl] % 256) hod1 8 (by norm_num)
          qm hlow1
        have hrlow := scan_resid_lowzero (b[cl] % 256) hod1 8 (by norm_num)
          qm hlow1
        have hcle8 : scanCount qm (b[cl] % 256) 8 ≤ 8 := by
          unfold scanCount
          omega
        have hcons1 : Encoder.consume ⟨sb, qb, 0, sd, od, false, qm, false,
            true, false⟩ b cl =
            (⟨sb, qb + scanCount qm (b[cl] % 256) 8,
              8 - scanCount qm (b[cl] % 256) 8, sd,
              if scanCount qm (b[cl] % 256) 8 < 8 then
                ((b[cl] % 256) <<< scanCount qm (b[cl] % 256) 8) % 256
              else b[cl] % 256,
              false, qm, false, true, false⟩, cl + 1, false) := by
          unfold Encoder.consume
          rw [if_pos ⟨rfl, rfl⟩, hget]
          dsimp only []
          rw [hscan]
        refine ⟨_, cl + 1, hcons1, ?_, Or.inl ⟨rfl, by
          dsimp only []
          omega⟩⟩
        refine ⟨rfl, rfl, rfl, by omega, hsb, hsd, hlow,
          by show 8 - scanCount qm (b[cl] % 256) 8 ≤ 8; omega,
          ?_, ?_, by
            show 8 * out.length + sb +
              2 * (qb + scanCount qm (b[cl] % 256) 8) +
              2 * (8 - scanCount qm (b[cl] % 256) 8) ≤ 48 + 208 * (cl + 1)
            omega, by
            intro h1
            simp at h1,
          R, Or.inl ⟨rfl, hqmpar, ?_, hstreamC, by
            intro hq0 _
            simp only [] at hq0
            omega⟩⟩
        · show (if scanCount qm (b[cl] % 256) 8 < 8 then
            ((b[cl] % 256) <<< scanCount qm (b[cl] % 256) 8) % 256
            else b[cl] % 256) < 256
          split
          · exact Nat.mod_lt _ (by norm_num)
          · exact hod1
        · intro hpos
          simp only [] at hpos ⊢
          exact hrlow hpos
        · show bitsOfBytes (b.take (cl + 1)) =
            runsBits false R ++
              List.replicate (qb + scanCount qm (b[cl] % 256) 8) qm ++
              winBits 8 (8 - scanCount qm (b[cl] % 256) 8)
                (if scanCount qm (b[cl] % 256) 8 < 8 then
                  ((b[cl] % 256) <<< scanCount qm (b[cl] % 256) 8) % 256
                  else b[cl] % 256)
          rw [hcons2]
          have hw2 : winBits 8 (8 - scanCount qm (b[cl] % 256) 8)
              (if scanCount qm (b[cl] % 256) 8 < 8 then
                ((b[cl] % 256) <<< scanCount qm (b[cl] % 256) 8) % 256
                else b[cl] % 256) =
              (winBits 8 8 (b[cl] % 256)).drop
                (scanCount qm (b[cl] % 256) 8) := by
            rw [winBits_eq_bitsBE 8 8 _ le_rfl, winBits_eq_bitsBE 8 _ _
              (by omega)]
            have h0 : (8 : Nat) - 8 = 0 := rfl
            rw [h0, Nat.shiftRight_zero]
            exact hresid
          rw [hw2]
          have hsplit : winBits 8 8 (b[cl] % 256) =
              List.replicate (scanCount qm (b[cl] % 256) 8) qm ++
                (winBits 8 8 (b[cl] % 256)).drop
                  (scanCount qm (b[cl] % 256) 8) := by
            conv_lhs => rw [← List.take_append_drop
              (scanCount qm (b[cl] % 256) 8) (winBits 8 8 (b[cl] % 256))]
            congr 1
            have htake := countRun_take qm (winBits 8 8 (b[cl] % 256))
            rw [hcount]
            exact htake
          conv_lhs => rw [hsplit]
          rw [List.replicate_add]
          simp only [List.append_assoc]
    · -- no byte left: the queue must be nonempty, the run completes
      have hcl : cl = b.length := by omega
      have hqbpos : 0 < qb := by
        rcases Nat.eq_zero_or_pos qb with h | h
        · exact absurd ⟨h, rfl, hcl⟩ hnterm
        · exact h
      have hget : b.get? cl = none := by
        rw [List.get?_eq_none]
        omega
      have hscan := Encoder.scan_eq ⟨sb, qb, 0, sd, od, false, qm,
        false, true, false⟩ rfl (Or.inr hqbpos)
      have hc0 : scanCount qm od 0 = 0 := by
        unfold scanCount
        omega
      rw [if_pos hc0] at hscan
      have hcons1 : Encoder.consume ⟨sb, qb, 0, sd, od, false, qm, false,
          true, false⟩ b cl =
          (⟨sb, qb, 0, sd, od, true, !qm, false, true, false⟩, cl, false) := by
        unfold Encoder.consume
        rw [if_pos ⟨rfl, rfl⟩, hget, if_neg (by simp)]
        rw [hscan]
      refine ⟨⟨sb, qb, 0, sd, od, true, !qm, false, true, false⟩, cl,
        hcons1, ?_, Or.inr ⟨rfl, rfl, by dsimp only []; omega, by dsimp only []; omega⟩⟩
      refine ⟨rfl, rfl, rfl, by omega, hsb, hsd, hlow, by norm_num, hod,
        hodlow, by dsimp only []; norm_num; omega, by
          intro h1 h2
          dsimp only [] at h2
          omega,
        R, Or.inr ⟨rfl, ?_, ⟨qb, ?_, ?_⟩, by norm_num, fun _ => hcl⟩⟩
      · show (!qm) = !(altMode false R.length)
        rw [hqmpar]
      · show bitsOfBytes (b.take cl) =
          runsBits false R ++ List.replicate qb (!(!qm)) ++
            winBits 8 0 od
        rw [Bool.not_not]
        exact hconsC
      · show bitsOfBytes out ++ winBits 32 sb sd ++ emitCode (!qm) qb =
          codeRuns false R ++ emitCode (!qm) qb
        rw [hstreamC]
  · -- bits remain in the output window: scan without pulling
    have hobpos : 0 < ob := by omega
    have hscan := Encoder.scan_eq ⟨sb, qb, ob, sd, od, false, qm,
      false, true, false⟩ rfl (Or.inl hobpos)
    have hcount : scanCount qm od ob =
        countRun qm (bitsBE ob (od >>> (8 - ob))) :=
      scan_count_correct od hod ob (by omega) qm hodlow
    by_cases hc0 : scanCount qm od ob = 0
    · -- run completes on a mismatching bit: it cannot be empty
      rw [if_pos hc0] at hscan
      have hqbpos : 0 < qb := by
        rcases Nat.eq_zero_or_pos qb with h | h
        · exfalso
          have hhead := winBits_head 8 ob od hobpos
          have hmatch : od.testBit 7 = qm := hheadC h hobpos
          rw [← winBits_eq_bitsBE 8 ob od (by omega)] at hcount
          rw [hc0] at hcount
          rw [hhead] at hcount
          have h7 : (8 : Nat) - 1 = 7 := rfl
          rw [h7, hmatch, countRun_cons, if_pos rfl] at hcount
          omega
        · exact h
      have hcons1 : Encoder.consume ⟨sb, qb, ob, sd, od, false, qm, false,
          true, false⟩ b cl =
          (⟨sb, qb, ob, sd, od, true, !qm, false, true, false⟩, cl,
            false) := by
        unfold Encoder.consume
        rw [if_neg (by simp [hob0])]
        rw [hscan]
      refine ⟨⟨sb, qb, ob, sd, od, true, !qm, false, true, false⟩, cl,
        hcons1, ?_, Or.inr ⟨rfl, rfl, by dsimp only []; omega, by dsimp only []; omega⟩⟩
      refine ⟨rfl, rfl, rfl, by omega, hsb, hsd, hlow, hob8, hod,
        hodlow, by dsimp only []; norm_num; omega, by
          intro h1 h2
          dsimp only [] at h2
          omega,
        R, Or.inr ⟨rfl, ?_, ⟨qb, ?_, ?_⟩, ?_, by
          intro h0
          dsimp only [] at h0
          omega⟩⟩
      · show (!qm) = !(altMode false R.length)
        rw [hqmpar]
      · show bitsOfBytes (b.take cl) =
          runsBits false R ++ List.replicate qb (!(!qm)) ++
            winBits 8 ob od
        rw [Bool.not_not]
        exact hconsC
      · show bitsOfBytes out ++ winBits 32 sb sd ++ emitCode (!qm) qb =
          codeRuns false R ++ emitCode (!qm) qb
        rw [hstreamC]
      · intro _
        show od.testBit 7 = !qm
        have hhead := winBits_head 8 ob od hobpos
        rw [← winBits_eq_bitsBE 8 ob od (by omega)] at hcount
        rw [hc0] at hcount
        rw [hhead] at hcount
        exact countRun_zero_head qm _ _ hcount.symm
    · -- progress within the window
      rw [if_neg hc0] at hscan
      have hresid := scan_resid_correct od hod ob (by omega) qm hodlow
      have hrlow := scan_resid_lowzero od hod ob (by omega) qm hodlow
      have hcleob : scanCount qm od ob ≤ ob := by
        unfold scanCount
        omega
      have hcons1 : Encoder.consume ⟨sb, qb, ob, sd, od, false, qm, false,
          true, false⟩ b cl =
          (⟨sb, qb + scanCount qm od ob, ob - scanCount qm od ob, sd,
            if scanCount qm od ob < 8 then
              (od <<< scanCount qm od ob) % 256 else od,
            false, qm, false, true, false⟩, cl, false) := by
        unfold Encoder.consume
        rw [if_neg (by simp [hob0])]
        rw [hscan]
      refine ⟨_, cl, hcons1, ?_, Or.inl ⟨rfl, by
        dsimp only []
        omega⟩⟩
      refine ⟨rfl, rfl, rfl, by omega, hsb, hsd, hlow,
        by show ob - scanCount qm od ob ≤ 8; omega,
        ?_, ?_, by
          show 8 * out.length + sb +
            2 * (qb + scanCount qm od ob) +
            2 * (ob - scanCount qm od ob) ≤ 48 + 208 * cl
          omega, by
          intro h1
          simp at h1,
        R, Or.inl ⟨rfl, hqmpar, ?_, hstreamC, by
          intro hq0 _
          simp only [] at hq0
          omega⟩⟩
      · show (if scanCount qm od ob < 8 then
          (od <<< scanCount qm od ob) % 256 else od) < 256
        split
        · exact Nat.mod_lt _ (by norm_num)
        · exact hod
      · intro hpos
        simp only [] at hpos ⊢
        exact hrlow hpos
      · show bitsOfBytes (b.take cl) =
          runsBits false R ++
            List.replicate (qb + scanCount qm od ob) qm ++
            winBits 8 (ob - scanCount qm od ob)
              (if scanCount qm od ob < 8 then
                (od <<< scanCount qm od ob) % 256 else od)
        rw [hconsC]
        have hw2 : winBits 8 (ob - scanCount qm od ob)
            (if scanCount qm od ob < 8 then
              (od <<< scanCount qm od ob) % 256 else od) =
            (winBits 8 ob od).drop (scanCount qm od ob) := by
          rw [winBits_eq_bitsBE 8 ob od (by omega), winBits_eq_bitsBE 8 _ _
            (by omega)]
          exact hresid
        rw [hw2]
        have hsplit : winBits 8 ob od =
            List.replicate (scanCount qm od ob) qm ++
              (winBits 8 ob od).drop (scanCount qm od ob) := by
          have hcount2 : scanCount qm od ob =
              countRun qm (winBits 8 ob od) := by
            rw [← winBits_eq_bitsBE 8 ob od (by omega)] at hcount
            exact hcount
          conv_lhs => rw [← List.take_append_drop
            (scanCount qm od ob) (winBits 8 ob od)]
          congr 1
          have htake := countRun_take qm (winBits 8 ob od)
          rw [hcount2]
          exact htake
        conv_lhs => rw [hsplit]
        rw [List.replicate_add]
        simp only [List.append_assoc]

/-- The encoder main loop, run to termination from any invariant state:
it consumes the whole input and emits a run-length code stream for it,
closed by the end-of-stream marker and byte padding. -/
theorem Encoder.run_master (n : Nat) (b : List Nat) (s : Encoder)
    (cl : Nat) (out : List Nat) (cap : Nat) (hinv : EncInv b s cl out)
    (hcap : 208 * b.length + 80 ≤ 8 * cap)
    (hmeas : 20 * (b.length - cl) + 2 * s.output_bits + s.queued_bits +
      (if s.queued_done = true then 1 else 0) ≤ n) :
    ∃ fuel sF outF T p,
      Encoder.step fuel s b cl cap out =
        some (sF, b.length, outF, .terminated) ∧
      bitsOfBytes outF =
        codeRuns false T ++ bitsBE 24 0xFFF ++ List.replicate p false ∧
      runsBits false T = bitsOfBytes b ∧ p ≤ 7 := by
  induction n generalizing s cl out with
  | zero =>
    have hcle := hinv.2.2.2.1
    cases hq : s.queued_done with
    | true =>
      rw [hq] at hmeas
      norm_num at hmeas
    | false =>
      rw [hq] at hmeas
      norm_num at hmeas
      exact Encoder.run_terminal b s cl out cap hinv hcap hq (by omega)
        (by omega) (by omega)
  | succ n ih =>
    by_cases hqdT : s.queued_done = true
    · -- a completed run is still being emitted
      have hst : s.symbol_term = false := hinv.2.1
      have hqt : s.queued_term = true := hinv.1
      have hscan_id : Encoder.scan s = s := by
        unfold Encoder.scan
        rw [if_pos hqdT]
      have hconsD : Encoder.consume s b cl = (s, cl, false) := by
        obtain ⟨_, _, _, _, _, _, _, _, _, _, _, _, R, hR⟩ := hinv
        rcases hR with ⟨hqdF, _⟩ | ⟨_, _, _, _, hobE⟩
        · rw [hqdT] at hqdF
          cases hqdF
        unfold Encoder.consume
        by_cases hob : s.output_bits = 0
        · have hget : b.get? cl = none := by
            rw [List.get?_eq_none, hobE hob]
          rw [if_pos ⟨hob, hst⟩, hget, if_neg (by simp [hqt]), hscan_id]
        · rw [if_neg (by simp [hob]), hscan_id]
      obtain ⟨s4, out4, hprod, hinv4, hob4, hdec⟩ :=
        Encoder.emit_produce b s cl out cap hinv hqdT hcap
      have hot4 : s4.output_term = false := hinv4.2.2.1
      have hm4 : 20 * (b.length - cl) + 2 * s4.output_bits +
          s4.queued_bits + (if s4.queued_done = true then 1 else 0) ≤ n := by
        rw [hob4]
        rw [hqdT] at hmeas
        norm_num at hmeas
        rcases hdec with ⟨h4, h4b⟩ | ⟨h4, h4b⟩
        · rw [h4, h4b]
          norm_num
          omega
        · rw [h4]
          norm_num
          omega
      obtain ⟨fuel, sF, outF, T, p, hstep, h1, h2, h3⟩ :=
        ih s4 cl out4 hinv4 hm4
      refine ⟨fuel + 1, sF, outF, T, p, ?_, h1, h2, h3⟩
      rw [Encoder.step_succ, hconsD]
      dsimp only []
      rw [hprod]
      dsimp only []
      rw [if_neg (by simp [hot4])]
      exact hstep
    · have hqdF : s.queued_done = false := by
        revert hqdT
        cases s.queued_done <;> simp
      rw [hqdF] at hmeas
      norm_num at hmeas
      by_cases hterm : s.queued_bits = 0 ∧ s.output_bits = 0 ∧
        cl = b.length
      · exact Encoder.run_terminal b s cl out cap hinv hcap hqdF hterm.1
          hterm.2.1 hterm.2.2
      · obtain ⟨s2, cl1, hcons, hinv2, hdec⟩ :=
          Encoder.consume_step b s cl out hinv hqdF hterm
        rcases hdec with ⟨hqd2, hmeas2⟩ | ⟨hqd2, hqbeq, hmA, hmB⟩
        · -- a scan pass made progress; produce is a no-op
          have hst2 : s2.symbol_term = false := hinv2.2.1
          have hsb2 : s2.symbol_bits ≤ 7 := hinv2.2.2.2.2.1
          have hot2 : s2.output_term = false := hinv2.2.2.1
          have hprod := Encoder.produce_noop s2 cap out hst2 hqd2
            (by omega)
          obtain ⟨fuel, sF, outF, T, p, hstep, h1, h2, h3⟩ :=
            ih s2 cl1 out hinv2 (by
              rw [hqd2]
              norm_num
              omega)
          refine ⟨fuel + 1, sF, outF, T, p, ?_, h1, h2, h3⟩
          rw [Encoder.step_succ, hcons]
          dsimp only []
          rw [hprod]
          dsimp only []
          rw [if_neg (by simp [hot2])]
          exact hstep
        · -- the run completed during the scan; emit its first symbol
          obtain ⟨s4, out4, hprod, hinv4, hob4, hdec2⟩ :=
            Encoder.emit_produce b s2 cl1 out cap hinv2 hqd2 hcap
          have hot4 : s4.output_term = false := hinv4.2.2.1
          have hm4 : 20 * (b.length - cl1) + 2 * s4.output_bits +
              s4.queued_bits +
              (if s4.queued_done = true then 1 else 0) ≤ n := by
            rw [hob4]
            rcases hdec2 with ⟨h4, h4b⟩ | ⟨h4, h4b⟩
            · rw [h4, h4b]
              norm_num
              omega
            · rw [h4]
              norm_num
              omega
          obtain ⟨fuel, sF, outF, T, p, hstep, h1, h2, h3⟩ :=
            ih s4 cl1 out4 hinv4 hm4
          refine ⟨fuel + 1, sF, outF, T, p, ?_, h1, h2, h3⟩
          rw [Encoder.step_succ, hcons]
          dsimp only []
          rw [hprod]
          dsimp only []
          rw [if_neg (by simp [hot4])]
          exact hstep

/-- `encode_into_slice` with a large enough buffer succeeds, and the bit
expansion of its output is a code stream for the input's run
decomposition, closed by the end-of-stream marker and byte padding. -/
theorem encode_stream (b : List Nat) (cap : Nat)
    (hcap : 208 * b.length + 80 ≤ 8 * cap) :
    ∃ fuel Y T p,
      encode_into_slice fuel b cap = some (.ok Y) ∧
      bitsOfBytes Y =
        codeRuns false T ++ bitsBE 24 0xFFF ++ List.replicate p false ∧
      runsBits false T = bitsOfBytes b ∧ p ≤ 7 := by
  have hinv : EncInv b (Encoder.set_consumed_bytes_end Encoder.new) 0 [] := by
    refine ⟨rfl, rfl, rfl, Nat.zero_le _, by decide, by decide, by decide,
      by decide, by decide, by decide, by decide, by decide, [],
      Or.inl ⟨rfl, by decide,
        by simp [Encoder.set_consumed_bytes_end, Encoder.new, runsBits,
          winBits, bitsOfBytes_nil],
        by simp [Encoder.set_consumed_bytes_end, Encoder.new, codeRuns,
          winBits, bitsOfBytes_nil],
        by decide⟩⟩
  obtain ⟨fuel, sF, outF, T, p, hstep, h1, h2, h3⟩ :=
    Encoder.run_master (20 * b.length + 1) b
      (Encoder.set_consumed_bytes_end Encoder.new) 0 [] cap hinv hcap
      (by simp [Encoder.set_consumed_bytes_end, Encoder.new])
  refine ⟨fuel, outF, T, p, ?_, h1, h2, h3⟩
  unfold encode_into_slice
  rw [hstep]

theorem runsBits_nil (m : Bool) : runsBits m [] = [] := rfl

theorem runsBits_cons (m : Bool) (r : Nat) (rest : List Nat) :
    runsBits m (r :: rest) = List.replicate r m ++ runsBits (!m) rest := rfl

theorem codeRuns_nil (m : Bool) : codeRuns m [] = [] := rfl

theorem codeRuns_cons (m : Bool) (r : Nat) (rest : List Nat) :
    codeRuns m (r :: rest) =
      (if m then oneRunCode r else zeroRunCode r) ++ codeRuns (!m) rest := rfl

/-- If the remaining stream starts with a `wd`-bit code and the window
holds at least `wd` valid bits, the window's top spells that code. -/
theorem stream_top {sb sd v : Nat} {t u : List Bool} (wd : Nat)
    (hsb : sb ≤ 32) (hwd : wd ≤ sb) (hsd : sd < 2 ^ 32) (hv : v < 2 ^ wd)
    (h : winBits 32 sb sd ++ t = bitsBE wd v ++ u) :
    sd >>> (32 - wd) = v := by
  apply winBits_value 32 sb wd sd v hwd hsb hsd hv
  have h2 := congrArg (List.take wd) h
  rw [List.take_append_eq_append_take, winBits_length] at h2
  have e1 : wd - sb = 0 := by omega
  rw [e1, List.take_zero, List.append_nil] at h2
  rw [List.take_left' (bitsBE_length wd v)] at h2
  exact h2

/-- Consuming the head code of the stream shifts it out of the window. -/
theorem stream_advance {sb sd : Nat} {t C u : List Bool} (wd : Nat)
    (hsb : sb ≤ 32) (hwd : wd ≤ sb) (hC : C.length = wd)
    (h : winBits 32 sb sd ++ t = C ++ u) :
    winBits 32 (sb - wd) ((sd <<< wd) % 2 ^ 32) ++ t = u := by
  rw [winBits_shl_drop 32 sb wd sd hwd hsb]
  have h2 := congrArg (List.drop wd) h
  rw [List.drop_append_eq_append_drop, List.drop_append_eq_append_drop,
    winBits_length, hC] at h2
  have e1 : wd - sb = 0 := by omega
  rw [e1, List.drop_zero, List.drop_eq_nil_of_le (le_of_eq hC),
    List.nil_append, Nat.sub_self, List.drop_zero] at h2
  exact h2

/-- The two-field bands of the zero-run code table, uniformly in the
band index `k`. -/
theorem zeroRunCode_band (k L : Nat) (hk1 : 1 ≤ k) (hk2 : k ≤ 12)
    (h1 : 2 ^ k - 1 ≤ L) (h2 : L ≤ 2 ^ (k + 1) - 2) :
    zeroRunCode L = bitsBE (2 * k) (2 ^ k + (L - (2 ^ k - 1))) := by
  interval_cases k
  · have hor := two_pow_lor_eq_add 1 (L - (2 ^ 1 - 1)) (by omega)
    norm_num at hor ⊢
    rw [(zeroRunCode_eq L).2.1 (by omega) (by omega), hor]
  · have hor := two_pow_lor_eq_add 2 (L - (2 ^ 2 - 1)) (by omega)
    norm_num at hor ⊢
    rw [(zeroRunCode_eq L).2.2.1 (by omega) (by omega), hor]
  · have hor := two_pow_lor_eq_add 3 (L - (2 ^ 3 - 1)) (by omega)
    norm_num at hor ⊢
    rw [(zeroRunCode_eq L).2.2.2.1 (by omega) (by omega), hor]
  · have hor := two_pow_lor_eq_add 4 (L - (2 ^ 4 - 1)) (by omega)
    norm_num at hor ⊢
    rw [(zeroRunCode_eq L).2.2.2.2.1 (by omega) (by omega), hor]
  · have hor := two_pow_lor_eq_add 5 (L - (2 ^ 5 - 1)) (by omega)
    norm_num at hor ⊢
    rw [(zeroRunCode_eq L).2.2.2.2.2.1 (by omega) (by omega), hor]
  · have hor := two_pow_lor_eq_add 6 (L - (2 ^ 6 - 1)) (by omega)
    norm_num at hor ⊢
    rw [(zeroRunCode_eq L).2.2.2.2.2.2.1 (by omega) (by omega), hor]
  · have hor := two_pow_lor_eq_add 7 (L - (2 ^ 7 - 1)) (by omega)
    norm_num at hor ⊢
    rw [(zeroRunCode_eq L).2.2.2.2.2.2.2.1 (by omega) (by omega), hor]
  · have hor := two_pow_lor_eq_add 8 (L - (2 ^ 8 - 1)) (by omega)
    norm_num at hor ⊢
    rw [(zeroRunCode_eq L).2.2.2.2.2.2.2.2.1 (by omega) (by omega), hor]
  · have hor := two_pow_lor_eq_add 9 (L - (2 ^ 9 - 1)) (by omega)
    norm_num at hor ⊢
    rw [(zeroRunCode_eq L).2.2.2.2.2.2.2.2.2.1 (by omega) (by omega), hor]
  · have hor := two_pow_lor_eq_add 10 (L - (2 ^ 10 - 1)) (by omega)
    norm_num at hor ⊢
    rw [(zeroRunCode_eq L).2.2.2.2.2.2.2.2.2.2.1 (by omega) (by omega), hor]
  · have hor := two_pow_lor_eq_add 11 (L - (2 ^ 11 - 1)) (by omega)
    norm_num at hor ⊢
    rw [(zeroRunCode_eq L).2.2.2.2.2.2.2.2.2.2.2.1 (by omega) (by omega), hor]
  · have hor := two_pow_lor_eq_add 12 (L - (2 ^ 12 - 1)) (by omega)
    norm_num at hor ⊢
    rw [(zeroRunCode_eq L).2.2.2.2.2.2.2.2.2.2.2.2.1 (by omega) (by omega), hor]

/-- `Decoder::parse` on a short unary symbol (mode 1). -/
theorem Decoder.parse_unary (s : Decoder) (p : Nat)
    (hlz : u32_leading_zeros s.symbol_data = p) (hp : p < 12)
    (hm : s.symbol_mode = true) :
    Decoder.parse s =
      { s with
        symbol_bits := s.symbol_bits - (p + 1)
        symbol_data := (s.symbol_data <<< (p + 1)) % 2 ^ 32
        queued_bits := p + 1
        queued_mode := true
        symbol_mode := false } := by
  obtain ⟨sb, qb, ob, sd, od, qm, sm, st⟩ := s
  dsimp only [] at hlz hm ⊢
  subst hm
  unfold Decoder.parse
  dsimp only []
  rw [hlz, if_pos hp]
  simp

/-- `Decoder::parse` on a short two-field symbol (mode 0). -/
theorem Decoder.parse_twofield (s : Decoder) (p : Nat)
    (hlz : u32_leading_zeros s.symbol_data = p) (hp : p < 12)
    (hm : s.symbol_mode = false) :
    Decoder.parse s =
      { s with
        symbol_bits := s.symbol_bits - 2 * (p + 1)
        symbol_data := (s.symbol_data <<< (2 * (p + 1))) % 2 ^ 32
        queued_bits :=
          ((s.symbol_data >>> (32 - 2 * (p + 1))) % 2 ^ 16 &&&
            ((1 <<< (p + 1)) - 1)) + ((1 <<< (p + 1)) - 1)
        queued_mode := false
        symbol_mode := true } := by
  have hmask : 0 < (1 <<< (p + 1)) - 1 := by
    rw [Nat.one_shiftLeft]
    have : 1 < 2 ^ (p + 1) := Nat.one_lt_two_pow (by omega)
    omega
  obtain ⟨sb, qb, ob, sd, od, qm, sm, st⟩ := s
  dsimp only [] at hlz hm ⊢
  subst hm
  unfold Decoder.parse
  dsimp only []
  rw [hlz, if_pos hp]
  simp only [Bool.false_eq_true, if_false]
  simp [hmask]

/-- `Decoder::parse` on a long symbol that is not a marker. -/
theorem Decoder.parse_long (s : Decoder) (v : Nat)
    (hlz : 12 ≤ u32_leading_zeros s.symbol_data)
    (hv : s.symbol_data >>> 8 = v) (hv12 : v < 2 ^ 12)
    (h1 : v ≠ 0xFFF) (h2 : v ≠ 0xFFE) :
    Decoder.parse s =
      { s with
        symbol_bits := s.symbol_bits - 24
        symbol_data := (s.symbol_data <<< 24) % 2 ^ 32
        queued_bits := if s.symbol_mode then v + 13 else v + 8191
        queued_mode := s.symbol_mode
        symbol_mode :=
          if v = 0xFFD then s.symbol_mode else !s.symbol_mode } := by
  have hpay : s.symbol_data >>> 8 % 2 ^ 16 &&& 0xFFF = v := by
    rw [hv, Nat.mod_eq_of_lt (by omega),
      show (0xFFF : Nat) = 2 ^ 12 - 1 by norm_num,
      Nat.and_pow_two_sub_one_eq_mod, Nat.mod_eq_of_lt hv12]
  obtain ⟨sb, qb, ob, sd, od, qm, sm, st⟩ := s
  dsimp only [] at hlz hv hpay ⊢
  unfold Decoder.parse
  dsimp only []
  rw [if_neg (by omega), hpay, if_neg h1, if_neg h2]
  by_cases hd : v = 0xFFD <;> cases sm <;> simp [hd]

/-- `Decoder::parse` on the end-of-stream marker. -/
theorem Decoder.parse_eos (s : Decoder)
    (hlz : 12 ≤ u32_leading_zeros s.symbol_data)
    (hv : s.symbol_data >>> 8 = 0xFFF) :
    Decoder.parse s =
      { s with
        symbol_bits := s.symbol_bits - 24
        symbol_data := (s.symbol_data <<< 24) % 2 ^ 32
        symbol_mode := !s.symbol_mode
        symbol_term := true } := by
  have hpay : s.symbol_data >>> 8 % 2 ^ 16 &&& 0xFFF = 0xFFF := by
    rw [hv, Nat.mod_eq_of_lt (by norm_num),
      show (0xFFF : Nat) = 2 ^ 12 - 1 by norm_num,
      Nat.and_pow_two_sub_one_eq_mod, Nat.mod_eq_of_lt (by norm_num)]
  obtain ⟨sb, qb, ob, sd, od, qm, sm, st⟩ := s
  dsimp only [] at hlz hv hpay ⊢
  unfold Decoder.parse
  dsimp only []
  rw [if_neg (by omega), hpay, if_pos rfl]
  simp

/-- `Decoder::parse` on the reserved no-op long symbol. -/
theorem Decoder.parse_ffe (s : Decoder)
    (hlz : 12 ≤ u32_leading_zeros s.symbol_data)
    (hv : s.symbol_data >>> 8 = 0xFFE) :
    Decoder.parse s =
      { s with
        symbol_bits := s.symbol_bits - 24
        symbol_data := (s.symbol_data <<< 24) % 2 ^ 32
        symbol_mode := !s.symbol_mode } := by
  have hpay : s.symbol_data >>> 8 % 2 ^ 16 &&& 0xFFF = 0xFFE := by
    rw [hv, Nat.mod_eq_of_lt (by norm_num),
      show (0xFFF : Nat) = 2 ^ 12 - 1 by norm_num,
      Nat.and_pow_two_sub_one_eq_mod, Nat.mod_eq_of_lt (by norm_num)]
  obtain ⟨sb, qb, ob, sd, od, qm, sm, st⟩ := s
  dsimp only [] at hlz hv hpay ⊢
  unfold Decoder.parse
  dsimp only []
  rw [if_neg (by omega), hpay, if_neg (by norm_num), if_pos rfl]
  simp

/-- One-step unfolding of the decoder's filling loop. -/
theorem Decoder.fillGo_succ (g : Nat) (s : Decoder) (input : List Nat)
    (cl : Nat) :
    Decoder.fillGo (g + 1) s input cl =
      if s.symbol_bits < 24 then
        match input.get? cl with
        | none => (s, cl, true)
        | some b =>
          Decoder.fillGo g
            { s with
              symbol_data :=
                s.symbol_data ||| (b % 256) <<< (24 - s.symbol_bits)
              symbol_bits := s.symbol_bits + 8 }
            input (cl + 1)
      else (s, cl, false) := rfl

/-- The filling loop pulls bytes until the window holds at least 24 valid
bits, transferring stream bits from the input into the window. -/
theorem Decoder.fillGo_spec (g : Nat) :
    ∀ (s : Decoder) (Y : List Nat) (cl : Nat),
      s.symbol_bits ≤ 31 → s.symbol_data < 2 ^ 32 →
      s.symbol_data % 2 ^ (32 - s.symbol_bits) = 0 → cl ≤ Y.length →
      24 ≤ s.symbol_bits + 8 * (Y.length - cl) →
      24 ≤ s.symbol_bits + 8 * g →
      ∃ s1 cl1, Decoder.fillGo g s Y cl = (s1, cl1, false) ∧
        24 ≤ s1.symbol_bits ∧ s1.symbol_bits ≤ 31 ∧
        s1.symbol_data < 2 ^ 32 ∧
        s1.symbol_data % 2 ^ (32 - s1.symbol_bits) = 0 ∧
        cl1 ≤ Y.length ∧
        winBits 32 s1.symbol_bits s1.symbol_data ++
            bitsOfBytes (Y.drop cl1) =
          winBits 32 s.symbol_bits s.symbol_data ++
            bitsOfBytes (Y.drop cl) ∧
        s1.symbol_bits + 8 * (Y.length - cl1) =
          s.symbol_bits + 8 * (Y.length - cl) ∧
        (s1.queued_bits, s1.output_bits, s1.output_data, s1.queued_mode,
          s1.symbol_mode, s1.symbol_term) =
          (s.queued_bits, s.output_bits, s.output_data, s.queued_mode,
            s.symbol_mode, s.symbol_term) := by
  induction g with
  | zero =>
    intro s Y cl h31 hlt hlow hcl hava hgas
    exact ⟨s, cl, rfl, by omega, h31, hlt, hlow, hcl, rfl, rfl, rfl⟩
  | succ g ih =>
    intro s Y cl h31 hlt hlow hcl hava hgas
    by_cases hsb : s.symbol_bits < 24
    · have hclY : cl < Y.length := by omega
      have hget : Y.get? cl = some (getElem Y cl hclY) := by
        rw [List.get?_eq_getElem?, List.getElem?_eq_getElem hclY]
      have hpat : getElem Y cl hclY % 256 < 2 ^ 8 := by
        have := Nat.mod_lt (getElem Y cl hclY) (show 0 < 256 by norm_num)
        omega
      have hshift : 24 - s.symbol_bits = 32 - s.symbol_bits - 8 := by omega
      have hwin :
          winBits 32 (s.symbol_bits + 8)
              (s.symbol_data |||
                (getElem Y cl hclY % 256) <<< (24 - s.symbol_bits)) =
            winBits 32 s.symbol_bits s.symbol_data ++
              bitsBE 8 (getElem Y cl hclY) := by
        rw [hshift,
          winBits_or_append 32 s.symbol_bits 8 (getElem Y cl hclY % 256)
            s.symbol_data (by omega) hlow hpat,
          show (256 : Nat) = 2 ^ 8 by norm_num, bitsBE_mod]
      have hdropY : bitsOfBytes (Y.drop cl) =
          bitsBE 8 (getElem Y cl hclY) ++ bitsOfBytes (Y.drop (cl + 1)) := by
        rw [List.drop_eq_getElem_cons hclY, bitsOfBytes_cons]
      obtain ⟨s1, cl1, heq, hc1, hc2, hc3, hc4, hc5, hc6, hc7, hc8⟩ :=
        ih { s with
              symbol_data :=
                s.symbol_data |||
                  (getElem Y cl hclY % 256) <<< (24 - s.symbol_bits)
              symbol_bits := s.symbol_bits + 8 } Y (cl + 1)
          (by dsimp only []; omega)
          (by
            dsimp only []
            rw [hshift]
            exact winBits_or_lt 32 s.symbol_bits 8 _ s.symbol_data
              (by omega) hlt hpat)
          (by
            dsimp only []
            rw [hshift]
            exact winBits_or_low 32 s.symbol_bits 8 _ s.symbol_data
              (by omega) hlow)
          (by omega) (by dsimp only []; omega) (by dsimp only []; omega)
      refine ⟨s1, cl1, ?_, hc1, hc2, hc3, hc4, hc5, ?_, by
        dsimp only [] at hc7
        omega, by
        dsimp only [] at hc8
        exact hc8⟩
      · rw [Decoder.fillGo_succ, if_pos hsb, hget]
        exact heq
      · rw [hc6]
        dsimp only []
        rw [hwin, hdropY, List.append_assoc]
    · refine ⟨s, cl, ?_, by omega, h31, hlt, hlow, hcl, rfl, rfl, rfl⟩
      rw [Decoder.fillGo_succ, if_neg hsb]

/-- The `fill` stage of `Decoder::consume` always succeeds while at least
24 stream bits remain. -/
theorem Decoder.fill_spec (s : Decoder) (Y : List Nat) (cl : Nat)
    (h31 : s.symbol_bits ≤ 31) (hlt : s.symbol_data < 2 ^ 32)
    (hlow : s.symbol_data % 2 ^ (32 - s.symbol_bits) = 0)
    (hcl : cl ≤ Y.length)
    (hava : 24 ≤ s.symbol_bits + 8 * (Y.length - cl)) :
    ∃ s1 cl1, Decoder.fill s Y cl = (s1, cl1, false) ∧
      24 ≤ s1.symbol_bits ∧ s1.symbol_bits ≤ 31 ∧
      s1.symbol_data < 2 ^ 32 ∧
      s1.symbol_data % 2 ^ (32 - s1.symbol_bits) = 0 ∧
      cl1 ≤ Y.length ∧
      winBits 32 s1.symbol_bits s1.symbol_data ++
          bitsOfBytes (Y.drop cl1) =
        winBits 32 s.symbol_bits s.symbol_data ++
          bitsOfBytes (Y.drop cl) ∧
      s1.symbol_bits + 8 * (Y.length - cl1) =
        s.symbol_bits + 8 * (Y.length - cl) ∧
      (s1.queued_bits, s1.output_bits, s1.output_data, s1.queued_mode,
        s1.symbol_mode, s1.symbol_term) =
        (s.queued_bits, s.output_bits, s.output_data, s.queued_mode,
          s.symbol_mode, s.symbol_term) :=
  Decoder.fillGo_spec 3 s Y cl h31 hlt hlow hcl hava (by omega)

theorem codeRuns_cons_true (r : Nat) (rest : List Nat) :
    codeRuns true (r :: rest) = oneRunCode r ++ codeRuns false rest := rfl

theorem codeRuns_cons_false (r : Nat) (rest : List Nat) :
    codeRuns false (r :: rest) = zeroRunCode r ++ codeRuns true rest := rfl

theorem runsBits_cons_true (r : Nat) (rest : List Nat) :
    runsBits true (r :: rest) =
      List.replicate r true ++ runsBits false rest := rfl

theorem runsBits_cons_false (r : Nat) (rest : List Nat) :
    runsBits false (r :: rest) =
      List.replicate r false ++ runsBits true rest := rfl

/-- The decoder loop invariant: the window plus the unread input spell the
not-yet-parsed code stream (up to the end-of-stream marker and `p` padding
bits), and the written bytes, the partial output byte, the queued run and
the not-yet-parsed runs together spell the original payload `b`. -/
def DecInv (b Y : List Nat) (p : Nat) (s : Decoder) (cl : Nat)
    (out : List Nat) : Prop :=
  s.symbol_term = false ∧
  cl ≤ Y.length ∧
  s.symbol_bits ≤ 31 ∧
  s.symbol_data < 2 ^ 32 ∧
  s.symbol_data % 2 ^ (32 - s.symbol_bits) = 0 ∧
  s.output_bits ≤ 8 ∧
  s.output_data < 2 ^ s.output_bits ∧
  (∀ x ∈ out, x < 256) ∧
  ∃ Trem : List Nat,
    winBits 32 s.symbol_bits s.symbol_data ++ bitsOfBytes (Y.drop cl) =
      codeRuns s.symbol_mode Trem ++ bitsBE 24 0xFFF ++
        List.replicate p false ∧
    bitsOfBytes out ++ bitsBE s.output_bits s.output_data ++
        List.replicate s.queued_bits s.queued_mode ++
        runsBits s.symbol_mode Trem = bitsOfBytes b

/-- Shared facts available after a successful `fill` inside
`Decoder::consume`. -/
def FillOut (b Y : List Nat) (s s1 : Decoder) (cl cl1 : Nat)
    (out : List Nat) : Prop :=
  s.symbol_term = false ∧ s.queued_bits = 0 ∧
  s.output_bits ≤ 8 ∧ s.output_data < 2 ^ s.output_bits ∧
  (∀ x ∈ out, x < 256) ∧
  24 ≤ s1.symbol_bits ∧ s1.symbol_bits ≤ 31 ∧
  s1.symbol_data < 2 ^ 32 ∧
  s1.symbol_data % 2 ^ (32 - s1.symbol_bits) = 0 ∧ cl1 ≤ Y.length ∧
  s1.symbol_bits + 8 * (Y.length - cl1) =
    s.symbol_bits + 8 * (Y.length - cl) ∧
  s1.queued_bits = s.queued_bits ∧ s1.output_bits = s.output_bits ∧
  s1.output_data = s.output_data ∧ s1.queued_mode = s.queued_mode ∧
  s1.symbol_mode = s.symbol_mode ∧ s1.symbol_term = s.symbol_term

/-- Re-establish the decoder invariant after a symbol of width `wd` has
been parsed out of the window. -/
theorem DecInv_step (b Y : List Nat) (p : Nat) (s1 : Decoder) (cl1 : Nat)
    (out : List Nat) (wd qb2 : Nat) (qm2 sm2 : Bool) (Trem2 : List Nat)
    (hterm : s1.symbol_term = false) (hcl1 : cl1 ≤ Y.length)
    (h31b : s1.symbol_bits ≤ 31)
    (hlow1 : s1.symbol_data % 2 ^ (32 - s1.symbol_bits) = 0)
    (hwd : wd ≤ s1.symbol_bits)
    (hob : s1.output_bits ≤ 8) (hod : s1.output_data < 2 ^ s1.output_bits)
    (houtlt : ∀ x ∈ out, x < 256)
    (hadv : winBits 32 (s1.symbol_bits - wd)
        ((s1.symbol_data <<< wd) % 2 ^ 32) ++ bitsOfBytes (Y.drop cl1) =
      codeRuns sm2 Trem2 ++ bitsBE 24 0xFFF ++ List.replicate p false)
    (hout2 : bitsOfBytes out ++ bitsBE s1.output_bits s1.output_data ++
        List.replicate qb2 qm2 ++ runsBits sm2 Trem2 = bitsOfBytes b) :
    DecInv b Y p
      { symbol_bits := s1.symbol_bits - wd
        queued_bits := qb2
        output_bits := s1.output_bits
        symbol_data := (s1.symbol_data <<< wd) % 2 ^ 32
        output_data := s1.output_data
        queued_mode := qm2
        symbol_mode := sm2
        symbol_term := s1.symbol_term } cl1 out :=
  ⟨hterm, hcl1, by dsimp only []; omega,
    Nat.mod_lt _ (by norm_num),
    winBits_shl_low 32 s1.symbol_bits wd s1.symbol_data hwd (by omega)
      hlow1,
    hob, hod, houtlt, Trem2, hadv, hout2⟩

/-- Parsing a unary mode-1 symbol of length `L`. -/
theorem Decoder.leaf_one_unary (b Y : List Nat) (p : Nat) (s s1 : Decoder)
    (cl cl1 : Nat) (out : List Nat) (L : Nat) (rest : List Nat)
    (hfo : FillOut b Y s s1 cl cl1 out) (hsm : s.symbol_mode = true)
    (hL1 : 1 ≤ L) (hL12 : L ≤ 12)
    (hstream1 : winBits 32 s1.symbol_bits s1.symbol_data ++
        bitsOfBytes (Y.drop cl1) =
      bitsBE L 1 ++ (codeRuns false rest ++ (bitsBE 24 0xFFF ++
        List.replicate p false)))
    (hout : bitsOfBytes out ++ bitsBE s.output_bits s.output_data ++
        List.replicate L true ++ runsBits false rest = bitsOfBytes b) :
    (Decoder.parse s1).output_bits = s.output_bits ∧
    (Decoder.parse s1).symbol_term = false ∧
    DecInv b Y p (Decoder.parse s1) cl1 out ∧
    (Decoder.parse s1).symbol_bits + 8 * (Y.length - cl1) + 1 ≤
      s.symbol_bits + 8 * (Y.length - cl) := by
  obtain ⟨hterm, hqb, hobS, hodS, houtlt, h24, h31b, hlt1, hlow1, hcl1,
    hsum1, hqb1, hob1, hod1, hqm1, hsm1, hst1⟩ := hfo
  have hv := stream_top L (by omega) (by omega) hlt1
    (Nat.one_lt_two_pow (by omega)) hstream1
  have hlz := u32lz_of_top hlt1 (by omega) (by omega : L - 1 < L) hv
    (by rw [Nat.sub_self]; norm_num)
    (by rw [show L - (L - 1) = 1 from by omega]; norm_num)
  have hsmtrue : s1.symbol_mode = true := by rw [hsm1, hsm]
  have hparse := Decoder.parse_unary s1 (L - 1) hlz (by omega) hsmtrue
  rw [show L - 1 + 1 = L from by omega] at hparse
  have hadv := stream_advance L (by omega) (by omega)
    (bitsBE_length L 1) hstream1
  rw [hparse]
  refine ⟨hob1, hst1.trans hterm, ?_, ?_⟩
  · exact DecInv_step b Y p s1 cl1 out L L true false rest
      (hst1.trans hterm) hcl1 h31b hlow1 (by omega)
      (by rw [hob1]; exact hobS) (by rw [hob1, hod1]; exact hodS) houtlt
      (by simp only [List.append_assoc]; exact hadv)
      (by rw [hob1, hod1]; exact hout)
  · dsimp only []
    omega

/-- Parsing a long mode-1 symbol for a run of length 13 to 4105. -/
theorem Decoder.leaf_one_long (b Y : List Nat) (p : Nat) (s s1 : Decoder)
    (cl cl1 : Nat) (out : List Nat) (L : Nat) (rest : List Nat)
    (hfo : FillOut b Y s s1 cl cl1 out) (hsm : s.symbol_mode = true)
    (hL1 : 13 ≤ L) (hL2 : L ≤ 4105)
    (hstream1 : winBits 32 s1.symbol_bits s1.symbol_data ++
        bitsOfBytes (Y.drop cl1) =
      bitsBE 24 (L - 13) ++ (codeRuns false rest ++ (bitsBE 24 0xFFF ++
        List.replicate p false)))
    (hout : bitsOfBytes out ++ bitsBE s.output_bits s.output_data ++
        List.replicate L true ++ runsBits false rest = bitsOfBytes b) :
    (Decoder.parse s1).output_bits = s.output_bits ∧
    (Decoder.parse s1).symbol_term = false ∧
    DecInv b Y p (Decoder.parse s1) cl1 out ∧
    (Decoder.parse s1).symbol_bits + 8 * (Y.length - cl1) + 1 ≤
      s.symbol_bits + 8 * (Y.length - cl) := by
  obtain ⟨hterm, hqb, hobS, hodS, houtlt, h24, h31b, hlt1, hlow1, hcl1,
    hsum1, hqb1, hob1, hod1, hqm1, hsm1, hst1⟩ := hfo
  have hv := stream_top 24 (by omega) (by omega) hlt1
    (by omega : L - 13 < 2 ^ 24) hstream1
  have hlz := u32lz_ge12 (by norm_num) hv (by omega : L - 13 < 2 ^ 12)
    (by norm_num) (by norm_num)
  have hsmtrue : s1.symbol_mode = true := by rw [hsm1, hsm]
  have hparse := Decoder.parse_long s1 (L - 13) hlz hv (by omega)
    (by omega) (by omega)
  rw [hsmtrue, if_pos rfl, if_neg (by omega : ¬ (L - 13 = 0xFFD)),
    Bool.not_true, show L - 13 + 13 = L from by omega] at hparse
  have hadv := stream_advance 24 (by omega) (by omega)
    (bitsBE_length 24 (L - 13)) hstream1
  rw [hparse]
  refine ⟨hob1, hst1.trans hterm, ?_, ?_⟩
  · exact DecInv_step b Y p s1 cl1 out 24 L true false rest
      (hst1.trans hterm) hcl1 h31b hlow1 (by omega)
      (by rw [hob1]; exact hobS) (by rw [hob1, hod1]; exact hodS) houtlt
      (by simp only [List.append_assoc]; exact hadv)
      (by rw [hob1, hod1]; exact hout)
  · dsimp only []
    omega

/-- Parsing a mode-1 continuation symbol (run longer than 4105). -/
theorem Decoder.leaf_one_cont (b Y : List Nat) (p : Nat) (s s1 : Decoder)
    (cl cl1 : Nat) (out : List Nat) (L : Nat) (rest : List Nat)
    (hfo : FillOut b Y s s1 cl cl1 out) (hsm : s.symbol_mode = true)
    (hL1 : 4106 ≤ L)
    (hstream1 : winBits 32 s1.symbol_bits s1.symbol_data ++
        bitsOfBytes (Y.drop cl1) =
      bitsBE 24 0xFFD ++ (oneRunCode (L - 4106) ++
        (codeRuns false rest ++ (bitsBE 24 0xFFF ++
          List.replicate p false))))
    (hout : bitsOfBytes out ++ bitsBE s.output_bits s.output_data ++
        List.replicate 4106 true ++
        runsBits true ((L - 4106) :: rest) = bitsOfBytes b) :
    (Decoder.parse s1).output_bits = s.output_bits ∧
    (Decoder.parse s1).symbol_term = false ∧
    DecInv b Y p (Decoder.parse s1) cl1 out ∧
    (Decoder.parse s1).symbol_bits + 8 * (Y.length - cl1) + 1 ≤
      s.symbol_bits + 8 * (Y.length - cl) := by
  obtain ⟨hterm, hqb, hobS, hodS, houtlt, h24, h31b, hlt1, hlow1, hcl1,
    hsum1, hqb1, hob1, hod1, hqm1, hsm1, hst1⟩ := hfo
  have hv := stream_top 24 (by omega) (by omega) hlt1
    (by norm_num : (0xFFD : Nat) < 2 ^ 24) hstream1
  have hlz := u32lz_ge12 (by norm_num) hv
    (by norm_num : (0xFFD : Nat) < 2 ^ 12) (by norm_num) (by norm_num)
  have hsmtrue : s1.symbol_mode = true := by rw [hsm1, hsm]
  have hparse := Decoder.parse_long s1 0xFFD hlz hv (by norm_num)
    (by norm_num) (by norm_num)
  rw [hsmtrue, if_pos rfl, if_pos rfl,
    show (0xFFD + 13 : Nat) = 4106 from by norm_num] at hparse
  have hadv := stream_advance 24 (by omega) (by omega)
    (bitsBE_length 24 0xFFD) hstream1
  rw [hparse]
  refine ⟨hob1, hst1.trans hterm, ?_, ?_⟩
  · exact DecInv_step b Y p s1 cl1 out 24 4106 true true
      ((L - 4106) :: rest) (hst1.trans hterm) hcl1 h31b hlow1 (by omega)
      (by rw [hob1]; exact hobS) (by rw [hob1, hod1]; exact hodS) houtlt
      (by
        rw [codeRuns_cons_true]
        simp only [List.append_assoc]
        exact hadv)
      (by rw [hob1, hod1]; exact hout)
  · dsimp only []
    omega

/-- Parsing the no-op symbol standing for an empty mode-1 run. -/
theorem Decoder.leaf_one_ffe (b Y : List Nat) (p : Nat) (s s1 : Decoder)
    (cl cl1 : Nat) (out : List Nat) (rest : List Nat)
    (hfo : FillOut b Y s s1 cl cl1 out) (hsm : s.symbol_mode = true)
    (hstream1 : winBits 32 s1.symbol_bits s1.symbol_data ++
        bitsOfBytes (Y.drop cl1) =
      bitsBE 24 0xFFE ++ (codeRuns false rest ++ (bitsBE 24 0xFFF ++
        List.replicate p false)))
    (hout : bitsOfBytes out ++ bitsBE s.output_bits s.output_data ++
        runsBits false rest = bitsOfBytes b) :
    (Decoder.parse s1).output_bits = s.output_bits ∧
    (Decoder.parse s1).symbol_term = false ∧
    DecInv b Y p (Decoder.parse s1) cl1 out ∧
    (Decoder.parse s1).symbol_bits + 8 * (Y.length - cl1) + 1 ≤
      s.symbol_bits + 8 * (Y.length - cl) := by
  obtain ⟨hterm, hqb, hobS, hodS, houtlt, h24, h31b, hlt1, hlow1, hcl1,
    hsum1, hqb1, hob1, hod1, hqm1, hsm1, hst1⟩ := hfo
  have hv := stream_top 24 (by omega) (by omega) hlt1
    (by norm_num : (0xFFE : Nat) < 2 ^ 24) hstream1
  have hlz := u32lz_ge12 (by norm_num) hv
    (by norm_num : (0xFFE : Nat) < 2 ^ 12) (by norm_num) (by norm_num)
  have hsmtrue : s1.symbol_mode = true := by rw [hsm1, hsm]
  have hparse := Decoder.parse_ffe s1 hlz hv
  rw [hsmtrue, Bool.not_true, hqb1, hqb, hqm1] at hparse
  have hadv := stream_advance 24 (by omega) (by omega)
    (bitsBE_length 24 0xFFE) hstream1
  rw [hparse]
  refine ⟨hob1, hst1.trans hterm, ?_, ?_⟩
  · exact DecInv_step b Y p s1 cl1 out 24 0 s.queued_mode false rest
      (hst1.trans hterm) hcl1 h31b hlow1 (by omega)
      (by rw [hob1]; exact hobS) (by rw [hob1, hod1]; exact hodS) houtlt
      (by simp only [List.append_assoc]; exact hadv)
      (by
        rw [hob1, hod1]
        simp only [List.replicate_zero, List.append_nil]
        exact hout)
  · dsimp only []
    omega

/-- Parsing the no-op symbol standing for an empty mode-0 run. -/
theorem Decoder.leaf_zero_ffe (b Y : List Nat) (p : Nat) (s s1 : Decoder)
    (cl cl1 : Nat) (out : List Nat) (rest : List Nat)
    (hfo : FillOut b Y s s1 cl cl1 out) (hsm : s.symbol_mode = false)
    (hstream1 : winBits 32 s1.symbol_bits s1.symbol_data ++
        bitsOfBytes (Y.drop cl1) =
      bitsBE 24 0xFFE ++ (codeRuns true rest ++ (bitsBE 24 0xFFF ++
        List.replicate p false)))
    (hout : bitsOfBytes out ++ bitsBE s.output_bits s.output_data ++
        runsBits true rest = bitsOfBytes b) :
    (Decoder.parse s1).output_bits = s.output_bits ∧
    (Decoder.parse s1).symbol_term = false ∧
    DecInv b Y p (Decoder.parse s1) cl1 out ∧
    (Decoder.parse s1).symbol_bits + 8 * (Y.length - cl1) + 1 ≤
      s.symbol_bits + 8 * (Y.length - cl) := by
  obtain ⟨hterm, hqb, hobS, hodS, houtlt, h24, h31b, hlt1, hlow1, hcl1,
    hsum1, hqb1, hob1, hod1, hqm1, hsm1, hst1⟩ := hfo
  have hv := stream_top 24 (by omega) (by omega) hlt1
    (by norm_num : (0xFFE : Nat) < 2 ^ 24) hstream1
  have hlz := u32lz_ge12 (by norm_num) hv
    (by norm_num : (0xFFE : Nat) < 2 ^ 12) (by norm_num) (by norm_num)
  have hsmfalse : s1.symbol_mode = false := by rw [hsm1, hsm]
  have hparse := Decoder.parse_ffe s1 hlz hv
  rw [hsmfalse, Bool.not_false, hqb1, hqb, hqm1] at hparse
  have hadv := stream_advance 24 (by omega) (by omega)
    (bitsBE_length 24 0xFFE) hstream1
  rw [hparse]
  refine ⟨hob1, hst1.trans hterm, ?_, ?_⟩
  · exact DecInv_step b Y p s1 cl1 out 24 0 s.queued_mode true rest
      (hst1.trans hterm) hcl1 h31b hlow1 (by omega)
      (by rw [hob1]; exact hobS) (by rw [hob1, hod1]; exact hodS) houtlt
      (by simp only [List.append_assoc]; exact hadv)
      (by
        rw [hob1, hod1]
        simp only [List.replicate_zero, List.append_nil]
        exact hout)
  · dsimp only []
    omega

/-- Parsing a two-field mode-0 symbol for a run of length 1 to 8190. -/
theorem Decoder.leaf_zero_band (b Y : List Nat) (p : Nat) (s s1 : Decoder)
    (cl cl1 : Nat) (out : List Nat) (L : Nat) (rest : List Nat)
    (hfo : FillOut b Y s s1 cl cl1 out) (hsm : s.symbol_mode = false)
    (hL1 : 1 ≤ L) (hL2 : L ≤ 8190)
    (hstream1 : winBits 32 s1.symbol_bits s1.symbol_data ++
        bitsOfBytes (Y.drop cl1) =
      zeroRunCode L ++ (codeRuns true rest ++ (bitsBE 24 0xFFF ++
        List.replicate p false)))
    (hout : bitsOfBytes out ++ bitsBE s.output_bits s.output_data ++
        List.replicate L false ++ runsBits true rest = bitsOfBytes b) :
    (Decoder.parse s1).output_bits = s.output_bits ∧
    (Decoder.parse s1).symbol_term = false ∧
    DecInv b Y p (Decoder.parse s1) cl1 out ∧
    (Decoder.parse s1).symbol_bits + 8 * (Y.length - cl1) + 1 ≤
      s.symbol_bits + 8 * (Y.length - cl) := by
  obtain ⟨hterm, hqb, hobS, hodS, houtlt, h24, h31b, hlt1, hlow1, hcl1,
    hsum1, hqb1, hob1, hod1, hqm1, hsm1, hst1⟩ := hfo
  have hk1 := Nat.log2_self_le (show L + 1 ≠ 0 by omega)
  have hk2 : L + 1 < 2 ^ (Nat.log2 (L + 1) + 1) := Nat.lt_log2_self
  have hkpos : 1 ≤ Nat.log2 (L + 1) := by
    by_contra hcon
    have hk0 : Nat.log2 (L + 1) = 0 := by omega
    rw [hk0] at hk2
    norm_num at hk2
    omega
  have hk12 : Nat.log2 (L + 1) ≤ 12 := by
    by_contra hcon
    have h13 : 13 ≤ Nat.log2 (L + 1) := by omega
    have := Nat.pow_le_pow_right (show 1 ≤ 2 by norm_num) h13
    omega
  have hps : 2 ^ (Nat.log2 (L + 1) + 1) = 2 * 2 ^ Nat.log2 (L + 1) := by
    rw [pow_succ]
    ring
  have hpk : 0 < 2 ^ Nat.log2 (L + 1) :=
    Nat.pos_pow_of_pos (Nat.log2 (L + 1)) (by norm_num)
  have hx : L - (2 ^ Nat.log2 (L + 1) - 1) < 2 ^ Nat.log2 (L + 1) := by
    omega
  have hv1 : 2 ^ Nat.log2 (L + 1) + (L - (2 ^ Nat.log2 (L + 1) - 1)) <
      2 ^ (Nat.log2 (L + 1) + 1) := by
    omega
  have h13b : 2 ^ (Nat.log2 (L + 1) + 1) ≤ 2 ^ 13 :=
    Nat.pow_le_pow_right (by norm_num) (by omega)
  have h2k : 2 ^ (Nat.log2 (L + 1) + 1) ≤ 2 ^ (2 * Nat.log2 (L + 1)) :=
    Nat.pow_le_pow_right (by norm_num) (by omega)
  rw [zeroRunCode_band (Nat.log2 (L + 1)) L hkpos hk12 (by omega)
    (by omega)] at hstream1
  have hv := stream_top (2 * Nat.log2 (L + 1)) (by omega) (by omega) hlt1
    (by omega) hstream1
  have hlz := u32lz_of_top hlt1 (by omega)
    (by omega : Nat.log2 (L + 1) - 1 < 2 * Nat.log2 (L + 1)) hv
    (by
      rw [show 2 * Nat.log2 (L + 1) - 1 - (Nat.log2 (L + 1) - 1) =
        Nat.log2 (L + 1) from by omega]
      omega)
    (by
      rw [show 2 * Nat.log2 (L + 1) - (Nat.log2 (L + 1) - 1) =
        Nat.log2 (L + 1) + 1 from by omega]
      exact hv1)
  have hsmfalse : s1.symbol_mode = false := by rw [hsm1, hsm]
  have hparse := Decoder.parse_twofield s1 (Nat.log2 (L + 1) - 1) hlz
    (by omega) hsmfalse
  rw [show Nat.log2 (L + 1) - 1 + 1 = Nat.log2 (L + 1) from by
    omega] at hparse
  have hcount : ((s1.symbol_data >>> (32 - 2 * Nat.log2 (L + 1))) % 2 ^ 16
      &&& ((1 <<< Nat.log2 (L + 1)) - 1)) +
      ((1 <<< Nat.log2 (L + 1)) - 1) = L := by
    rw [hv, Nat.one_shiftLeft, Nat.mod_eq_of_lt (by omega),
      Nat.and_pow_two_sub_one_eq_mod, Nat.add_mod_left,
      Nat.mod_eq_of_lt hx]
    omega
  rw [hcount] at hparse
  have hadv := stream_advance (2 * Nat.log2 (L + 1)) (by omega)
    (by omega) (bitsBE_length _ _) hstream1
  rw [hparse]
  refine ⟨hob1, hst1.trans hterm, ?_, ?_⟩
  · exact DecInv_step b Y p s1 cl1 out (2 * Nat.log2 (L + 1)) L false
      true rest (hst1.trans hterm) hcl1 h31b hlow1 (by omega)
      (by rw [hob1]; exact hobS) (by rw [hob1, hod1]; exact hodS) houtlt
      (by simp only [List.append_assoc]; exact hadv)
      (by rw [hob1, hod1]; exact hout)
  · dsimp only []
    omega

/-- Parsing a long mode-0 symbol for a run of length 8191 to 12283. -/
theorem Decoder.leaf_zero_long (b Y : List Nat) (p : Nat) (s s1 : Decoder)
    (cl cl1 : Nat) (out : List Nat) (L : Nat) (rest : List Nat)
    (hfo : FillOut b Y s s1 cl cl1 out) (hsm : s.symbol_mode = false)
    (hL1 : 8191 ≤ L) (hL2 : L ≤ 12283)
    (hstream1 : winBits 32 s1.symbol_bits s1.symbol_data ++
        bitsOfBytes (Y.drop cl1) =
      bitsBE 24 (L - 8191) ++ (codeRuns true rest ++ (bitsBE 24 0xFFF ++
        List.replicate p false)))
    (hout : bitsOfBytes out ++ bitsBE s.output_bits s.output_data ++
        List.replicate L false ++ runsBits true rest = bitsOfBytes b) :
    (Decoder.parse s1).output_bits = s.output_bits ∧
    (Decoder.parse s1).symbol_term = false ∧
    DecInv b Y p (Decoder.parse s1) cl1 out ∧
    (Decoder.parse s1).symbol_bits + 8 * (Y.length - cl1) + 1 ≤
      s.symbol_bits + 8 * (Y.length - cl) := by
  obtain ⟨hterm, hqb, hobS, hodS, houtlt, h24, h31b, hlt1, hlow1, hcl1,
    hsum1, hqb1, hob1, hod1, hqm1, hsm1, hst1⟩ := hfo
  have hv := stream_top 24 (by omega) (by omega) hlt1
    (by omega : L - 8191 < 2 ^ 24) hstream1
  have hlz := u32lz_ge12 (by norm_num) hv (by omega : L - 8191 < 2 ^ 12)
    (by norm_num) (by norm_num)
  have hsmfalse : s1.symbol_mode = false := by rw [hsm1, hsm]
  have hparse := Decoder.parse_long s1 (L - 8191) hlz hv (by omega)
    (by omega) (by omega)
  rw [hsmfalse, if_neg (by simp), if_neg (by omega : ¬ (L - 8191 = 0xFFD)),
    Bool.not_false, show L - 8191 + 8191 = L from by omega] at hparse
  have hadv := stream_advance 24 (by omega) (by omega)
    (bitsBE_length 24 (L - 8191)) hstream1
  rw [hparse]
  refine ⟨hob1, hst1.trans hterm, ?_, ?_⟩
  · exact DecInv_step b Y p s1 cl1 out 24 L false true rest
      (hst1.trans hterm) hcl1 h31b hlow1 (by omega)
      (by rw [hob1]; exact hobS) (by rw [hob1, hod1]; exact hodS) houtlt
      (by simp only [List.append_assoc]; exact hadv)
      (by rw [hob1, hod1]; exact hout)
  · dsimp only []
    omega

/-- Parsing a mode-0 continuation symbol (run longer than 12283). -/
theorem Decoder.leaf_zero_cont (b Y : List Nat) (p : Nat) (s s1 : Decoder)
    (cl cl1 : Nat) (out : List Nat) (L : Nat) (rest : List Nat)
    (hfo : FillOut b Y s s1 cl cl1 out) (hsm : s.symbol_mode = false)
    (hL1 : 12284 ≤ L)
    (hstream1 : winBits 32 s1.symbol_bits s1.symbol_data ++
        bitsOfBytes (Y.drop cl1) =
      bitsBE 24 0xFFD ++ (zeroRunCode (L - 12284) ++
        (codeRuns true rest ++ (bitsBE 24 0xFFF ++
          List.replicate p false))))
    (hout : bitsOfBytes out ++ bitsBE s.output_bits s.output_data ++
        List.replicate 12284 false ++
        runsBits false ((L - 12284) :: rest) = bitsOfBytes b) :
    (Decoder.parse s1).output_bits = s.output_bits ∧
    (Decoder.parse s1).symbol_term = false ∧
    DecInv b Y p (Decoder.parse s1) cl1 out ∧
    (Decoder.parse s1).symbol_bits + 8 * (Y.length - cl1) + 1 ≤
      s.symbol_bits + 8 * (Y.length - cl) := by
  obtain ⟨hterm, hqb, hobS, hodS, houtlt, h24, h31b, hlt1, hlow1, hcl1,
    hsum1, hqb1, hob1, hod1, hqm1, hsm1, hst1⟩ := hfo
  have hv := stream_top 24 (by omega) (by omega) hlt1
    (by norm_num : (0xFFD : Nat) < 2 ^ 24) hstream1
  have hlz := u32lz_ge12 (by norm_num) hv
    (by norm_num : (0xFFD : Nat) < 2 ^ 12) (by norm_num) (by norm_num)
  have hsmfalse : s1.symbol_mode = false := by rw [hsm1, hsm]
  have hparse := Decoder.parse_long s1 0xFFD hlz hv (by norm_num)
    (by norm_num) (by norm_num)
  rw [hsmfalse, if_neg (by simp), if_pos rfl,
    show (0xFFD + 8191 : Nat) = 12284 from by norm_num] at hparse
  have hadv := stream_advance 24 (by omega) (by omega)
    (bitsBE_length 24 0xFFD) hstream1
  rw [hparse]
  refine ⟨hob1, hst1.trans hterm, ?_, ?_⟩
  · exact DecInv_step b Y p s1 cl1 out 24 12284 false false
      ((L - 12284) :: rest) (hst1.trans hterm) hcl1 h31b hlow1 (by omega)
      (by rw [hob1]; exact hobS) (by rw [hob1, hod1]; exact hodS) houtlt
      (by
        rw [codeRuns_cons_false]
        simp only [List.append_assoc]
        exact hadv)
      (by rw [hob1, hod1]; exact hout)
  · dsimp only []
    omega

/-- Parsing the end-of-stream marker. -/
theorem Decoder.leaf_end (b Y : List Nat) (p : Nat) (s s1 : Decoder)
    (cl cl1 : Nat) (out : List Nat)
    (hfo : FillOut b Y s s1 cl cl1 out) (hp : p ≤ 7)
    (hstream1 : winBits 32 s1.symbol_bits s1.symbol_data ++
        bitsOfBytes (Y.drop cl1) =
      bitsBE 24 0xFFF ++ List.replicate p false)
    (hout : bitsOfBytes out ++ bitsBE s.output_bits s.output_data =
      bitsOfBytes b) :
    (Decoder.parse s1).output_bits = s.output_bits ∧
    (Decoder.parse s1).symbol_term = true ∧
    (Decoder.parse s1).symbol_data = 0 ∧
    (Decoder.parse s1).queued_bits = 0 ∧
    (Decoder.parse s1).output_bits ≤ 8 ∧
    (Decoder.parse s1).output_data <
      2 ^ (Decoder.parse s1).output_bits ∧
    bitsOfBytes out ++ bitsBE (Decoder.parse s1).output_bits
      (Decoder.parse s1).output_data = bitsOfBytes b := by
  obtain ⟨hterm, hqb, hobS, hodS, houtlt, h24, h31b, hlt1, hlow1, hcl1,
    hsum1, hqb1, hob1, hod1, hqm1, hsm1, hst1⟩ := hfo
  have hv := stream_top 24 (by omega) (by omega) hlt1
    (by norm_num : (0xFFF : Nat) < 2 ^ 24) hstream1
  have hlz := u32lz_ge12 (by norm_num) hv
    (by norm_num : (0xFFF : Nat) < 2 ^ 12) (by norm_num) (by norm_num)
  have hparse := Decoder.parse_eos s1 hlz hv
  rw [hqb1, hqb] at hparse
  have hadv := stream_advance 24 (by omega) (by omega)
    (bitsBE_length 24 0xFFF) hstream1
  have hlen2 := congrArg List.length hadv
  simp only [List.length_append, winBits_length, bitsOfBytes_length,
    List.length_replicate, List.length_drop] at hlen2
  have hdropnil : Y.drop cl1 = [] := List.drop_eq_nil_of_le (by omega)
  rw [hdropnil, bitsOfBytes_nil, List.append_nil] at hadv
  have hsbp : s1.symbol_bits - 24 = p := by omega
  rw [hsbp] at hadv
  have hsd2 : (s1.symbol_data <<< 24) % 2 ^ 32 = 0 := by
    have hlow2 := winBits_shl_low 32 s1.symbol_bits 24 s1.symbol_data
      h24 (by omega) hlow1
    rw [hsbp] at hlow2
    exact @winBits_zero_of_all_false 32 p
      ((s1.symbol_data <<< 24) % 2 ^ 32) (by omega)
      (Nat.mod_lt _ (by norm_num)) hlow2 hadv
  rw [hparse]
  exact ⟨hob1, rfl, hsd2, rfl, by rw [hob1]; exact hobS,
    by rw [hob1, hod1]; exact hodS, by rw [hob1, hod1]; exact hout⟩

/-- `Decoder::consume` with an empty run queue: it fills the window and
parses exactly one symbol, either advancing the invariant or reaching the
end-of-stream marker. -/
theorem Decoder.consume_parse (b Y : List Nat) (p : Nat) (s : Decoder)
    (cl : Nat) (out : List Nat) (hp : p ≤ 7)
    (hinv : DecInv b Y p s cl out) (hqb : s.queued_bits = 0) :
    ∃ s2 cl1, Decoder.consume s Y cl = (s2, cl1, false) ∧
      s2.output_bits = s.output_bits ∧
      ((s2.symbol_term = false ∧ DecInv b Y p s2 cl1 out ∧
          s2.symbol_bits + 8 * (Y.length - cl1) + 1 ≤
            s.symbol_bits + 8 * (Y.length - cl)) ∨
        (s2.symbol_term = true ∧ s2.symbol_data = 0 ∧
          s2.queued_bits = 0 ∧ s2.output_bits ≤ 8 ∧
          s2.output_data < 2 ^ s2.output_bits ∧
          bitsOfBytes out ++ bitsBE s2.output_bits s2.output_data =
            bitsOfBytes b)) := by
  obtain ⟨hterm, hcl, h31, hlt, hlow, hob, hod, houtlt, Trem, hstream,
    hout⟩ := hinv
  have hlens := congrArg List.length hstream
  simp only [List.length_append, winBits_length, bitsOfBytes_length,
    bitsBE_length, List.length_replicate, List.length_drop] at hlens
  obtain ⟨s1, cl1, hfill, h24, h31b, hlt1, hlow1, hcl1, hwin1, hsum1,
    hfields⟩ := Decoder.fill_spec s Y cl h31 hlt hlow hcl (by omega)
  simp only [Prod.mk.injEq] at hfields
  obtain ⟨hqb1, hob1, hod1, hqm1, hsm1, hst1⟩ := hfields
  have hcons : Decoder.consume s Y cl = (Decoder.parse s1, cl1, false) := by
    unfold Decoder.consume
    rw [if_pos ⟨hqb, hterm⟩, hfill]
  have hstream1 : winBits 32 s1.symbol_bits s1.symbol_data ++
      bitsOfBytes (Y.drop cl1) =
      codeRuns s.symbol_mode Trem ++ bitsBE 24 0xFFF ++
        List.replicate p false := by
    rw [hwin1]
    exact hstream
  have hfo : FillOut b Y s s1 cl cl1 out :=
    ⟨hterm, hqb, hob, hod, houtlt, h24, h31b, hlt1, hlow1, hcl1, hsum1,
      hqb1, hob1, hod1, hqm1, hsm1, hst1⟩
  cases Trem with
  | nil =>
    rw [codeRuns_nil] at hstream1
    simp only [List.nil_append] at hstream1
    rw [hqb, runsBits_nil] at hout
    simp only [List.replicate_zero, List.append_nil] at hout
    obtain ⟨e1, e2, e3, e4, e5, e6, e7⟩ :=
      Decoder.leaf_end b Y p s s1 cl cl1 out hfo hp hstream1 hout
    exact ⟨_, cl1, hcons, e1, Or.inr ⟨e2, e3, e4, e5, e6, e7⟩⟩
  | cons L rest =>
    rw [hqb] at hout
    simp only [List.replicate_zero, List.append_nil] at hout
    cases hsmv : s.symbol_mode with
    | true =>
      rw [hsmv, codeRuns_cons_true] at hstream1
      simp only [List.append_assoc] at hstream1
      rw [hsmv, runsBits_cons_true] at hout
      by_cases hL0 : L = 0
      · subst hL0
        rw [(oneRunCode_eq 0).1 rfl] at hstream1
        simp only [List.replicate_zero, List.nil_append] at hout
        obtain ⟨e1, e2, e3, e4⟩ := Decoder.leaf_one_ffe b Y p s s1 cl
          cl1 out rest hfo hsmv hstream1 hout
        exact ⟨_, cl1, hcons, e1, Or.inl ⟨e2, e3, e4⟩⟩
      · by_cases hL12 : L ≤ 12
        · rw [(oneRunCode_eq L).2.1 (by omega) hL12] at hstream1
          simp only [← List.append_assoc] at hout
          obtain ⟨e1, e2, e3, e4⟩ := Decoder.leaf_one_unary b Y p s s1
            cl cl1 out L rest hfo hsmv (by omega) hL12 hstream1 hout
          exact ⟨_, cl1, hcons, e1, Or.inl ⟨e2, e3, e4⟩⟩
        · by_cases hL4105 : L ≤ 4105
          · rw [(oneRunCode_eq L).2.2.1 (by omega) hL4105] at hstream1
            simp only [← List.append_assoc] at hout
            obtain ⟨e1, e2, e3, e4⟩ := Decoder.leaf_one_long b Y p s s1
              cl cl1 out L rest hfo hsmv (by omega) hL4105 hstream1 hout
            exact ⟨_, cl1, hcons, e1, Or.inl ⟨e2, e3, e4⟩⟩
          · rw [(oneRunCode_eq L).2.2.2 (by omega)] at hstream1
            simp only [List.append_assoc] at hstream1
            rw [show L = 4106 + (L - 4106) from by omega,
              List.replicate_add] at hout
            simp only [List.append_assoc] at hout
            rw [← runsBits_cons_true] at hout
            simp only [← List.append_assoc] at hout
            obtain ⟨e1, e2, e3, e4⟩ := Decoder.leaf_one_cont b Y p s s1
              cl cl1 out L rest hfo hsmv (by omega) hstream1 hout
            exact ⟨_, cl1, hcons, e1, Or.inl ⟨e2, e3, e4⟩⟩
    | false =>
      rw [hsmv, codeRuns_cons_false] at hstream1
      simp only [List.append_assoc] at hstream1
      rw [hsmv, runsBits_cons_false] at hout
      by_cases hL0 : L = 0
      · subst hL0
        rw [(zeroRunCode_eq 0).1 rfl] at hstream1
        simp only [List.replicate_zero, List.nil_append] at hout
        obtain ⟨e1, e2, e3, e4⟩ := Decoder.leaf_zero_ffe b Y p s s1 cl
          cl1 out rest hfo hsmv hstream1 hout
        exact ⟨_, cl1, hcons, e1, Or.inl ⟨e2, e3, e4⟩⟩
      · by_cases hL8190 : L ≤ 8190
        · simp only [← List.append_assoc] at hout
          obtain ⟨e1, e2, e3, e4⟩ := Decoder.leaf_zero_band b Y p s s1
            cl cl1 out L rest hfo hsmv (by omega) hL8190 hstream1 hout
          exact ⟨_, cl1, hcons, e1, Or.inl ⟨e2, e3, e4⟩⟩
        · by_cases hL12283 : L ≤ 12283
          · rw [(zeroRunCode_eq L).2.2.2.2.2.2.2.2.2.2.2.2.2.1
              (by omega) hL12283] at hstream1
            simp only [← List.append_assoc] at hout
            obtain ⟨e1, e2, e3, e4⟩ := Decoder.leaf_zero_long b Y p s s1
              cl cl1 out L rest hfo hsmv (by omega) hL12283 hstream1 hout
            exact ⟨_, cl1, hcons, e1, Or.inl ⟨e2, e3, e4⟩⟩
          · rw [(zeroRunCode_eq L).2.2.2.2.2.2.2.2.2.2.2.2.2.2
              (by omega)] at hstream1
            simp only [List.append_assoc] at hstream1
            rw [show L = 12284 + (L - 12284) from by omega,
              List.replicate_add] at hout
            simp only [List.append_assoc] at hout
            rw [← runsBits_cons_false] at hout
            simp only [← List.append_assoc] at hout
            obtain ⟨e1, e2, e3, e4⟩ := Decoder.leaf_zero_cont b Y p s s1
              cl cl1 out L rest hfo hsmv (by omega) hstream1 hout
            exact ⟨_, cl1, hcons, e1, Or.inl ⟨e2, e3, e4⟩⟩

/-- `Decoder::produce` under the invariant never suspends, preserves the
invariant, and strictly shrinks the output measure whenever run bits are
queued or a full byte is pending. -/
theorem Decoder.produce_spec (b Y : List Nat) (p : Nat) (s : Decoder)
    (cl : Nat) (out : List Nat) (cap : Nat)
    (hinv : DecInv b Y p s cl out) (hdcap : b.length ≤ cap) :
    ∃ s3 out3, Decoder.produce s cap out = (s3, out3, false) ∧
      DecInv b Y p s3 cl out3 ∧
      s3.symbol_bits = s.symbol_bits ∧ s3.symbol_term = s.symbol_term ∧
      24 * (b.length - out3.length) + 2 * (8 - s3.output_bits) ≤
        24 * (b.length - out.length) + 2 * (8 - s.output_bits) ∧
      (0 < s.queued_bits ∨ s.output_bits = 8 →
        24 * (b.length - out3.length) + 2 * (8 - s3.output_bits) + 1 ≤
          24 * (b.length - out.length) + 2 * (8 - s.output_bits)) := by
  obtain ⟨hterm, hcl, h31, hlt, hlow, hob, hod, houtlt, Trem, hstream,
    hout⟩ := hinv
  have hlentot := congrArg List.length hout
  simp only [List.length_append, bitsOfBytes_length, bitsBE_length,
    List.length_replicate] at hlentot
  unfold Decoder.produce
  by_cases hc1 : s.output_bits = 0 ∧ 8 ≤ s.queued_bits
  · obtain ⟨hob0, hqb8⟩ := hc1
    rw [if_pos ⟨hob0, hqb8⟩]
    dsimp only []
    have ht1 : min (s.queued_bits / 8) (cap - out.length) ≤
        s.queued_bits / 8 := Nat.min_le_left _ _
    have htpos : 0 < min (s.queued_bits / 8) (cap - out.length) := by
      simp only [Nat.lt_min]
      omega
    rw [if_neg (by omega)]
    refine ⟨_, _, rfl, ⟨hterm, hcl, h31, hlt, hlow, by
        dsimp only []
        omega, by
        dsimp only []
        rw [hob0] at hod ⊢
        exact hod, ?_, Trem, hstream, ?_⟩, rfl, rfl, ?_, ?_⟩
    · intro x hx
      rcases List.mem_append.mp hx with h | h
      · exact houtlt x h
      · rw [List.eq_of_mem_replicate h]
        cases s.queued_mode <;> norm_num
    · dsimp only []
      rw [bitsOfBytes_append]
      have hbrep : bitsOfBytes (List.replicate
          (min (s.queued_bits / 8) (cap - out.length))
          (if s.queued_mode then 0xFF else 0x00)) =
          List.replicate
            (8 * min (s.queued_bits / 8) (cap - out.length))
            s.queued_mode := by
        cases s.queued_mode
        · rw [if_neg (by norm_num)]
          exact bitsOfBytes_replicate_00 _
        · rw [if_pos rfl]
          exact bitsOfBytes_replicate_ff _
      rw [hbrep]
      rw [show s.queued_bits =
        8 * min (s.queued_bits / 8) (cap - out.length) +
          (s.queued_bits -
            min (s.queued_bits / 8) (cap - out.length) * 8) from by
          omega, List.replicate_add] at hout
      rw [hob0] at hout ⊢
      rw [show bitsBE 0 s.output_data = [] from rfl] at hout ⊢
      simp only [List.append_assoc, List.nil_append] at hout ⊢
      exact hout
    · dsimp only []
      rw [List.length_append, List.length_replicate]
      omega
    · intro h
      dsimp only []
      rw [List.length_append, List.length_replicate]
      omega
  · rw [if_neg hc1]
    by_cases hc2 : s.output_bits ≠ 8 ∧ s.queued_bits ≠ 0
    · obtain ⟨hob8, hqb0⟩ := hc2
      rw [if_pos ⟨hob8, hqb0⟩]
      dsimp only []
      have hapos : 0 < min (8 - s.output_bits) s.queued_bits := by
        simp only [Nat.lt_min]
        omega
      have hale : min (8 - s.output_bits) s.queued_bits ≤
          8 - s.output_bits := Nat.min_le_left _ _
      have hword : (if s.queued_mode then
          (1 <<< min (8 - s.output_bits) s.queued_bits) - 1 else 0) <
          2 ^ min (8 - s.output_bits) s.queued_bits := by
        cases s.queued_mode
        · rw [if_neg (by norm_num)]
          exact Nat.pos_pow_of_pos _ (by norm_num)
        · rw [if_pos rfl, Nat.one_shiftLeft]
          have := Nat.pos_pow_of_pos
            (min (8 - s.output_bits) s.queued_bits) (show 0 < 2 by
              norm_num)
          omega
      have hsh : s.output_data <<< min (8 - s.output_bits) s.queued_bits <
          2 ^ (s.output_bits + min (8 - s.output_bits) s.queued_bits) := by
        rw [Nat.shiftLeft_eq, pow_add]
        exact (Nat.mul_lt_mul_right
          (Nat.pos_pow_of_pos _ (by norm_num))).mpr hod
      have h28 : 2 ^ (s.output_bits +
          min (8 - s.output_bits) s.queued_bits) ≤ 2 ^ 8 :=
        Nat.pow_le_pow_right (by norm_num) (by omega)
      have hmod : (s.output_data <<<
          min (8 - s.output_bits) s.queued_bits) % 256 =
          s.output_data <<< min (8 - s.output_bits) s.queued_bits :=
        Nat.mod_eq_of_lt (by omega)
      have hrep : bitsBE (min (8 - s.output_bits) s.queued_bits)
          (if s.queued_mode then
            (1 <<< min (8 - s.output_bits) s.queued_bits) - 1 else 0) =
          List.replicate (min (8 - s.output_bits) s.queued_bits)
            s.queued_mode := by
        cases s.queued_mode
        · rw [if_neg (by norm_num)]
          exact bitsBE_zero _
        · rw [if_pos rfl, Nat.one_shiftLeft]
          exact bitsBE_all_ones _
      refine ⟨_, _, rfl, ⟨hterm, hcl, h31, hlt, hlow, by
          dsimp only []
          omega, by
          dsimp only []
          rw [hmod]
          exact nat_lor_lt_two_pow hsh (lt_of_lt_of_le hword
            (Nat.pow_le_pow_right (by norm_num) (by omega))),
          houtlt, Trem, hstream, ?_⟩, rfl, rfl, ?_, ?_⟩
      · dsimp only []
        rw [hmod, bitsBE_shl_or s.output_bits
          (min (8 - s.output_bits) s.queued_bits) s.output_data _ hod
          hword, hrep]
        rw [show s.queued_bits = min (8 - s.output_bits) s.queued_bits +
          (s.queued_bits - min (8 - s.output_bits) s.queued_bits) from by
            omega, List.replicate_add] at hout
        simp only [List.append_assoc] at hout ⊢
        exact hout
      · dsimp only []
        omega
      · intro h
        dsimp only []
        omega
    · rw [if_neg hc2]
      by_cases hc3 : s.output_bits = 8
      · rw [if_pos hc3]
        have houtlen : out.length < cap := by omega
        rw [if_pos houtlen]
        refine ⟨_, _, rfl, ⟨hterm, hcl, h31, hlt, hlow, by
            dsimp only []
            omega, by
            dsimp only []
            norm_num, ?_, Trem, hstream, ?_⟩, rfl, rfl, ?_, ?_⟩
        · intro x hx
          rcases List.mem_append.mp hx with h | h
          · exact houtlt x h
          · rw [List.mem_singleton] at h
            subst h
            rw [hc3] at hod
            omega
        · dsimp only []
          rw [bitsOfBytes_append, bitsOfBytes_cons, bitsOfBytes_nil,
            List.append_nil]
          rw [hc3] at hout
          rw [show bitsBE 0 0 = [] from rfl]
          simp only [List.append_assoc, List.nil_append] at hout ⊢
          exact hout
        · dsimp only []
          rw [List.length_append, List.length_singleton]
          omega
        · intro h
          dsimp only []
          rw [List.length_append, List.length_singleton]
          omega
      · rw [if_neg hc3]
        refine ⟨s, out, rfl, ⟨hterm, hcl, h31, hlt, hlow, hob, hod,
          houtlt, Trem, hstream, hout⟩, rfl, rfl, le_refl _, ?_⟩
        intro h
        exfalso
        rcases h with h | h
        · exact hc2 ⟨hc3, by omega⟩
        · exact hc3 h

/-- One-step unfolding of the decoder loop. -/
theorem Decoder.step_unfold (fuel : Nat) (s : Decoder) (input : List Nat)
    (cl cap : Nat) (out : List Nat) :
    Decoder.step (fuel + 1) s input cl cap out =
      match Decoder.consume s input cl with
      | (s1, cl1, true) => some (s1, cl1, out, .canConsume)
      | (s1, cl1, false) =>
        match Decoder.produce s1 cap out with
        | (s2, out2, true) => some (s2, cl1, out2, .canProduce)
        | (s2, out2, false) =>
          if s2.symbol_term then
            some (s2, cl1, out2,
              .terminated (s2.symbol_data != 0) (s2.output_bits != 0))
          else Decoder.step fuel s2 input cl1 cap out2 := rfl

/-- After the end-of-stream marker is parsed, one `produce` pass flushes
any pending byte and the decoder terminates cleanly with output `b`. -/
theorem Decoder.endgame (b : List Nat) (t : Decoder) (cap : Nat)
    (out : List Nat) (hdcap : b.length ≤ cap)
    (hb : ∀ x ∈ b, x < 256) (houtlt : ∀ x ∈ out, x < 256)
    (hterm : t.symbol_term = true) (hsd : t.symbol_data = 0)
    (hqb : t.queued_bits = 0) (hob : t.output_bits ≤ 8)
    (hod : t.output_data < 2 ^ t.output_bits)
    (hout : bitsOfBytes out ++ bitsBE t.output_bits t.output_data =
      bitsOfBytes b) :
    ∃ s3, Decoder.produce t cap out = (s3, b, false) ∧
      s3.symbol_term = true ∧ s3.symbol_data = 0 ∧
      s3.output_bits = 0 := by
  have hlen := congrArg List.length hout
  simp only [List.length_append, bitsOfBytes_length, bitsBE_length]
    at hlen
  unfold Decoder.produce
  by_cases hob8 : t.output_bits = 8
  · rw [if_neg (by omega), if_neg (by omega), if_pos hob8,
      if_pos (by omega : out.length < cap)]
    have hbeq : out ++ [t.output_data] = b := by
      apply bitsOfBytes_inj ?_ hb
      · rw [bitsOfBytes_append, bitsOfBytes_cons, bitsOfBytes_nil,
          List.append_nil]
        rw [hob8] at hout
        exact hout
      · intro x hx
        rcases List.mem_append.mp hx with h | h
        · exact houtlt x h
        · rw [List.mem_singleton] at h
          subst h
          rw [hob8] at hod
          omega
    refine ⟨{ t with output_data := 0, output_bits := 0 }, ?_, hterm,
      hsd, rfl⟩
    rw [hbeq]
  · have hob0 : t.output_bits = 0 := by omega
    rw [if_neg (by omega), if_neg (by omega), if_neg hob8]
    have hod0 : t.output_data = 0 := by
      rw [hob0] at hod
      omega
    have hbeq : out = b := by
      apply bitsOfBytes_inj houtlt hb
      rw [hob0, hod0, show bitsBE 0 0 = [] from rfl,
        List.append_nil] at hout
      exact hout
    refine ⟨t, ?_, hterm, hsd, hob0⟩
    rw [hbeq]

/-- The decoder main loop, run to termination from any invariant state:
it decodes the remaining stream, flushes the output and terminates with
neither the corrupted nor the unaligned flag. -/
theorem Decoder.decode_run (n : Nat) (b Y : List Nat) (p : Nat)
    (hb : ∀ x ∈ b, x < 256) (hp : p ≤ 7) :
    ∀ (s : Decoder) (cl : Nat) (out : List Nat) (cap : Nat),
      DecInv b Y p s cl out → b.length ≤ cap →
      24 * (b.length - out.length) + 2 * (8 - s.output_bits) +
        2 * (s.symbol_bits + 8 * (Y.length - cl)) ≤ n →
      ∃ fuel sF clF, Decoder.step fuel s Y cl cap out =
        some (sF, clF, b, .terminated false false) := by
  induction n with
  | zero =>
    intro s cl out cap hinv hdcap hmeas
    exfalso
    obtain ⟨hterm, hcl, h31, hlt, hlow, hob, hod, houtlt, Trem, hstream,
      hout⟩ := hinv
    have hlens := congrArg List.length hstream
    simp only [List.length_append, winBits_length, bitsOfBytes_length,
      bitsBE_length, List.length_replicate, List.length_drop] at hlens
    omega
  | succ n ih =>
    intro s cl out cap hinv hdcap hmeas
    by_cases hqb : s.queued_bits = 0
    · obtain ⟨s2, cl1, hcons, hob2, hcase⟩ :=
        Decoder.consume_parse b Y p s cl out hp hinv hqb
      rcases hcase with ⟨hterm2, hinv2, hdec⟩ |
        ⟨hterm2, hsd2, hqb2, hob2b, hod2, hout2⟩
      · obtain ⟨s3, out3, hprod, hinv3, hsb3, hst3, hm1, hm2⟩ :=
          Decoder.produce_spec b Y p s2 cl1 out cap hinv2 hdcap
        have hst3f : s3.symbol_term = false := by
          rw [hst3]
          exact hterm2
        obtain ⟨fuel, sF, clF, hstep⟩ := ih s3 cl1 out3 cap hinv3 hdcap
          (by omega)
        refine ⟨fuel + 1, sF, clF, ?_⟩
        rw [Decoder.step_unfold, hcons]
        dsimp only []
        rw [hprod]
        dsimp only []
        rw [if_neg (by simp [hst3f])]
        exact hstep
      · have houtlt : ∀ x ∈ out, x < 256 :=
          hinv.2.2.2.2.2.2.2.1
        obtain ⟨s3, hprod, ht3, hsd3, hob3⟩ :=
          Decoder.endgame b s2 cap out hdcap hb houtlt hterm2 hsd2 hqb2
            hob2b hod2 hout2
        refine ⟨1, s3, cl1, ?_⟩
        rw [show (1 : Nat) = 0 + 1 from rfl, Decoder.step_unfold, hcons]
        dsimp only []
        rw [hprod]
        dsimp only []
        rw [if_pos ht3, hsd3, hob3]
        rfl
    · have hterm : s.symbol_term = false := hinv.1
      have hcons : Decoder.consume s Y cl = (s, cl, false) := by
        unfold Decoder.consume
        rw [if_neg (by
          intro h
          exact hqb h.1)]
      obtain ⟨s3, out3, hprod, hinv3, hsb3, hst3, hm1, hm2⟩ :=
        Decoder.produce_spec b Y p s cl out cap hinv hdcap
      have hst3f : s3.symbol_term = false := by
        rw [hst3]
        exact hterm
      have hm3 := hm2 (Or.inl (by omega))
      obtain ⟨fuel, sF, clF, hstep⟩ := ih s3 cl out3 cap hinv3 hdcap
        (by omega)
      refine ⟨fuel + 1, sF, clF, ?_⟩
      rw [Decoder.step_unfold, hcons]
      dsimp only []
      rw [hprod]
      dsimp only []
      rw [if_neg (by simp [hst3f])]
      exact hstep

/-- `decode_from_slice` on any well-formed code stream recovers the
payload it encodes. -/
theorem decode_stream (b Y : List Nat) (p : Nat) (T : List Nat)
    (cap : Nat) (hb : ∀ x ∈ b, x < 256) (hp : p ≤ 7)
    (hdcap : b.length ≤ cap)
    (hY : bitsOfBytes Y = codeRuns false T ++ bitsBE 24 0xFFF ++
      List.replicate p false)
    (hT : runsBits false T = bitsOfBytes b) :
    ∃ fuel, decode_from_slice fuel Y cap = some (.ok b) := by
  have hinv : DecInv b Y p Decoder.new 0 [] := by
    refine ⟨rfl, Nat.zero_le _, by decide, by decide, by decide,
      by decide, by decide, by
        intro x hx
        simp at hx, T, ?_, ?_⟩
    · rw [show Decoder.new.symbol_bits = 0 from rfl, winBits_zero_len,
        List.nil_append, List.drop_zero]
      exact hY
    · rw [bitsOfBytes_nil, show Decoder.new.queued_bits = 0 from rfl,
        show bitsBE Decoder.new.output_bits Decoder.new.output_data = []
          from rfl]
      simp only [List.replicate_zero, List.nil_append]
      exact hT
  obtain ⟨fuel, sF, clF, hstep⟩ :=
    Decoder.decode_run (24 * b.length + 16 + 16 * Y.length) b Y p hb hp
      Decoder.new 0 [] cap hinv hdcap (by
        dsimp only [Decoder.new, List.length_nil]
        omega)
  refine ⟨fuel, ?_⟩
  unfold decode_from_slice
  rw [hstep]
  rfl

/-- **C1.** Round-trip: for every byte sequence `b`, a fresh encoder given
the end-of-input signal, the full input and a large enough output buffer
terminates in a single `step` call (never suspending, which is what
`encode_into_slice` returning `Ok` captures), and a fresh decoder run on
the produced bytes with a large enough output buffer terminates with
`corrupted = false` and `unaligned = false` (which is what
`decode_from_slice` returning `Ok` captures), yielding exactly `b`. -/
theorem claim_C1_round_trip (b : List Nat) (hb : ∀ x ∈ b, x < 256)
    (ecap dcap : Nat) (hecap : 208 * b.length + 80 ≤ 8 * ecap)
    (hdcap : b.length ≤ dcap) :
    ∃ ef df Y, encode_into_slice ef b ecap = some (.ok Y) ∧
      decode_from_slice df Y dcap = some (.ok b) := by
  obtain ⟨ef, Y, T, p, henc, hYbits, hT, hple⟩ := encode_stream b ecap hecap
  obtain ⟨df, hdec⟩ := decode_stream b Y p T dcap hb hple hdcap hYbits hT
  exact ⟨ef, df, Y, henc, hdec⟩

/-- Witness for C1 at the concrete payload `[42]`. -/
theorem claim_C1_witness :
    (∀ x ∈ [42], x < 256) ∧ 208 * [42].length + 80 ≤ 8 * 36 ∧
      ([42].length ≤ 1) ∧
      ∃ ef df Y, encode_into_slice ef [42] 36 = some (.ok Y) ∧
        decode_from_slice df Y 1 = some (.ok [42]) :=
  ⟨by decide, by decide, by decide,
    claim_C1_round_trip [42] (by decide) 36 1 (by decide) (by decide)⟩
